import Mathlib

/-! # c-ares random source (`src/lib/ares_rand.c`) and hash table (`src/lib/ares__htable.h`): shallow embedding

Bytes (`unsigned char`) and `size_t` values are natural numbers; wrap-around is
written out (`% 256`, `size_sub`).  Everything the C code obtains from outside
(the device file, `getrandom`, the OS generators, the material folded into the
RC4 key) is read from an environment `Env` of result streams with cursors, so
that every backend behaviour is some `Env`; a value read from a stream is
reduced `% 256` when it is stored into an `unsigned char`.  The `while (1)`
loops take a fuel argument: `none` means the loop was still running when the
fuel ran out.  Every operation also returns the list of `Event`s it performed.

A buffer argument `buf, len` is modelled by the bytes the call has stored in
`buf` on return, from `buf[0]` on: `len` of them, except after an
`RtlGenRandom` that stored fewer (its length parameter is a `ULONG` and its
result is not looked at), where the list is shorter.  When the buffer is the
cache itself (the top-up in `ares__rand_bytes`), the caller stores those bytes
over the cache of the state the call returns: a reinitialization during the
call clears the state before the pass that finally returns writes its bytes.
-/

namespace Ares

/-! ## Build configuration and data model -/

/-- Preprocessor symbols that `ares_rand.c` tests, and the byte order of the target. -/
structure BuildConfig where
  win32 : Bool
  have_arc4random_buf : Bool
  have_getrandom : Bool
  cares_random_file : Bool
  big_endian : Bool
deriving DecidableEq, Repr

/-- The condition of the first `#if` of `ares__init_rand_engine`: the platform has an OS generator. -/
def BuildConfig.has_os (cfg : BuildConfig) : Bool :=
  cfg.have_arc4random_buf || cfg.have_getrandom || cfg.win32

/-- The symbol `ARES_NEEDS_RC4` (source lines 25-27). -/
def ARES_NEEDS_RC4 (cfg : BuildConfig) : Bool :=
  !cfg.have_arc4random_buf && !cfg.have_getrandom && !cfg.win32

/-- The enum `ares_rand_backend`. -/
inductive ares_rand_backend where
  | ARES_RAND_OS
  | ARES_RAND_FILE
  | ARES_RAND_RC4
deriving DecidableEq, Repr

/-- The struct `ares_rand_rc4`. -/
structure ares_rand_rc4 where
  S : List Nat
  i : Nat
  j : Nat
deriving DecidableEq, Repr

/-- The struct `ares_rand_state`.  The two members of the union are kept as two
fields (`rand_file` is the `FILE *`, 0 for `NULL`); the code only ever reads
the member that `type` selects. -/
structure ares_rand_state where
  type : ares_rand_backend
  rand_file : Nat
  rc4 : ares_rand_rc4
  cache : List Nat
  cache_remaining : Nat
deriving DecidableEq, Repr

/-- The value of `sizeof(state->cache)`. -/
def CACHE_SIZE : Nat := 256

/-- The value of `ARES_RC4_KEY_LEN`. -/
def ARES_RC4_KEY_LEN : Nat := 32

/-- One more than `SIZE_MAX` (64-bit `size_t`). -/
def SIZE_MOD : Nat := 2 ^ 64

/-- Subtraction of two `size_t` values, wrapping around as in C. -/
def size_sub (a b : Nat) : Nat := (a + SIZE_MOD - b) % SIZE_MOD

/-- Which buffer a call of `ares__rand_bytes_fetch` fills. -/
inductive Dest where
  | caller
  | cache
deriving DecidableEq, Repr

/-- What the code did, in order. -/
inductive Event where
  | fetch (dest : Dest) (len : Nat)
  | memcpy (offset len : Nat)
  | RtlGenRandom (len : Nat)
  | arc4random_buf (len : Nat)
  | getrandom (offset asked : Nat) (rv : Int)
  | fread (offset asked rv : Nat)
  | rc4_prng (len : Nat)
  | fclose (fp : Nat)
  | fopen (fp : Nat)
  | rc4_init
  | reinit
deriving DecidableEq, Repr

/-- The outside world: the k-th call of each external function gets the k-th
entry of its stream; the `n_` fields count the calls made so far.
`RtlGenRandom_ok k` is the `BOOLEAN` that the k-th call of the OS generator
returns when that generator is `RtlGenRandom` (`TRUE` unless a world says
otherwise). -/
structure Env where
  fopen_result : Nat → Nat
  fread_result : Nat → List Nat
  getrandom_result : Nat → Option (List Nat)
  os_bytes : Nat → Nat → Nat
  rc4_key : Nat → List Nat
  n_fopen : Nat
  n_fread : Nat
  n_getrandom : Nat
  n_os : Nat
  n_key : Nat
  RtlGenRandom_ok : Nat → Bool := fun _ => true

/-! ## RC4 fallback -/

/-- Modelled from the spec: the macro `ARES_SWAP_BYTE` (defined in
`ares_private.h`, not among the sources) "swaps the two permutation entries":
`tmp = *a; *a = *b; *b = tmp` on `S[i]` and `S[j]`. -/
def ARES_SWAP_BYTE (S : List Nat) (i j : Nat) : List Nat :=
  let swapByte := S.getD i 0
  (S.set i (S.getD j 0)).set j swapByte

/-- The first loop of `ares_rc4_init`: `S[i] = i & 0xFF` for `i < sizeof(S)`. -/
def rc4_identity : List Nat := (List.range 256).map (fun i => i &&& 0xFF)

/-- One round of the second loop of `ares_rc4_init`. -/
def rc4_ksa_step (key : List Nat) (Sj : List Nat × Nat) (i : Nat) : List Nat × Nat :=
  let j := (Sj.2 + Sj.1.getD i 0 + key.getD (i % ARES_RC4_KEY_LEN) 0) % 256
  (ARES_SWAP_BYTE Sj.1 i j, j)

/-- The function `ares_rc4_init`, given the key that `ares_rc4_generate_key` produced. -/
def ares_rc4_init (key : List Nat) : ares_rand_rc4 :=
  let Sj := (List.range 256).foldl (rc4_ksa_step key) (rc4_identity, 0)
  { S := Sj.1, i := 0, j := 0 }

/-- The loop of `ares_rc4_prng`, `n` bytes still to emit. -/
def rc4_prng_loop : Nat → ares_rand_rc4 → ares_rand_rc4 × List Nat
  | 0, st => (st, [])
  | n + 1, st =>
    let i := (st.i + 1) % 256
    let j := (st.j + st.S.getD i 0) % 256
    let S := ARES_SWAP_BYTE st.S i j
    let b := S.getD ((S.getD i 0 + S.getD j 0) % 256) 0
    let r := rc4_prng_loop n { S := S, i := i, j := j }
    (r.1, b :: r.2)

/-- The function `ares_rc4_prng`: the new state and the `len` bytes stored in `buf`. -/
def ares_rc4_prng (rc4_state : ares_rand_rc4) (len : Nat) : ares_rand_rc4 × List Nat :=
  rc4_prng_loop len rc4_state

/-! ## Backend selection -/

/-- A run of `n` zero bytes. -/
def zero_bytes (n : Nat) : List Nat := List.replicate n 0

/-- The state right after `memset(state, 0, sizeof(*state))`, with the given tag stored. -/
def zeroed_state (t : ares_rand_backend) : ares_rand_state :=
  { type := t, rand_file := 0, rc4 := { S := zero_bytes 256, i := 0, j := 0 },
    cache := zero_bytes CACHE_SIZE, cache_remaining := 0 }

/-- What `ares__init_rand_engine` hands back: its `int` result, the world after
the call, the state it built, and the calls it made. -/
structure InitResult where
  ret : Nat
  env : Env
  state : ares_rand_state
  trace : List Event

/-- The RC4 part of `ares__init_rand_engine` (source lines 198-204); the key is
the one `ares_rc4_generate_key` derives from addresses, the clock and `rand()`. -/
def init_rc4 (env : Env) (tr : List Event) : InitResult :=
  { ret := 1,
    env := { env with n_key := env.n_key + 1 },
    state := { zeroed_state .ARES_RAND_RC4 with rc4 := ares_rc4_init (env.rc4_key env.n_key) },
    trace := tr ++ [Event.rc4_init] }

/-- The function `ares__init_rand_engine`.  Its first statement clears the whole
state, so nothing of the previous contents enters the result. -/
def ares__init_rand_engine (cfg : BuildConfig) (env : Env) : InitResult :=
  if cfg.has_os then
    { ret := 1, env := env, state := zeroed_state .ARES_RAND_OS, trace := [] }
  else if cfg.cares_random_file then
    let fp := env.fopen_result env.n_fopen
    let env1 := { env with n_fopen := env.n_fopen + 1 }
    if fp ≠ 0 then
      { ret := 1, env := env1,
        state := { zeroed_state .ARES_RAND_FILE with rand_file := fp },
        trace := [Event.fopen fp] }
    else
      init_rc4 env1 [Event.fopen fp]
  else
    init_rc4 env []

/-- The function `ares__init_rand_state`, allocation taken to succeed. -/
def ares__init_rand_state (cfg : BuildConfig) (env : Env) : Option InitResult :=
  let r := ares__init_rand_engine cfg env
  if r.ret = 0 then none else some r

/-- The function `ares__clear_rand_state`: the calls it makes. -/
def ares__clear_rand_state (state : ares_rand_state) : List Event :=
  match state.type with
  | .ARES_RAND_OS => []
  | .ARES_RAND_FILE => [Event.fclose state.rand_file]
  | .ARES_RAND_RC4 => []

/-- The function `ares__reinit_rand`. -/
def ares__reinit_rand (cfg : BuildConfig) (env : Env) (state : ares_rand_state) : InitResult :=
  let r := ares__init_rand_engine cfg env
  { r with trace := Event.reinit :: (ares__clear_rand_state state ++ r.trace) }

/-! ## Fetching from the backend -/

/-- Result of `ares__rand_bytes_fetch` and of `ares__rand_bytes`: `bytes` are the
bytes the call stored in `buf`, from `buf[0]` on, in order.  They are `len`
bytes when the call stored all it was asked for; positions of `buf` beyond
them keep what they held. -/
structure FetchResult where
  env : Env
  state : ares_rand_state
  bytes : List Nat
  trace : List Event

/-- The bytes an OS generator stores when it fills `len` bytes.  This is what
`arc4random_buf(buf, len)` does: it takes a `size_t`, returns nothing and fills
the whole buffer. -/
def os_fill (env : Env) (len : Nat) : List Nat :=
  (List.range len).map (fun p => env.os_bytes env.n_os p % 256)

/-- One more than the largest `ULONG` (32 bits, also where `size_t` has 64). -/
def ULONG_MOD : Nat := 2 ^ 32

/-- The bytes `RtlGenRandom(buf, len)` stores (source lines 174 and 271).  The
prototype takes the length as a `ULONG`, so the `size_t len` is converted and
the function sees `len % 2^32`.  When it returns `TRUE` it has filled that many
bytes; when it returns `FALSE` it has produced none.  The code drops the
`BOOLEAN`, so both cases continue alike. -/
def RtlGenRandom_fill (env : Env) (len : Nat) : List Nat :=
  if env.RtlGenRandom_ok env.n_os then os_fill env (len % ULONG_MOD) else []

/-- The inner `getrandom` loop (source lines 277-289); `acc` is `buf[0 .. bytes_read)`.
`bytes_read` never exceeds `len` here (a call stores at most the bytes asked
for), so `len - bytes_read` does not wrap. -/
def getrandom_loop (len : Nat) : Nat → Env → List Nat → Option (Env × List Nat × List Event)
  | 0, _, _ => none
  | fuel + 1, env, acc =>
    let bytes_read := acc.length
    let n := len - bytes_read
    let asked := if n > 256 then 256 else n
    let env1 := { env with n_getrandom := env.n_getrandom + 1 }
    match env.getrandom_result env.n_getrandom with
    | none =>
      (getrandom_loop len fuel env1 acc).map
        (fun r => (r.1, r.2.1, Event.getrandom bytes_read asked (-1) :: r.2.2))
    | some chunk =>
      let got := (chunk.take asked).map (fun b => b % 256)
      let rv := got.length
      let e := Event.getrandom bytes_read asked rv
      if rv = 0 then
        (getrandom_loop len fuel env1 acc).map (fun r => (r.1, r.2.1, e :: r.2.2))
      else if (acc ++ got).length = len then
        some (env1, acc ++ got, [e])
      else
        (getrandom_loop len fuel env1 (acc ++ got)).map (fun r => (r.1, r.2.1, e :: r.2.2))

/-- The inner `fread` loop (source lines 297-305); `acc` is `buf[0 .. bytes_read)`.
The middle component is `some bytes` when the loop executed `return` and `none`
when it left through `break`.  As above, `len - bytes_read` does not wrap. -/
def fread_loop (len : Nat) : Nat → Env → List Nat → Option (Env × Option (List Nat) × List Event)
  | 0, _, _ => none
  | fuel + 1, env, acc =>
    let bytes_read := acc.length
    let asked := len - bytes_read
    let got := ((env.fread_result env.n_fread).take asked).map (fun b => b % 256)
    let rv := got.length
    let env1 := { env with n_fread := env.n_fread + 1 }
    let e := Event.fread bytes_read asked rv
    if rv = 0 then
      some (env1, none, [e])
    else if (acc ++ got).length = len then
      some (env1, some (acc ++ got), [e])
    else
      (fread_loop len fuel env1 (acc ++ got)).map (fun r => (r.1, r.2.1, e :: r.2.2))

/-- The function `ares__rand_bytes_fetch`.  One unit of fuel per round of the
outer `while (1)`; the inner loops get the fuel that is left. -/
def ares__rand_bytes_fetch (cfg : BuildConfig) :
    Nat → Env → ares_rand_state → Nat → Option FetchResult
  | 0, _, _, _ => none
  | fuel + 1, env, state, len =>
    let retry (env1 : Env) (tr : List Event) : Option FetchResult :=
      let r := ares__reinit_rand cfg env1 state
      (ares__rand_bytes_fetch cfg fuel r.env r.state len).map
        (fun x => { x with trace := tr ++ r.trace ++ x.trace })
    match state.type with
    | .ARES_RAND_OS =>
      if cfg.win32 then
        some { env := { env with n_os := env.n_os + 1 }, state := state,
               bytes := RtlGenRandom_fill env len,
               trace := [Event.RtlGenRandom (len % ULONG_MOD)] }
      else if cfg.have_arc4random_buf then
        some { env := { env with n_os := env.n_os + 1 }, state := state,
               bytes := os_fill env len, trace := [Event.arc4random_buf len] }
      else if cfg.have_getrandom then
        (getrandom_loop len fuel env []).map
          (fun r => { env := r.1, state := state, bytes := r.2.1, trace := r.2.2 })
      else
        retry env []
    | .ARES_RAND_FILE =>
      match fread_loop len fuel env [] with
      | none => none
      | some (env1, some bytes, tr) =>
        some { env := env1, state := state, bytes := bytes, trace := tr }
      | some (env1, none, tr) => retry env1 tr
    | .ARES_RAND_RC4 =>
      if ARES_NEEDS_RC4 cfg then
        let r := ares_rc4_prng state.rc4 len
        some { env := env, state := { state with rc4 := r.1 }, bytes := r.2,
               trace := [Event.rc4_prng len] }
      else
        retry env []

/-! ## The public functions -/

/-- Storing `src` at the start of the buffer `dst`. -/
def write_buf (dst src : List Nat) : List Nat := src ++ dst.drop src.length

/-- The function `ares__rand_bytes`. -/
def ares__rand_bytes (cfg : BuildConfig) (fuel : Nat) (env : Env) (state : ares_rand_state)
    (len : Nat) : Option FetchResult :=
  let refill : Option (Env × ares_rand_state × List Event) :=
    if len > state.cache_remaining ∧ len < CACHE_SIZE then
      let fetch_size := size_sub CACHE_SIZE state.cache_remaining
      (ares__rand_bytes_fetch cfg fuel env state fetch_size).map
        (fun r => (r.env,
                   { r.state with cache := write_buf r.state.cache r.bytes,
                                  cache_remaining := CACHE_SIZE },
                   Event.fetch .cache fetch_size :: r.trace))
    else
      some (env, state, [])
  match refill with
  | none => none
  | some (env1, st1, tr1) =>
    if len ≤ st1.cache_remaining then
      let offset := size_sub CACHE_SIZE st1.cache_remaining
      some { env := env1,
             state := { st1 with cache_remaining := st1.cache_remaining - len },
             bytes := (st1.cache.drop offset).take len,
             trace := tr1 ++ [Event.memcpy offset len] }
    else
      (ares__rand_bytes_fetch cfg fuel env1 st1 len).map
        (fun r => { r with trace := tr1 ++ Event.fetch .caller len :: r.trace })

/-- The `unsigned short` whose object representation is the bytes `b0 b1`. -/
def u16_of_bytes (cfg : BuildConfig) (bs : List Nat) : Nat :=
  if cfg.big_endian then bs.getD 0 0 * 256 + bs.getD 1 0 else bs.getD 0 0 + bs.getD 1 0 * 256

/-- The object representation (two bytes, in memory order) of an `unsigned short`. -/
def bytes_of_u16 (cfg : BuildConfig) (r : Nat) : List Nat :=
  if cfg.big_endian then [r / 256 % 256, r % 256] else [r % 256, r / 256 % 256]

/-- Result of `ares__generate_new_id`. -/
structure IdResult where
  env : Env
  state : ares_rand_state
  id : Nat
  trace : List Event

/-- The function `ares__generate_new_id` (`sizeof(unsigned short)` is 2). -/
def ares__generate_new_id (cfg : BuildConfig) (fuel : Nat) (env : Env)
    (state : ares_rand_state) : Option IdResult :=
  (ares__rand_bytes cfg fuel env state 2).map
    (fun r => { env := r.env, state := r.state, id := u16_of_bytes cfg r.bytes, trace := r.trace })

/-! ## Notions used by the statements -/

/-- States a caller can hold: built by `ares__init_rand_state`, then passed
through any number of returning `ares__rand_bytes` calls. -/
inductive Reachable (cfg : BuildConfig) : ares_rand_state → Prop where
  | init (env : Env) (r : InitResult) :
      ares__init_rand_state cfg env = some r → Reachable cfg r.state
  | step (fuel : Nat) (env : Env) (st : ares_rand_state) (len : Nat) (r : FetchResult) :
      Reachable cfg st → ares__rand_bytes cfg fuel env st len = some r → Reachable cfg r.state

/-- The sizes of the `ares__rand_bytes_fetch` calls recorded in a trace. -/
def fetch_sizes : List Event → List Nat
  | [] => []
  | Event.fetch _ n :: tr => n :: fetch_sizes tr
  | _ :: tr => fetch_sizes tr

/-- The offsets and lengths of the cache copies recorded in a trace. -/
def cache_copies : List Event → List (Nat × Nat)
  | [] => []
  | Event.memcpy off n :: tr => (off, n) :: cache_copies tr
  | _ :: tr => cache_copies tr

/-- Events that come from below `ares__rand_bytes`: everything except the two
that `ares__rand_bytes` itself records. -/
def backend_event : Event → Bool
  | Event.fetch _ _ => false
  | Event.memcpy _ _ => false
  | _ => true

/-- A driver: `n` consecutive calls of `ares__generate_new_id`, the identifiers
in call order and the concatenated trace. -/
def generate_ids (cfg : BuildConfig) (fuel : Nat) :
    Nat → Env → ares_rand_state → Option (Env × ares_rand_state × List Nat × List Event)
  | 0, env, st => some (env, st, [], [])
  | n + 1, env, st =>
    match ares__generate_new_id cfg fuel env st with
    | none => none
    | some r =>
      (generate_ids cfg fuel n r.env r.state).map
        (fun x => (x.1, x.2.1, r.id :: x.2.2.1, r.trace ++ x.2.2.2))

/-- The frame of `ares__rand_bytes_fetch`: what a returning call can have done to the state. -/
def FetchFrame (st : ares_rand_state) (r : FetchResult) : Prop :=
  (r.state.cache = st.cache ∧ r.state.cache_remaining = st.cache_remaining ∧
    r.state.type = st.type ∧ r.state.rand_file = st.rand_file ∧ Event.reinit ∉ r.trace) ∨
  (r.state.cache = zero_bytes CACHE_SIZE ∧ r.state.cache_remaining = 0 ∧ Event.reinit ∈ r.trace)

/-- The backend tag is one the build can serve: `ARES_RAND_OS` only with an OS
generator, `ARES_RAND_RC4` only when the RC4 code is compiled in. -/
def TypeOk (cfg : BuildConfig) (st : ares_rand_state) : Prop :=
  (st.type = .ARES_RAND_OS → cfg.has_os = true) ∧
  (st.type = .ARES_RAND_RC4 → ARES_NEEDS_RC4 cfg = true)

/-- A state as the C type describes it: a 256-byte cache, at most 256 bytes of it
unused, and every stored `unsigned char` below 256. -/
def WellFormed (st : ares_rand_state) : Prop :=
  st.cache.length = 256 ∧ st.cache_remaining ≤ 256 ∧
  (∀ b ∈ st.cache, b < 256) ∧ (∀ b ∈ st.rc4.S, b < 256)

/-- Where the OS generator is `RtlGenRandom`, its next call fills a request of
`len` bytes: it reports success and `len` fits a `ULONG`. -/
def RtlGenRandom_fills (cfg : BuildConfig) (env : Env) (len : Nat) : Prop :=
  cfg.win32 = true → env.RtlGenRandom_ok env.n_os = true ∧ len < ULONG_MOD

/-- Every later `fread` and `getrandom` delivers at least one byte. -/
def BackendDelivers (env : Env) : Prop :=
  (∀ k, env.n_fread ≤ k → env.fread_result k ≠ []) ∧
  (∀ k, env.n_getrandom ≤ k → ∃ c, env.getrandom_result k = some c ∧ c ≠ [])

/-! ## Concrete inputs used by the examples -/

/-- A build with neither an OS generator nor a device file: RC4 only. -/
def cfg_rc4 : BuildConfig :=
  { win32 := false, have_arc4random_buf := false, have_getrandom := false,
    cares_random_file := false, big_endian := false }

/-- A build without an OS generator and with `CARES_RANDOM_FILE` defined. -/
def cfg_file : BuildConfig :=
  { win32 := false, have_arc4random_buf := false, have_getrandom := false,
    cares_random_file := true, big_endian := false }

/-- A build with `arc4random_buf`. -/
def cfg_arc4 : BuildConfig :=
  { win32 := false, have_arc4random_buf := true, have_getrandom := false,
    cares_random_file := false, big_endian := false }

/-- A Windows build: `RtlGenRandom` is the OS generator. -/
def cfg_win32 : BuildConfig :=
  { win32 := true, have_arc4random_buf := false, have_getrandom := false,
    cares_random_file := false, big_endian := false }

/-- A world in which the device file always opens and every read returns zero bytes. -/
def env_dead_file : Env :=
  { fopen_result := fun _ => 1, fread_result := fun _ => [], getrandom_result := fun _ => none,
    os_bytes := fun _ _ => 0, rc4_key := fun _ => [],
    n_fopen := 0, n_fread := 0, n_getrandom := 0, n_os := 0, n_key := 0 }

/-- A world in which the device file opens and every read offers 256 bytes of value 7,
and the OS generator produces bytes of value 9. -/
def env_sevens : Env :=
  { fopen_result := fun _ => 1, fread_result := fun _ => List.replicate 256 7,
    getrandom_result := fun _ => some (List.replicate 256 7),
    os_bytes := fun _ _ => 9, rc4_key := fun _ => [],
    n_fopen := 0, n_fread := 0, n_getrandom := 0, n_os := 0, n_key := 0 }

/-- The world `env_sevens`, except that every call of `RtlGenRandom` returns `FALSE`. -/
def env_rtl_fails : Env := { env_sevens with RtlGenRandom_ok := fun _ => false }

/-- A world in which the first read of the device file returns zero bytes and all
later reads offer 256 bytes of value 7; the file reopens. -/
def env_one_failure : Env :=
  { fopen_result := fun _ => 1,
    fread_result := fun k => if k = 0 then [] else List.replicate 256 7,
    getrandom_result := fun _ => none,
    os_bytes := fun _ _ => 0, rc4_key := fun _ => [],
    n_fopen := 0, n_fread := 0, n_getrandom := 0, n_os := 0, n_key := 0 }

/-- A state with the device-file backend, a cache of 256 bytes of value 5 and
`rem` of them unused. -/
def st_fives (t : ares_rand_backend) (rem : Nat) : ares_rand_state :=
  { type := t, rand_file := 1, rc4 := { S := List.range 256, i := 0, j := 0 },
    cache := List.replicate 256 5, cache_remaining := rem }

/-- A world in which the device file opens, the second read returns zero bytes
and every other read offers 256 bytes of value 7. -/
def env_second_read_fails : Env :=
  { fopen_result := fun _ => 1,
    fread_result := fun k => if k = 1 then [] else List.replicate 256 7,
    getrandom_result := fun _ => none,
    os_bytes := fun _ _ => 0, rc4_key := fun _ => [],
    n_fopen := 0, n_fread := 0, n_getrandom := 0, n_os := 0, n_key := 0 }

/-- The world after one read has been consumed. -/
def env_after_first_read : Env := { env_second_read_fails with n_fopen := 1, n_fread := 1 }

/-- The state a device-file build holds after `ares__init_rand_state` and one
`ares__rand_bytes(state, buf, 2)` in the world `env_second_read_fails`. -/
def st_after_first_read : ares_rand_state :=
  { type := .ARES_RAND_FILE, rand_file := 1, rc4 := { S := zero_bytes 256, i := 0, j := 0 },
    cache := List.replicate 256 7, cache_remaining := 254 }

/-- The spec's "swap the two permutation entries", on a table given as a function. -/
def spec_swap (T : Nat → Nat) (a b : Nat) : Nat → Nat :=
  fun x => if x = a then T b else if x = b then T a else T x

/-- The spec's key schedule after `r` rounds, started from the identity
permutation with secondary index 0: round `r` advances the secondary index to
`(secondary + permutation[primary] + key[primary mod key_length]) mod 256` and
swaps the entries at primary and secondary.  Returns the table and the
secondary index. -/
def spec_key_schedule (key : List Nat) : Nat → (Nat → Nat) × Nat
  | 0 => (fun x => x, 0)
  | r + 1 =>
    let prev := spec_key_schedule key r
    let j := (prev.2 + prev.1 r + key.getD (r % key.length) 0) % 256
    (spec_swap prev.1 r j, j)

/-- The spec's emission of `n` bytes from table `T` and running indices `i`, `j`. -/
def spec_emit : Nat → (Nat → Nat) → Nat → Nat → List Nat
  | 0, _, _, _ => []
  | n + 1, T, i, j =>
    let i1 := (i + 1) % 256
    let j1 := (j + T i1) % 256
    let T1 := spec_swap T i1 j1
    T1 ((T1 i1 + T1 j1) % 256) :: spec_emit n T1 i1 j1

/-- The first `n` bytes of the reference generator for `key`: 256 rounds of key
schedule, then emission from indices 0, 0. -/
def spec_rc4_keystream (key : List Nat) (n : Nat) : List Nat :=
  spec_emit n (spec_key_schedule key 256).1 0 0

/-- The list `S` and the function `T` hold the same 256 table entries. -/
def TableAgree (S : List Nat) (T : Nat → Nat) : Prop :=
  S.length = 256 ∧ ∀ x, x < 256 → S.getD x 0 = T x

/-! ## Shape of the device-file reads (used by C15) -/

/-- The reads of one pass of the device-file loop for a request of `len` bytes,
seen from buffer offset `off`: every read starts at the current offset and asks
for the `len - off` bytes still missing; every read but the last returns a
positive count that leaves bytes missing and moves the offset by that count;
the last read either completes the request or returns zero. -/
def reads_ok (len : Nat) : Nat → List Event → Prop
  | off, [Event.fread o asked rv] => o = off ∧ asked = len - off ∧ (rv = 0 ∨ off + rv = len)
  | off, Event.fread o asked rv :: e :: tr =>
      o = off ∧ asked = len - off ∧ 0 < rv ∧ off + rv < len ∧ reads_ok len (off + rv) (e :: tr)
  | _, _ => False

/-- The bytes that the reads of a trace stored, in order, the first read taking
entry `k` of the read stream. -/
def read_chunks (stream : Nat → List Nat) : Nat → List Event → List Nat
  | k, Event.fread _ asked _ :: tr =>
      ((stream k).take asked).map (fun b => b % 256) ++ read_chunks stream (k + 1) tr
  | _, _ => []

/-! ## Hash table (`ares__htable.h`)

Only the header is among the sources; the functions are modelled from the
spec (section 4.2).  Entries are values of a type `α`, keys of a type `κ`;
allocation outcomes are an extra argument. -/

/-- Modelled from the spec: the callbacks a table is created with, under the
names the header gives them.  The implementation file is missing; the
entry-destroy callback `bucket_free` only releases memory and appears as the
`destroyed` component of the results. -/
structure htable_callbacks (α κ : Type) where
  hash_func : κ → Nat → Nat
  bucket_key : α → κ
  key_eq : κ → κ → Bool

/-- Modelled from the spec: the struct `ares__htable` (its definition is in the
missing implementation file): "bucket array of fixed power-of-two length,
current entry count, a 32-bit seed fixed at creation".  Each bucket is the
chain of its entries. -/
structure ares__htable (α : Type) where
  buckets : List (List α)
  num_keys : Nat
  seed : Nat

/-- Modelled from the spec: the minimum bucket count, "a minimum floor (e.g. 8)";
the constant itself is in the missing implementation file. -/
def ARES__HTABLE_MIN_BUCKETS : Nat := 8

/-- Modelled from the spec: bucket selection, "index = hash_fn(key, seed) mod
bucket_count"; the implementation file is missing. -/
def htable_idx {α κ : Type} (cb : htable_callbacks α κ) (t : ares__htable α) (key : κ) : Nat :=
  cb.hash_func key t.seed % t.buckets.length

/-- Modelled from the spec: the scan of a chain "using equals_fn", first match
wins; the implementation file is missing. -/
def htable_find {α κ : Type} (cb : htable_callbacks α κ) (chain : List α) (key : κ) : Option α :=
  chain.find? (fun x => cb.key_eq key (cb.bucket_key x))

/-- Modelled from the spec: "the entry is appended to the bucket's chain", for
the chain of bucket `idx`; the implementation file is missing. -/
def chain_append {α : Type} (buckets : List (List α)) (idx : Nat) (e : α) : List (List α) :=
  buckets.set idx (buckets.getD idx [] ++ [e])

/-- Modelled from the spec: "every existing entry" of a bucket array, bucket by
bucket, as growth and destroy visit them; the implementation file is missing. -/
def all_entries {α : Type} : List (List α) → List α
  | [] => []
  | chain :: rest => chain ++ all_entries rest

/-- Modelled from the spec: `ares__htable_create` (implementation file missing):
"initializes an empty table at the minimum bucket count, retaining the seed";
`none` on allocation failure. -/
def ares__htable_create {α : Type} (alloc_ok : Bool) (seed : Nat) : Option (ares__htable α) :=
  if alloc_ok then
    some { buckets := List.replicate ARES__HTABLE_MIN_BUCKETS [], num_keys := 0, seed := seed }
  else none

/-- Modelled from the spec: the growth step (implementation file missing):
"allocate a new bucket array of double size, and for every existing entry
recompute index = hash_fn(key, seed) mod new_bucket_count and relink it into
the new array". -/
def htable_expand {α κ : Type} (cb : htable_callbacks α κ) (t : ares__htable α) :
    ares__htable α :=
  let n := 2 * t.buckets.length
  let relinked := (all_entries t.buckets).foldl
    (fun nb e => chain_append nb (cb.hash_func (cb.bucket_key e) t.seed % n) e)
    (List.replicate n [])
  { t with buckets := relinked }

/-- Result of `ares__htable_insert`: the `unsigned int` it returns and the table afterwards. -/
structure htable_insert_result (α : Type) where
  ret : Nat
  table : ares__htable α

/-- Modelled from the spec: `ares__htable_insert` (implementation file missing).
The chain at the entry's index is scanned; a matching key makes the insert
fail "without mutating the table".  Otherwise the entry is appended, the count
incremented, and "if afterward entry_count / bucket_count > 0.75, the table
grows".  The insert also fails on allocation failure; the spec does not say
what the table holds then, and the model leaves it as it was. -/
def ares__htable_insert {α κ : Type} (cb : htable_callbacks α κ) (alloc_ok : Bool)
    (t : ares__htable α) (bucket : α) : htable_insert_result α :=
  let key := cb.bucket_key bucket
  let idx := htable_idx cb t key
  match htable_find cb (t.buckets.getD idx []) key with
  | some _ => { ret := 0, table := t }
  | none =>
    if alloc_ok then
      let t1 : ares__htable α :=
        { t with buckets := chain_append t.buckets idx bucket, num_keys := t.num_keys + 1 }
      if 4 * t1.num_keys > 3 * t1.buckets.length then
        { ret := 1, table := htable_expand cb t1 }
      else
        { ret := 1, table := t1 }
    else
      { ret := 0, table := t }

/-- Modelled from the spec: `ares__htable_get` (implementation file missing):
"scans the target bucket's chain via equals_fn; returns the matching entry or
a not-found indicator". -/
def ares__htable_get {α κ : Type} (cb : htable_callbacks α κ) (t : ares__htable α) (key : κ) :
    Option α :=
  htable_find cb (t.buckets.getD (htable_idx cb t key) []) key

/-- Result of `ares__htable_remove`: the `unsigned int` it returns, the table
afterwards and the entry handed to the destroy callback. -/
structure htable_remove_result (α : Type) where
  ret : Nat
  table : ares__htable α
  destroyed : Option α

/-- Modelled from the spec: `ares__htable_remove` (implementation file missing):
"locates and unlinks the matching entry from its chain, invokes destroy_fn on
it, decrements the count, and returns a found/not-found indicator.  Not-found
does not mutate the table." -/
def ares__htable_remove {α κ : Type} (cb : htable_callbacks α κ) (t : ares__htable α) (key : κ) :
    htable_remove_result α :=
  let idx := htable_idx cb t key
  let chain := t.buckets.getD idx []
  match htable_find cb chain key with
  | none => { ret := 0, table := t, destroyed := none }
  | some e =>
    { ret := 1,
      table := { t with buckets := t.buckets.set idx
                          (chain.eraseP (fun x => cb.key_eq key (cb.bucket_key x))),
                        num_keys := t.num_keys - 1 },
      destroyed := some e }

/-- Modelled from the spec: `ares__htable_num_keys` (implementation file
missing): "O(1) return of the current entry count". -/
def ares__htable_num_keys {α : Type} (t : ares__htable α) : Nat := t.num_keys

/-- Tables a caller can hold: created, then passed through inserts and removes. -/
inductive HtReachable {α κ : Type} (cb : htable_callbacks α κ) : ares__htable α → Prop where
  | create (seed : Nat) (t : ares__htable α) :
      ares__htable_create true seed = some t → HtReachable cb t
  | insert (alloc_ok : Bool) (t : ares__htable α) (bucket : α) :
      HtReachable cb t → HtReachable cb (ares__htable_insert cb alloc_ok t bucket).table
  | remove (t : ares__htable α) (key : κ) :
      HtReachable cb t → HtReachable cb (ares__htable_remove cb t key).table

/-- What the table expects of its callbacks: the equality callback is an
equivalence and the hash callback gives equal keys equal hashes. -/
structure LawfulCallbacks {α κ : Type} (cb : htable_callbacks α κ) : Prop where
  eq_refl : ∀ k, cb.key_eq k k = true
  eq_symm : ∀ a b, cb.key_eq a b = true → cb.key_eq b a = true
  eq_trans : ∀ a b c, cb.key_eq a b = true → cb.key_eq b c = true → cb.key_eq a c = true
  hash_eq : ∀ a b seed, cb.key_eq a b = true → cb.hash_func a seed = cb.hash_func b seed

/-- No two distinct positions of the list hold entries with equal keys. -/
def DistinctKeys {α κ : Type} (cb : htable_callbacks α κ) (l : List α) : Prop :=
  l.Pairwise (fun a b => cb.key_eq (cb.bucket_key a) (cb.bucket_key b) = false)

/-- The structural invariant of a table: at least one bucket, every entry in
the bucket its key hashes to, no two entries with equal keys, and `num_keys`
the number of entries. -/
def HtWF {α κ : Type} (cb : htable_callbacks α κ) (t : ares__htable α) : Prop :=
  0 < t.buckets.length ∧
  (∀ i, i < t.buckets.length → ∀ e ∈ t.buckets.getD i [],
      htable_idx cb t (cb.bucket_key e) = i) ∧
  DistinctKeys cb (all_entries t.buckets) ∧
  t.num_keys = (all_entries t.buckets).length

/-- The size invariant of a table: the load factor is at most 0.75 and the
bucket count is a power of two, at least 8. -/
def HtSized {α : Type} (t : ares__htable α) : Prop :=
  4 * t.num_keys ≤ 3 * t.buckets.length ∧
  ∃ k, 3 ≤ k ∧ t.buckets.length = 2 ^ k

/-- Callbacks for a table of natural numbers keyed by themselves. -/
def nat_callbacks : htable_callbacks Nat Nat :=
  { hash_func := fun k seed => k + seed, bucket_key := fun e => e, key_eq := fun a b => a == b }

/-- Inserting a list of entries one after the other, allocation succeeding. -/
def insert_all {α κ : Type} (cb : htable_callbacks α κ) (t : ares__htable α) :
    List α → ares__htable α
  | [] => t
  | e :: es => insert_all cb (ares__htable_insert cb true t e).table es

/-- The table with eight empty buckets and seed 5. -/
def empty_table : ares__htable Nat :=
  { buckets := List.replicate ARES__HTABLE_MIN_BUCKETS [], num_keys := 0, seed := 5 }

/-! ## Hash functions (`ares__htable_hash_FNV1a`, `ares__htable_hash_FNV1a_casecmp`)

Declared in `ares__htable.h`; their bodies are in the missing implementation
file. -/

/-- Modelled from the spec: the initial value of the hash, "the seed is mixed
into the hash's initial basis".  The implementation file is missing and the
spec does not say how the seed is mixed; here it is XORed into the FNV offset
basis.  Nothing proved below depends on this choice. -/
def fnv1a_basis (seed : Nat) : Nat := (2166136261 ^^^ seed) % 2 ^ 32

/-- Modelled from the spec: one folding step of the "32-bit FNV1a-style hash"
(implementation file missing): XOR the byte in, multiply by the FNV prime,
keep 32 bits. -/
def fnv1a_step (hv byte : Nat) : Nat := ((hv ^^^ byte) * 16777619) % 2 ^ 32

/-- Modelled from the spec: the ASCII-only lower-casing the case-insensitive
hash applies ("maps ASCII letters to a single case"; the header says
"converts all characters to lowercase"); the implementation file is missing. -/
def ares__tolower (c : Nat) : Nat := if 65 ≤ c ∧ c ≤ 90 then c + 32 else c

/-- Modelled from the spec: the loop of `ares__htable_hash_FNV1a` (implementation
file missing) from index `i`, `n` bytes to go: the bytes are folded in order. -/
def fnv1a_loop (key : List Nat) : Nat → Nat → Nat → Nat
  | 0, _, hv => hv
  | n + 1, i, hv => fnv1a_loop key n (i + 1) (fnv1a_step hv (key.getD i 0))

/-- Modelled from the spec: the loop of `ares__htable_hash_FNV1a_casecmp`
(implementation file missing) from index `i`, `n` bytes to go: each byte is
lower-cased as it is read, then folded. -/
def fnv1a_casecmp_loop (key : List Nat) : Nat → Nat → Nat → Nat
  | 0, _, hv => hv
  | n + 1, i, hv =>
    fnv1a_casecmp_loop key n (i + 1) (fnv1a_step hv (ares__tolower (key.getD i 0)))

/-- Modelled from the spec: `ares__htable_hash_FNV1a(key, key_len, seed)`
(implementation file missing): "a seeded 32-bit FNV1a-style hash over an
arbitrary-length byte key". -/
def ares__htable_hash_FNV1a (key : List Nat) (key_len : Nat) (seed : Nat) : Nat :=
  fnv1a_loop key key_len 0 (fnv1a_basis seed)

/-- Modelled from the spec: `ares__htable_hash_FNV1a_casecmp(key, key_len, seed)`
(implementation file missing): the "case-insensitive variant [that] first maps
ASCII letters to a single case before folding". -/
def ares__htable_hash_FNV1a_casecmp (key : List Nat) (key_len : Nat) (seed : Nat) : Nat :=
  fnv1a_casecmp_loop key key_len 0 (fnv1a_basis seed)

/-- The bytes of the string "Example.COM". -/
def key_mixed_case : List Nat := [69, 120, 97, 109, 112, 108, 101, 46, 67, 79, 77]

/-- The bytes of the string "example.com". -/
def key_lower_case : List Nat := [101, 120, 97, 109, 112, 108, 101, 46, 99, 111, 109]

/-! ## Where delivered bytes come from (used by C16) -/

/-- A driver: consecutive `ares__rand_bytes` calls with the given lengths; the
delivered byte strings in call order and the concatenated trace. -/
def rand_bytes_calls (cfg : BuildConfig) (fuel : Nat) :
    List Nat → Env → ares_rand_state →
      Option (Env × ares_rand_state × List (List Nat) × List Event)
  | [], env, st => some (env, st, [], [])
  | len :: lens, env, st =>
    match ares__rand_bytes cfg fuel env st len with
    | none => none
    | some r =>
      (rand_bytes_calls cfg fuel lens r.env r.state).map
        (fun x => (x.1, x.2.1, r.bytes :: x.2.2.1, r.trace ++ x.2.2.2))

/-- The cache discipline, checked along a trace from `rem` unserved bytes: a
fetch into the cache covers exactly the served prefix `[0, 256 - rem)` and
makes all 256 bytes unserved; a cache copy starts at the first unserved
position `256 - rem` and takes at most the `rem` unserved bytes, which become
served; a reinitialization does not occur.  The result is the number of
unserved bytes at the end, `none` if the discipline is broken. -/
def discipline_run : Nat → List Event → Option Nat
  | rem, [] => some rem
  | rem, Event.fetch Dest.cache n :: tr =>
      if n = 256 - rem then discipline_run 256 tr else none
  | rem, Event.memcpy off len :: tr =>
      if off = 256 - rem ∧ len ≤ rem then discipline_run (rem - len) tr else none
  | _, Event.reinit :: _ => none
  | rem, _ :: tr => discipline_run rem tr

/-- The origins of the `n` bytes of fetch number `k`: `(k, 0) .. (k, n - 1)`. -/
def fetched_origins (k n : Nat) : List (Option (Nat × Nat)) :=
  (List.range n).map (fun p => some (k, p))

/-- Bookkeeping of origins: for every cache position the fetched byte it holds
(`none` for the zero of the initial `memset`), the number of fetches so far,
and the origin of every byte delivered so far, in delivery order. -/
structure Ledger where
  cache : List (Option (Nat × Nat))
  fetches : Nat
  delivered : List (Option (Nat × Nat))

/-- The ledger of a freshly initialised state. -/
def ledger_start : Ledger :=
  { cache := List.replicate CACHE_SIZE none, fetches := 0, delivered := [] }

/-- What an event does to the ledger: a fetch into the cache stores its bytes
over `cache[0 .. n)`, a fetch into the caller's buffer delivers its bytes, a
cache copy delivers `cache[off .. off + len)`. -/
def ledger_step (L : Ledger) : Event → Ledger
  | Event.fetch Dest.cache n =>
      { L with cache := fetched_origins L.fetches n ++ L.cache.drop n,
               fetches := L.fetches + 1 }
  | Event.fetch Dest.caller n =>
      { L with delivered := L.delivered ++ fetched_origins L.fetches n,
               fetches := L.fetches + 1 }
  | Event.memcpy off len =>
      { L with delivered := L.delivered ++ (L.cache.drop off).take len }
  | _ => L

/-- The ledger after a trace. -/
def ledger_replay (L : Ledger) (tr : List Event) : Ledger := tr.foldl ledger_step L

/-- The ledger is sound for `rem` unserved bytes: the unserved cache bytes and
the delivered bytes all come from fetches made so far, and no fetched byte
occurs twice among them. -/
def LedgerInv (L : Ledger) (rem : Nat) : Prop :=
  L.cache.length = 256 ∧ rem ≤ 256 ∧
  (∀ o ∈ L.cache.drop (256 - rem) ++ L.delivered, ∃ k p, o = some (k, p) ∧ k < L.fetches) ∧
  (L.cache.drop (256 - rem) ++ L.delivered).Nodup

/-- The number of bytes a trace delivers to callers. -/
def delivered_count : List Event → Nat
  | [] => 0
  | Event.fetch Dest.caller n :: tr => n + delivered_count tr
  | Event.memcpy _ len :: tr => len + delivered_count tr
  | _ :: tr => delivered_count tr

/-- The counts of the reads of a trace come from the world: the first read is
call `k` of the read stream, the next one call `k + 1`, and so on, and each
returns as many bytes as its call offers, at most the bytes it asked for. -/
def reads_from (stream : Nat → List Nat) : Nat → List Event → Prop
  | _, [] => True
  | k, Event.fread _ asked rv :: tr =>
      rv = min asked (stream k).length ∧ reads_from stream (k + 1) tr
  | _, _ :: _ => False

/-- A world in which the device file opens and its reads offer three bytes, one
byte, nothing, and from then on six bytes. -/
def env_trickle : Env :=
  { fopen_result := fun _ => 1,
    fread_result := fun k =>
      if k = 0 then [10, 11, 12] else if k = 1 then [13] else if k = 2 then []
      else [20, 21, 22, 23, 24, 25],
    getrandom_result := fun _ => none,
    os_bytes := fun _ _ => 0, rc4_key := fun _ => [],
    n_fopen := 0, n_fread := 0, n_getrandom := 0, n_os := 0, n_key := 0 }

/-- A backend whose fetches do not fail: every later `fread` and `getrandom`
delivers at least one byte and every later `RtlGenRandom` reports success. -/
def BackendFills (env : Env) : Prop :=
  BackendDelivers env ∧ ∀ k, env.n_os ≤ k → env.RtlGenRandom_ok k = true

/-- The bytes returned by the backend fetch that one call of `ares__rand_bytes`
makes, as a list of at most one byte string: none when the request is within
the unused bytes, else the result of `ares__rand_bytes_fetch` for the top-up
size `256 - cache_remaining` (when `len < 256`) or for `len`. -/
def call_fetched (cfg : BuildConfig) (fuel : Nat) (env : Env) (st : ares_rand_state)
    (len : Nat) : List (List Nat) :=
  if len ≤ st.cache_remaining then []
  else
    match ares__rand_bytes_fetch cfg fuel env st
        (if len < 256 then 256 - st.cache_remaining else len) with
    | some x => [x.bytes]
    | none => []

/-- The bytes returned by the backend fetches of a run of `ares__rand_bytes`
calls, one byte string per fetch, in fetch order. -/
def calls_fetched (cfg : BuildConfig) (fuel : Nat) :
    List Nat → Env → ares_rand_state → List (List Nat)
  | [], _, _ => []
  | len :: lens, env, st =>
    match ares__rand_bytes cfg fuel env st len with
    | none => []
    | some r => call_fetched cfg fuel env st len ++ calls_fetched cfg fuel lens r.env r.state

/-- The byte an origin names among the fetched byte strings `F`: byte `p` of
fetch `k`; the zero of the initial `memset` when there is no origin. -/
def origin_byte (F : List (List Nat)) : Option (Nat × Nat) → Nat
  | none => 0
  | some (k, p) => (F.getD k []).getD p 0

/-- The ledger agrees with the bytes: it has counted the fetches `F`, every
unserved cache byte and every delivered byte `D` is the byte its origin names,
and every origin names a byte that a fetch returned. -/
def LedgerAgrees (L : Ledger) (st : ares_rand_state) (F : List (List Nat)) (D : List Nat) : Prop :=
  L.fetches = F.length ∧
  st.cache.drop (256 - st.cache_remaining) =
    (L.cache.drop (256 - st.cache_remaining)).map (origin_byte F) ∧
  D = L.delivered.map (origin_byte F) ∧
  ∀ o ∈ L.cache.drop (256 - st.cache_remaining) ++ L.delivered,
    ∃ k p, o = some (k, p) ∧ k < F.length ∧ p < (F.getD k []).length

/-- A world whose device file opens and whose read number `k` offers 16 bytes:
`16 k, 16 k + 1, ..., 16 k + 15` for the first 16 reads (256 distinct bytes),
and `200, 201, ..., 215` afterwards. -/
def env_counting : Env :=
  { fopen_result := fun _ => 1,
    fread_result := fun k =>
      if k < 16 then (List.range 16).map (fun p => 16 * k + p)
      else (List.range 16).map (fun p => 200 + p),
    getrandom_result := fun _ => some [1],
    os_bytes := fun _ _ => 0, rc4_key := fun _ => [],
    n_fopen := 0, n_fread := 0, n_getrandom := 0, n_os := 0, n_key := 0 }

/-! ## Basic facts -/

theorem size_sub_of_le (a b : Nat) (hb : b ≤ a) (ha : a < SIZE_MOD) : size_sub a b = a - b := by
  unfold size_sub
  have h : a + SIZE_MOD - b = (a - b) + SIZE_MOD := by omega
  rw [h, Nat.add_mod_right]
  exact Nat.mod_eq_of_lt (by omega)

theorem size_sub_cache (r : Nat) (hr : r ≤ 256) : size_sub CACHE_SIZE r = 256 - r := by
  have h := size_sub_of_le 256 r hr (by unfold SIZE_MOD; norm_num)
  simpa [CACHE_SIZE] using h

theorem swap_length (S : List Nat) (i j : Nat) : (ARES_SWAP_BYTE S i j).length = S.length := by
  simp [ARES_SWAP_BYTE]

theorem getD_eq_getElem (S : List Nat) (i : Nat) (hi : i < S.length) : S.getD i 0 = S[i] := by
  simp [List.getD_eq_getElem?_getD, List.getElem?_eq_getElem hi]

theorem swap_perm (S : List Nat) (i j : Nat) (hi : i < S.length) (hj : j < S.length) :
    (ARES_SWAP_BYTE S i j).Perm S := by
  rw [List.perm_iff_count]
  intro a
  unfold ARES_SWAP_BYTE
  have hj2 : j < (S.set i (S.getD j 0)).length := by simpa using hj
  rw [List.count_set _ _ _ _ hj2, List.count_set _ _ _ _ hi]
  have e3 : (S.set i (S.getD j 0))[j] = S[j] := by
    rw [List.getElem_set]
    split_ifs with h
    · exact getD_eq_getElem S j hj
    · rfl
  rw [e3, getD_eq_getElem S i hi, getD_eq_getElem S j hj]
  have ci : (if S[i] == a then 1 else 0) ≤ S.count a := by
    by_cases h : S[i] = a
    · subst h
      simp
    · simp [h]
  generalize (if S[i] == a then 1 else 0) = A at ci ⊢
  generalize (if S[j] == a then 1 else 0) = B
  omega

/-! ## The RC4 table stays a permutation -/

theorem rc4_identity_eq : rc4_identity = List.range 256 := by
  unfold rc4_identity
  conv_rhs => rw [← List.map_id (List.range 256)]
  apply List.map_congr_left
  intro i hi
  have h : i < 256 := List.mem_range.mp hi
  have e : i &&& 0xFF = i % 2 ^ 8 := Nat.and_pow_two_sub_one_eq_mod i 8
  rw [e]
  exact Nat.mod_eq_of_lt h

theorem ksa_step_perm (key : List Nat) (Sj : List Nat × Nat) (i : Nat) (hi : i < 256)
    (h : Sj.1.Perm (List.range 256)) : (rc4_ksa_step key Sj i).1.Perm (List.range 256) := by
  have hl : Sj.1.length = 256 := by simpa using h.length_eq
  unfold rc4_ksa_step
  refine (swap_perm Sj.1 i _ (by omega) ?_).trans h
  rw [hl]
  exact Nat.mod_lt _ (by norm_num)

theorem ksa_fold_perm (key : List Nat) (l : List Nat) (hl : ∀ i ∈ l, i < 256) :
    ∀ Sj : List Nat × Nat, Sj.1.Perm (List.range 256) →
      (l.foldl (rc4_ksa_step key) Sj).1.Perm (List.range 256) := by
  induction l with
  | nil => intro Sj h; simpa using h
  | cons a l ih =>
    intro Sj h
    rw [List.foldl_cons]
    exact ih (fun i hi => hl i (List.mem_cons_of_mem _ hi)) _
      (ksa_step_perm key Sj a (hl a (List.mem_cons_self _ _)) h)

theorem rc4_init_perm (key : List Nat) : (ares_rc4_init key).S.Perm (List.range 256) := by
  have h0 : rc4_identity.Perm (List.range 256) := List.Perm.of_eq rc4_identity_eq
  have h := ksa_fold_perm key (List.range 256) (fun i hi => List.mem_range.mp hi) (rc4_identity, 0) h0
  simp only [ares_rc4_init]
  exact h

theorem rc4_prng_loop_inv (n : Nat) : ∀ st : ares_rand_rc4,
    st.S.Perm (List.range 256) → st.i < 256 → st.j < 256 →
    (rc4_prng_loop n st).1.S.Perm (List.range 256) ∧
      (rc4_prng_loop n st).1.i < 256 ∧ (rc4_prng_loop n st).1.j < 256 := by
  induction n with
  | zero => intro st hS hi hj; exact ⟨hS, hi, hj⟩
  | succ n ih =>
    intro st hS _ _
    have hl : st.S.length = 256 := by simpa using hS.length_eq
    have h256 : 0 < 256 := by norm_num
    simp only [rc4_prng_loop]
    apply ih
    · refine (swap_perm st.S _ _ ?_ ?_).trans hS <;> rw [hl] <;> exact Nat.mod_lt _ h256
    · exact Nat.mod_lt _ h256
    · exact Nat.mod_lt _ h256

theorem rc4_prng_loop_length (n : Nat) : ∀ st : ares_rand_rc4, (rc4_prng_loop n st).2.length = n := by
  induction n with
  | zero => intro st; rfl
  | succ n ih => intro st; simp [rc4_prng_loop, ih]

/-- C10: the RC4 table is always a permutation.  For every key (32 bytes or any
other length) `ares_rc4_init` leaves in `S` a rearrangement of 0..255, each
value once, with `i = j = 0`; and `ares_rc4_prng`, started on a state whose `S`
is such a rearrangement with `i, j < 256`, ends in a state of the same kind,
for every `len`. -/
theorem rc4_state_is_permutation :
    (∀ key : List Nat,
      (ares_rc4_init key).S.Perm (List.range 256) ∧
      (∀ v, v < 256 → (ares_rc4_init key).S.count v = 1) ∧
      (ares_rc4_init key).i = 0 ∧ (ares_rc4_init key).j = 0) ∧
    (∀ (st : ares_rand_rc4) (len : Nat),
      st.S.Perm (List.range 256) → st.i < 256 → st.j < 256 →
      (ares_rc4_prng st len).1.S.Perm (List.range 256) ∧
      (ares_rc4_prng st len).1.i < 256 ∧ (ares_rc4_prng st len).1.j < 256) := by
  refine ⟨fun key => ⟨rc4_init_perm key, ?_, rfl, rfl⟩, fun st len hS hi hj => ?_⟩
  · intro v hv
    rw [(rc4_init_perm key).count_eq v]
    exact List.count_eq_one_of_mem (List.nodup_range 256) (List.mem_range.mpr hv)
  · exact rc4_prng_loop_inv len st hS hi hj

set_option maxRecDepth 100000 in
/-- C10 at a concrete input: three bytes drawn from the identity table. -/
theorem rc4_state_is_permutation_witness :
    (List.range 256).Perm (List.range 256) ∧
    (ares_rc4_prng { S := List.range 256, i := 0, j := 0 } 3).1.S.Perm (List.range 256) ∧
    (ares_rc4_prng { S := List.range 256, i := 0, j := 0 } 3).1.i < 256 ∧
    (ares_rc4_prng { S := List.range 256, i := 0, j := 0 } 3).1.j < 256 :=
  ⟨List.Perm.refl (List.range 256),
   rc4_state_is_permutation.2 { S := List.range 256, i := 0, j := 0 } 3
     (List.Perm.refl (List.range 256)) (Nat.zero_lt_succ 255) (Nat.zero_lt_succ 255)⟩

/-! ## Backend selection (C7) -/

theorem init_engine_os (cfg : BuildConfig) (env : Env) (h : cfg.has_os = true) :
    ares__init_rand_engine cfg env =
      { ret := 1, env := env, state := zeroed_state .ARES_RAND_OS, trace := [] } := by
  simp only [ares__init_rand_engine, h, if_true]

theorem init_engine_file (cfg : BuildConfig) (env : Env) (h : cfg.has_os = false)
    (hf : cfg.cares_random_file = true) (ho : env.fopen_result env.n_fopen ≠ 0) :
    ares__init_rand_engine cfg env =
      { ret := 1, env := { env with n_fopen := env.n_fopen + 1 },
        state := { zeroed_state .ARES_RAND_FILE with rand_file := env.fopen_result env.n_fopen },
        trace := [Event.fopen (env.fopen_result env.n_fopen)] } := by
  simp only [ares__init_rand_engine, h, hf, if_true, ho, ne_eq, not_false_eq_true]
  rfl

theorem init_engine_file_fails (cfg : BuildConfig) (env : Env) (h : cfg.has_os = false)
    (hf : cfg.cares_random_file = true) (ho : env.fopen_result env.n_fopen = 0) :
    ares__init_rand_engine cfg env =
      init_rc4 { env with n_fopen := env.n_fopen + 1 } [Event.fopen 0] := by
  simp only [ares__init_rand_engine, h, hf, if_true, ho, ne_eq, not_true_eq_false, if_false]
  rfl

theorem init_engine_rc4 (cfg : BuildConfig) (env : Env) (h : cfg.has_os = false)
    (hf : cfg.cares_random_file = false) :
    ares__init_rand_engine cfg env = init_rc4 env [] := by
  simp only [ares__init_rand_engine, h, hf]
  rfl

/-- Whatever the build and the world, the state that `ares__init_rand_engine`
builds has a zeroed cache with nothing unused in it. -/
theorem init_engine_cache (cfg : BuildConfig) (env : Env) :
    (ares__init_rand_engine cfg env).ret = 1 ∧
    (ares__init_rand_engine cfg env).state.cache = zero_bytes CACHE_SIZE ∧
    (ares__init_rand_engine cfg env).state.cache_remaining = 0 := by
  cases h : cfg.has_os
  · cases hf : cfg.cares_random_file
    · rw [init_engine_rc4 cfg env h hf]
      exact ⟨rfl, rfl, rfl⟩
    · by_cases ho : env.fopen_result env.n_fopen = 0
      · rw [init_engine_file_fails cfg env h hf ho]
        exact ⟨rfl, rfl, rfl⟩
      · rw [init_engine_file cfg env h hf ho]
        exact ⟨rfl, rfl, rfl⟩
  · rw [init_engine_os cfg env h]
    exact ⟨rfl, rfl, rfl⟩

/-- C7: for every build configuration and every outcome of `fopen`,
`ares__init_rand_engine` returns 1 and picks the OS generator when the platform
has one, else the device file when it is configured and opens, else RC4; the
state it builds has `cache_remaining = 0`. -/
theorem init_rand_engine_priority (cfg : BuildConfig) (env : Env) :
    (ares__init_rand_engine cfg env).ret = 1 ∧
    (ares__init_rand_engine cfg env).state.type =
      (if cfg.has_os then ares_rand_backend.ARES_RAND_OS
       else if cfg.cares_random_file ∧ env.fopen_result env.n_fopen ≠ 0 then
         ares_rand_backend.ARES_RAND_FILE
       else ares_rand_backend.ARES_RAND_RC4) ∧
    (ares__init_rand_engine cfg env).state.cache_remaining = 0 ∧
    ares__init_rand_state cfg env = some (ares__init_rand_engine cfg env) := by
  have hc := init_engine_cache cfg env
  refine ⟨hc.1, ?_, hc.2.2, ?_⟩
  · cases h : cfg.has_os
    · cases hf : cfg.cares_random_file
      · rw [init_engine_rc4 cfg env h hf]
        simp [init_rc4, zeroed_state]
      · by_cases ho : env.fopen_result env.n_fopen = 0
        · rw [init_engine_file_fails cfg env h hf ho]
          simp [init_rc4, zeroed_state, ho]
        · rw [init_engine_file cfg env h hf ho]
          simp [zeroed_state, ho]
    · rw [init_engine_os cfg env h]
      simp [zeroed_state]
  · simp [ares__init_rand_state, hc.1]

/-! ## Serving from the cache (C1) -/

/-- C1: when `len ≤ cache_remaining ≤ 256`, `ares__rand_bytes` (with any fuel)
returns without any backend fetch: the world is as before, the only recorded
action is the copy of `len` bytes from cache offset `256 - cache_remaining`,
the delivered bytes are exactly those cache bytes, `cache_remaining` drops by
`len`, and cache contents, backend tag and handle are as before. -/
theorem rand_bytes_served_from_cache (cfg : BuildConfig) (fuel : Nat) (env : Env)
    (st : ares_rand_state) (len : Nat)
    (hcache : st.cache.length = 256) (hrem : st.cache_remaining ≤ 256)
    (hlen : len ≤ st.cache_remaining) :
    ares__rand_bytes cfg fuel env st len =
      some { env := env,
             state := { st with cache_remaining := st.cache_remaining - len },
             bytes := (st.cache.drop (256 - st.cache_remaining)).take len,
             trace := [Event.memcpy (256 - st.cache_remaining) len] } ∧
    ((st.cache.drop (256 - st.cache_remaining)).take len).length = len ∧
    (∀ k, k < len →
      ((st.cache.drop (256 - st.cache_remaining)).take len).getD k 0 =
        st.cache.getD (256 - st.cache_remaining + k) 0) ∧
    fetch_sizes [Event.memcpy (256 - st.cache_remaining) len] = [] := by
  refine ⟨?_, ?_, ?_, rfl⟩
  · have h1 : ¬ (len > st.cache_remaining ∧ len < CACHE_SIZE) := by omega
    simp only [ares__rand_bytes, h1, if_false, hlen, if_true, size_sub_cache _ hrem, List.nil_append]
  · rw [List.length_take, List.length_drop, hcache]
    omega
  · intro k hk
    simp [List.getD_eq_getElem?_getD, List.getElem?_take, hk, List.getElem?_drop]

/-! ## What a returning fetch guarantees -/

theorem fread_loop_spec (len : Nat) (fuel : Nat) :
    ∀ (env : Env) (acc : List Nat) (r : Env × Option (List Nat) × List Event),
      fread_loop len fuel env acc = some r →
      (∀ bytes, r.2.1 = some bytes → bytes.length = len) ∧ Event.reinit ∉ r.2.2 := by
  induction fuel with
  | zero => intro env acc r h; simp [fread_loop] at h
  | succ fuel ih =>
    intro env acc r h
    simp only [fread_loop] at h
    split_ifs at h with h0 h1
    · cases h
      simp
    · cases h
      refine ⟨?_, by simp⟩
      intro bytes hb
      cases hb
      exact h1
    · rw [Option.map_eq_some'] at h
      obtain ⟨x, hx, rfl⟩ := h
      have := ih _ _ _ hx
      exact ⟨this.1, by simp [this.2]⟩

theorem getrandom_loop_spec (len : Nat) (fuel : Nat) :
    ∀ (env : Env) (acc : List Nat) (r : Env × List Nat × List Event),
      getrandom_loop len fuel env acc = some r →
      r.2.1.length = len ∧ Event.reinit ∉ r.2.2 := by
  induction fuel with
  | zero => intro env acc r h; simp [getrandom_loop] at h
  | succ fuel ih =>
    intro env acc r h
    simp only [getrandom_loop] at h
    split at h
    · rw [Option.map_eq_some'] at h
      obtain ⟨x, hx, rfl⟩ := h
      have := ih _ _ _ hx
      exact ⟨this.1, by simp [this.2]⟩
    · split_ifs at h <;>
        first
        | (cases h; exact ⟨by assumption, by simp⟩)
        | (rw [Option.map_eq_some'] at h
           obtain ⟨x, hx, rfl⟩ := h
           have := ih _ _ _ hx
           exact ⟨this.1, by simp [this.2]⟩)

theorem reinit_state (cfg : BuildConfig) (env : Env) (st : ares_rand_state) :
    (ares__reinit_rand cfg env st).state.cache = zero_bytes CACHE_SIZE ∧
    (ares__reinit_rand cfg env st).state.cache_remaining = 0 ∧
    Event.reinit ∈ (ares__reinit_rand cfg env st).trace := by
  have h := init_engine_cache cfg env
  exact ⟨h.2.1, h.2.2, by simp [ares__reinit_rand]⟩

theorem fread_loop_env (len : Nat) (fuel : Nat) :
    ∀ (env : Env) (acc : List Nat) (r : Env × Option (List Nat) × List Event),
      fread_loop len fuel env acc = some r → r.1 = { env with n_fread := r.1.n_fread } := by
  induction fuel with
  | zero => intro env acc r h; simp [fread_loop] at h
  | succ fuel ih =>
    intro env acc r h
    simp only [fread_loop] at h
    split_ifs at h
    · cases h
      rfl
    · cases h
      rfl
    · rw [Option.map_eq_some'] at h
      obtain ⟨x, hx, rfl⟩ := h
      have := ih _ _ _ hx
      show x.1 = { env with n_fread := x.1.n_fread }
      rw [this]

theorem init_engine_env (cfg : BuildConfig) (env : Env) :
    (ares__init_rand_engine cfg env).env =
      { env with n_fopen := (ares__init_rand_engine cfg env).env.n_fopen,
                 n_key := (ares__init_rand_engine cfg env).env.n_key } := by
  cases h : cfg.has_os
  · cases hf : cfg.cares_random_file
    · rw [init_engine_rc4 cfg env h hf]
      rfl
    · by_cases ho : env.fopen_result env.n_fopen = 0
      · rw [init_engine_file_fails cfg env h hf ho]
        rfl
      · rw [init_engine_file cfg env h hf ho]
  · rw [init_engine_os cfg env h]

theorem RtlGenRandom_fill_length (env : Env) (len : Nat) :
    (RtlGenRandom_fill env len).length ≤ len := by
  unfold RtlGenRandom_fill
  split_ifs
  · simp only [os_fill, List.length_map, List.length_range]
    exact Nat.mod_le _ _
  · simp

/-- What every returning fetch guarantees: at most `len` bytes stored, and the
state either as it was or cleared by a reinitialization. -/
theorem fetch_frame (cfg : BuildConfig) (len : Nat) (fuel : Nat) :
    ∀ (env : Env) (st : ares_rand_state) (r : FetchResult),
      ares__rand_bytes_fetch cfg fuel env st len = some r →
      r.bytes.length ≤ len ∧ FetchFrame st r := by
  induction fuel with
  | zero => intro env st r h; simp [ares__rand_bytes_fetch] at h
  | succ fuel ih =>
    intro env st r h
    have retry : ∀ (env1 : Env) (tr : List Event),
        (ares__rand_bytes_fetch cfg fuel (ares__reinit_rand cfg env1 st).env
            (ares__reinit_rand cfg env1 st).state len).map
          (fun x => { x with trace := tr ++ (ares__reinit_rand cfg env1 st).trace ++ x.trace })
          = some r → r.bytes.length ≤ len ∧ FetchFrame st r := by
      intro env1 tr hr
      rw [Option.map_eq_some'] at hr
      obtain ⟨x, hx, rfl⟩ := hr
      have hx2 := ih _ _ _ hx
      have hre := reinit_state cfg env1 st
      refine ⟨hx2.1, Or.inr ?_⟩
      rcases hx2.2 with ⟨hc, hr, _, _, _⟩ | ⟨hc, hr, _⟩
      · exact ⟨hc.trans hre.1, hr.trans hre.2.1, by simp [hre.2.2]⟩
      · exact ⟨hc, hr, by simp [hre.2.2]⟩
    simp only [ares__rand_bytes_fetch] at h
    split at h
    · split_ifs at h
      · cases h
        exact ⟨RtlGenRandom_fill_length env len, Or.inl ⟨rfl, rfl, rfl, rfl, by simp⟩⟩
      · cases h
        exact ⟨by simp [os_fill], Or.inl ⟨rfl, rfl, rfl, rfl, by simp⟩⟩
      · rw [Option.map_eq_some'] at h
        obtain ⟨x, hx, rfl⟩ := h
        have := getrandom_loop_spec len fuel _ _ _ hx
        exact ⟨Nat.le_of_eq this.1, Or.inl ⟨rfl, rfl, rfl, rfl, this.2⟩⟩
      · exact retry _ _ h
    · split at h
      · cases h
      · rename_i env1 bytes tr hfr
        cases h
        have := fread_loop_spec len fuel _ _ _ hfr
        exact ⟨Nat.le_of_eq (this.1 bytes rfl), Or.inl ⟨rfl, rfl, rfl, rfl, this.2⟩⟩
      · exact retry _ _ h
    · split_ifs at h
      · cases h
        exact ⟨by simp [ares_rc4_prng, rc4_prng_loop_length], Or.inl ⟨rfl, rfl, rfl, rfl, by simp⟩⟩
      · exact retry _ _ h

/-- A returning fetch has stored all `len` bytes, provided `RtlGenRandom` (where
it is the OS generator) fills its request. -/
theorem fetch_length (cfg : BuildConfig) (len : Nat) (fuel : Nat) :
    ∀ (env : Env) (st : ares_rand_state) (r : FetchResult),
      RtlGenRandom_fills cfg env len →
      ares__rand_bytes_fetch cfg fuel env st len = some r → r.bytes.length = len := by
  induction fuel with
  | zero => intro env st r _ h; simp [ares__rand_bytes_fetch] at h
  | succ fuel ih =>
    intro env st r hrtl h
    have retry : ∀ (env1 : Env) (tr : List Event),
        env1.n_os = env.n_os → env1.RtlGenRandom_ok = env.RtlGenRandom_ok →
        (ares__rand_bytes_fetch cfg fuel (ares__reinit_rand cfg env1 st).env
            (ares__reinit_rand cfg env1 st).state len).map
          (fun x => { x with trace := tr ++ (ares__reinit_rand cfg env1 st).trace ++ x.trace })
          = some r → r.bytes.length = len := by
      intro env1 tr e1 e2 hr
      rw [Option.map_eq_some'] at hr
      obtain ⟨x, hx, rfl⟩ := hr
      refine ih _ _ x ?_ hx
      have he := init_engine_env cfg env1
      intro hw
      have h1 : (ares__reinit_rand cfg env1 st).env.n_os = env.n_os := by
        show (ares__init_rand_engine cfg env1).env.n_os = env.n_os
        rw [he]
        exact e1
      have h2 : (ares__reinit_rand cfg env1 st).env.RtlGenRandom_ok = env.RtlGenRandom_ok := by
        show (ares__init_rand_engine cfg env1).env.RtlGenRandom_ok = env.RtlGenRandom_ok
        rw [he]
        exact e2
      rw [h1, h2]
      exact hrtl hw
    simp only [ares__rand_bytes_fetch] at h
    split at h
    · split_ifs at h with hw
      · cases h
        obtain ⟨hok, hlt⟩ := hrtl hw
        simp only [RtlGenRandom_fill, hok, if_true, os_fill, List.length_map, List.length_range]
        exact Nat.mod_eq_of_lt hlt
      · cases h
        simp [os_fill]
      · rw [Option.map_eq_some'] at h
        obtain ⟨x, hx, rfl⟩ := h
        exact (getrandom_loop_spec len fuel _ _ _ hx).1
      · exact retry _ _ rfl rfl h
    · split at h
      · cases h
      · rename_i env1 bytes tr hfr
        cases h
        exact (fread_loop_spec len fuel _ _ _ hfr).1 bytes rfl
      · rename_i env1 tr hfr
        have he : env1 = { env with n_fread := env1.n_fread } := fread_loop_env len fuel _ _ _ hfr
        exact retry _ _ (by rw [he]) (by rw [he]) h
    · split_ifs at h
      · cases h
        simp [ares_rc4_prng, rc4_prng_loop_length]
      · exact retry _ _ rfl rfl h

theorem fetch_sizes_append (a b : List Event) :
    fetch_sizes (a ++ b) = fetch_sizes a ++ fetch_sizes b := by
  induction a with
  | nil => rfl
  | cons e a ih => cases e <;> simp [fetch_sizes, ih]

theorem cache_copies_append (a b : List Event) :
    cache_copies (a ++ b) = cache_copies a ++ cache_copies b := by
  induction a with
  | nil => rfl
  | cons e a ih => cases e <;> simp [cache_copies, ih]

theorem fetch_sizes_backend (tr : List Event) (h : ∀ e ∈ tr, backend_event e = true) :
    fetch_sizes tr = [] ∧ cache_copies tr = [] := by
  induction tr with
  | nil => exact ⟨rfl, rfl⟩
  | cons e tr ih =>
    have h1 := h e (List.mem_cons_self _ _)
    have h2 := ih (fun x hx => h x (List.mem_cons_of_mem _ hx))
    cases e <;> simp_all [fetch_sizes, cache_copies, backend_event]

theorem fread_loop_trace (len : Nat) (fuel : Nat) :
    ∀ (env : Env) (acc : List Nat) (r : Env × Option (List Nat) × List Event),
      fread_loop len fuel env acc = some r → ∀ e ∈ r.2.2, backend_event e = true := by
  induction fuel with
  | zero => intro env acc r h; simp [fread_loop] at h
  | succ fuel ih =>
    intro env acc r h
    simp only [fread_loop] at h
    split_ifs at h <;>
      first
      | (cases h; simp [backend_event])
      | (rw [Option.map_eq_some'] at h
         obtain ⟨x, hx, rfl⟩ := h
         have := ih _ _ _ hx
         simpa [backend_event] using this)

theorem getrandom_loop_trace (len : Nat) (fuel : Nat) :
    ∀ (env : Env) (acc : List Nat) (r : Env × List Nat × List Event),
      getrandom_loop len fuel env acc = some r → ∀ e ∈ r.2.2, backend_event e = true := by
  induction fuel with
  | zero => intro env acc r h; simp [getrandom_loop] at h
  | succ fuel ih =>
    intro env acc r h
    simp only [getrandom_loop] at h
    split at h
    · rw [Option.map_eq_some'] at h
      obtain ⟨x, hx, rfl⟩ := h
      have := ih _ _ _ hx
      simpa [backend_event] using this
    · split_ifs at h <;>
        first
        | (cases h; simp [backend_event])
        | (rw [Option.map_eq_some'] at h
           obtain ⟨x, hx, rfl⟩ := h
           have := ih _ _ _ hx
           simpa [backend_event] using this)

theorem reinit_trace (cfg : BuildConfig) (env : Env) (st : ares_rand_state) :
    ∀ e ∈ (ares__reinit_rand cfg env st).trace, backend_event e = true := by
  have hinit : ∀ e ∈ (ares__init_rand_engine cfg env).trace, backend_event e = true := by
    cases h : cfg.has_os
    · cases hf : cfg.cares_random_file
      · rw [init_engine_rc4 cfg env h hf]
        simp [init_rc4, backend_event]
      · by_cases ho : env.fopen_result env.n_fopen = 0
        · rw [init_engine_file_fails cfg env h hf ho]
          simp [init_rc4, backend_event]
        · rw [init_engine_file cfg env h hf ho]
          simp [backend_event]
    · rw [init_engine_os cfg env h]
      simp
  have hclear : ∀ e ∈ ares__clear_rand_state st, backend_event e = true := by
    unfold ares__clear_rand_state
    split <;> simp [backend_event]
  intro e he
  simp only [ares__reinit_rand, List.mem_cons, List.mem_append] at he
  rcases he with rfl | he | he
  · rfl
  · exact hclear e he
  · exact hinit e he

theorem fetch_trace (cfg : BuildConfig) (len : Nat) (fuel : Nat) :
    ∀ (env : Env) (st : ares_rand_state) (r : FetchResult),
      ares__rand_bytes_fetch cfg fuel env st len = some r →
      ∀ e ∈ r.trace, backend_event e = true := by
  induction fuel with
  | zero => intro env st r h; simp [ares__rand_bytes_fetch] at h
  | succ fuel ih =>
    intro env st r h
    have retry : ∀ (env1 : Env) (tr : List Event), (∀ e ∈ tr, backend_event e = true) →
        (ares__rand_bytes_fetch cfg fuel (ares__reinit_rand cfg env1 st).env
            (ares__reinit_rand cfg env1 st).state len).map
          (fun x => { x with trace := tr ++ (ares__reinit_rand cfg env1 st).trace ++ x.trace })
          = some r → ∀ e ∈ r.trace, backend_event e = true := by
      intro env1 tr htr hr
      rw [Option.map_eq_some'] at hr
      obtain ⟨x, hx, rfl⟩ := hr
      have hx2 := ih _ _ _ hx
      have hre := reinit_trace cfg env1 st
      intro e he
      simp only [List.mem_append] at he
      rcases he with (he | he) | he
      · exact htr e he
      · exact hre e he
      · exact hx2 e he
    simp only [ares__rand_bytes_fetch] at h
    split at h
    · split_ifs at h
      · cases h
        simp [backend_event]
      · cases h
        simp [backend_event]
      · rw [Option.map_eq_some'] at h
        obtain ⟨x, hx, rfl⟩ := h
        exact getrandom_loop_trace len fuel _ _ _ hx
      · exact retry _ _ (by simp) h
    · split at h
      · cases h
      · rename_i env1 bytes tr hfr
        cases h
        exact fread_loop_trace len fuel _ _ _ hfr
      · rename_i env1 tr hfr
        exact retry _ _ (fread_loop_trace len fuel _ _ _ hfr) h
    · split_ifs at h
      · cases h
        simp [backend_event]
      · exact retry _ _ (by simp) h

/-! ## The three paths of `ares__rand_bytes` -/

theorem rand_bytes_serve (cfg : BuildConfig) (fuel : Nat) (env : Env) (st : ares_rand_state)
    (len : Nat) (hrem : st.cache_remaining ≤ 256) (hlen : len ≤ st.cache_remaining) :
    ares__rand_bytes cfg fuel env st len =
      some { env := env,
             state := { st with cache_remaining := st.cache_remaining - len },
             bytes := (st.cache.drop (256 - st.cache_remaining)).take len,
             trace := [Event.memcpy (256 - st.cache_remaining) len] } := by
  have h1 : ¬ (len > st.cache_remaining ∧ len < CACHE_SIZE) := by omega
  simp only [ares__rand_bytes, h1, if_false, hlen, if_true, size_sub_cache _ hrem, List.nil_append]

theorem rand_bytes_refill (cfg : BuildConfig) (fuel : Nat) (env : Env) (st : ares_rand_state)
    (len : Nat) (h1 : st.cache_remaining < len) (h2 : len < 256) :
    ares__rand_bytes cfg fuel env st len =
      (ares__rand_bytes_fetch cfg fuel env st (256 - st.cache_remaining)).map
        (fun r => { env := r.env,
                    state := { r.state with cache := write_buf r.state.cache r.bytes,
                                            cache_remaining := 256 - len },
                    bytes := (write_buf r.state.cache r.bytes).take len,
                    trace := Event.fetch .cache (256 - st.cache_remaining) ::
                      (r.trace ++ [Event.memcpy 0 len]) }) := by
  have hc : (len > st.cache_remaining ∧ len < CACHE_SIZE) := ⟨h1, h2⟩
  have hs : size_sub CACHE_SIZE st.cache_remaining = 256 - st.cache_remaining :=
    size_sub_cache _ (by omega)
  have hz : size_sub CACHE_SIZE CACHE_SIZE = 0 := by
    rw [size_sub_cache _ (by unfold CACHE_SIZE; omega)]
    rfl
  have hl : len ≤ CACHE_SIZE := Nat.le_of_lt h2
  simp only [ares__rand_bytes, hc, and_self, if_true, hs]
  cases hf : ares__rand_bytes_fetch cfg fuel env st (256 - st.cache_remaining) with
  | none => rfl
  | some r =>
    simp only [Option.map_some', hl, if_true, hz, List.drop_zero, List.cons_append]
    rfl

theorem rand_bytes_bypass (cfg : BuildConfig) (fuel : Nat) (env : Env) (st : ares_rand_state)
    (len : Nat) (h1 : st.cache_remaining < len) (h2 : 256 ≤ len) :
    ares__rand_bytes cfg fuel env st len =
      (ares__rand_bytes_fetch cfg fuel env st len).map
        (fun r => { r with trace := Event.fetch .caller len :: r.trace }) := by
  have hc : ¬ (len > st.cache_remaining ∧ len < CACHE_SIZE) := by
    unfold CACHE_SIZE
    omega
  have hl : ¬ len ≤ st.cache_remaining := by omega
  simp only [ares__rand_bytes, hc, if_false, hl, List.nil_append]

/-! ## Invariants of the states a caller can hold -/

theorem zero_bytes_length (n : Nat) : (zero_bytes n).length = n := by
  simp [zero_bytes]

theorem init_state_some (cfg : BuildConfig) (env : Env) :
    ares__init_rand_state cfg env = some (ares__init_rand_engine cfg env) := by
  simp [ares__init_rand_state, (init_engine_cache cfg env).1]

theorem fetch_cache_length (cfg : BuildConfig) (fuel : Nat) (env : Env) (st : ares_rand_state)
    (len : Nat) (r : FetchResult) (hc : st.cache.length = 256)
    (h : ares__rand_bytes_fetch cfg fuel env st len = some r) :
    r.state.cache.length = 256 ∧ r.state.cache_remaining ≤ st.cache_remaining := by
  rcases (fetch_frame cfg len fuel env st r h).2 with ⟨h1, h2, _⟩ | ⟨h1, h2, _⟩
  · exact ⟨by rw [h1, hc], by omega⟩
  · exact ⟨by rw [h1, zero_bytes_length]; rfl, by omega⟩

theorem rand_bytes_inv (cfg : BuildConfig) (fuel : Nat) (env : Env) (st : ares_rand_state)
    (len : Nat) (r : FetchResult) (hc : st.cache.length = 256) (hr : st.cache_remaining ≤ 255)
    (h : ares__rand_bytes cfg fuel env st len = some r) :
    r.bytes.length ≤ len ∧ r.state.cache.length = 256 ∧ r.state.cache_remaining ≤ 255 := by
  by_cases h1 : len ≤ st.cache_remaining
  · rw [rand_bytes_serve cfg fuel env st len (by omega) h1] at h
    cases h
    refine ⟨?_, hc, ?_⟩
    · rw [List.length_take, List.length_drop, hc]
      omega
    · show st.cache_remaining - len ≤ 255
      omega
  · by_cases h2 : len < 256
    · rw [rand_bytes_refill cfg fuel env st len (by omega) h2, Option.map_eq_some'] at h
      obtain ⟨x, hx, rfl⟩ := h
      have hb := (fetch_frame cfg _ fuel env st x hx).1
      have hl := (fetch_cache_length cfg fuel env st _ x hc hx).1
      have hw : (write_buf x.state.cache x.bytes).length = 256 := by
        simp only [write_buf, List.length_append, List.length_drop, hl]
        omega
      refine ⟨?_, hw, ?_⟩
      · show ((write_buf x.state.cache x.bytes).take len).length ≤ len
        rw [List.length_take, hw]
        omega
      · show 256 - len ≤ 255
        omega
    · rw [rand_bytes_bypass cfg fuel env st len (by omega) (by omega), Option.map_eq_some'] at h
      obtain ⟨x, hx, rfl⟩ := h
      have hl := fetch_cache_length cfg fuel env st _ x hc hx
      exact ⟨(fetch_frame cfg _ fuel env st x hx).1, hl.1, by
        show x.state.cache_remaining ≤ 255
        omega⟩

/-- A returning `ares__rand_bytes` has stored `len` bytes: always when the
request goes through the cache, and for a direct fetch when `RtlGenRandom`
(where it is the OS generator) fills its request. -/
theorem rand_bytes_length (cfg : BuildConfig) (fuel : Nat) (env : Env) (st : ares_rand_state)
    (len : Nat) (r : FetchResult) (hc : st.cache.length = 256) (hr : st.cache_remaining ≤ 255)
    (hrtl : 256 ≤ len → RtlGenRandom_fills cfg env len)
    (h : ares__rand_bytes cfg fuel env st len = some r) :
    r.bytes.length = len := by
  by_cases h1 : len ≤ st.cache_remaining
  · rw [rand_bytes_serve cfg fuel env st len (by omega) h1] at h
    cases h
    show ((st.cache.drop (256 - st.cache_remaining)).take len).length = len
    rw [List.length_take, List.length_drop, hc]
    omega
  · by_cases h2 : len < 256
    · rw [rand_bytes_refill cfg fuel env st len (by omega) h2, Option.map_eq_some'] at h
      obtain ⟨x, hx, rfl⟩ := h
      have hb := (fetch_frame cfg _ fuel env st x hx).1
      have hl := (fetch_cache_length cfg fuel env st _ x hc hx).1
      have hw : (write_buf x.state.cache x.bytes).length = 256 := by
        simp only [write_buf, List.length_append, List.length_drop, hl]
        omega
      show ((write_buf x.state.cache x.bytes).take len).length = len
      rw [List.length_take, hw]
      omega
    · rw [rand_bytes_bypass cfg fuel env st len (by omega) (by omega), Option.map_eq_some'] at h
      obtain ⟨x, hx, rfl⟩ := h
      exact fetch_length cfg len fuel env st x (hrtl (by omega)) hx

theorem reachable_inv (cfg : BuildConfig) (st : ares_rand_state) (h : Reachable cfg st) :
    st.cache.length = 256 ∧ st.cache_remaining ≤ 255 := by
  induction h with
  | init env r hr =>
    rw [init_state_some] at hr
    cases hr
    have hc := init_engine_cache cfg env
    refine ⟨?_, by omega⟩
    rw [hc.2.1, zero_bytes_length]
    rfl
  | step fuel env st len r _ hr ih =>
    exact (rand_bytes_inv cfg fuel env st len r ih.1 ih.2 hr).2

/-! ## Topping up the cache (C2) -/

/-- C2: when `cache_remaining < len < 256` and the backend fetch of
`256 - cache_remaining` bytes completes without a hard failure (no
reinitialization), `ares__rand_bytes` returns after exactly that one fetch into
the start of the cache, and `cache_remaining` ends at `256 - len`.  When the
fetch did not fail in the one way the code cannot see either (`RtlGenRandom`,
where it is the OS generator, reporting success), the fetch has stored all its
bytes and the call delivers the first `len` bytes of the fetched bytes followed
by the previously unused cache bytes.  In general it delivers the first `len`
bytes of the stored bytes followed by the cache bytes after them. -/
theorem rand_bytes_top_up (cfg : BuildConfig) (fuel : Nat) (env : Env) (st : ares_rand_state)
    (len : Nat) (r : FetchResult)
    (h1 : st.cache_remaining < len) (h2 : len < 256)
    (hfetch : ares__rand_bytes_fetch cfg fuel env st (256 - st.cache_remaining) = some r)
    (hok : Event.reinit ∉ r.trace) :
    ((cfg.win32 = true → env.RtlGenRandom_ok env.n_os = true) →
      r.bytes.length = 256 - st.cache_remaining ∧
      ares__rand_bytes cfg fuel env st len =
        some { env := r.env,
               state := { r.state with
                            cache := r.bytes ++ st.cache.drop (256 - st.cache_remaining),
                            cache_remaining := 256 - len },
               bytes := (r.bytes ++ st.cache.drop (256 - st.cache_remaining)).take len,
               trace := Event.fetch .cache (256 - st.cache_remaining) ::
                        (r.trace ++ [Event.memcpy 0 len]) }) ∧
    fetch_sizes (Event.fetch .cache (256 - st.cache_remaining) ::
                      (r.trace ++ [Event.memcpy 0 len])) = [256 - st.cache_remaining] ∧
    r.state.type = st.type ∧ r.state.rand_file = st.rand_file ∧
    r.bytes.length ≤ 256 - st.cache_remaining ∧
    ares__rand_bytes cfg fuel env st len =
      some { env := r.env,
             state := { r.state with
                          cache := r.bytes ++ st.cache.drop r.bytes.length,
                          cache_remaining := 256 - len },
             bytes := (r.bytes ++ st.cache.drop r.bytes.length).take len,
             trace := Event.fetch .cache (256 - st.cache_remaining) ::
                      (r.trace ++ [Event.memcpy 0 len]) } := by
  have hs := fetch_frame cfg _ fuel env st r hfetch
  have ht := fetch_sizes_backend r.trace (fetch_trace cfg _ fuel env st r hfetch)
  rcases hs.2 with ⟨hc, _, hty, hfile, _⟩ | ⟨_, _, hre⟩
  · have hgen : ares__rand_bytes cfg fuel env st len =
        some { env := r.env,
               state := { r.state with
                            cache := r.bytes ++ st.cache.drop r.bytes.length,
                            cache_remaining := 256 - len },
               bytes := (r.bytes ++ st.cache.drop r.bytes.length).take len,
               trace := Event.fetch .cache (256 - st.cache_remaining) ::
                        (r.trace ++ [Event.memcpy 0 len]) } := by
      rw [rand_bytes_refill cfg fuel env st len h1 h2, hfetch]
      simp only [Option.map_some', write_buf, hc]
    refine ⟨fun hrtl => ?_, ?_, hty, hfile, hs.1, hgen⟩
    · have hl := fetch_length cfg _ fuel env st r
        (fun hw => ⟨hrtl hw, by unfold ULONG_MOD; omega⟩) hfetch
      refine ⟨hl, ?_⟩
      rw [hgen, hl]
    · simp [fetch_sizes, fetch_sizes_append, ht.1]
  · exact absurd hre hok

/-! ## Requests that bypass the cache (C3, C4) -/

/-- When `len ≥ 256` on a reachable state and the fetch completes without a hard
failure, the call is that one fetch into the caller's buffer, no cache copy is
made, and cache bytes and `cache_remaining` are as before.  The buffer has
received all `len` bytes where `RtlGenRandom` (if it is the OS generator) fills
its request. -/
theorem rand_bytes_bypass_frame (cfg : BuildConfig) (fuel : Nat) (env : Env)
    (st : ares_rand_state) (len : Nat) (r : FetchResult) (hst : Reachable cfg st)
    (h2 : 256 ≤ len) (hfetch : ares__rand_bytes_fetch cfg fuel env st len = some r)
    (hok : Event.reinit ∉ r.trace) :
    ares__rand_bytes cfg fuel env st len =
      some { r with trace := Event.fetch .caller len :: r.trace } ∧
    r.bytes.length ≤ len ∧ (RtlGenRandom_fills cfg env len → r.bytes.length = len) ∧
    fetch_sizes (Event.fetch .caller len :: r.trace) = [len] ∧
    cache_copies (Event.fetch .caller len :: r.trace) = [] ∧
    r.state.cache = st.cache ∧ r.state.cache_remaining = st.cache_remaining := by
  have hi := reachable_inv cfg st hst
  have hs := fetch_frame cfg _ fuel env st r hfetch
  have ht := fetch_sizes_backend r.trace (fetch_trace cfg _ fuel env st r hfetch)
  rcases hs.2 with ⟨hc, hrem, _, _, _⟩ | ⟨_, _, hre⟩
  · refine ⟨?_, hs.1, fun hrtl => fetch_length cfg _ fuel env st r hrtl hfetch,
      by simp [fetch_sizes, ht.1], by simp [cache_copies, ht.2], hc, hrem⟩
    rw [rand_bytes_bypass cfg fuel env st len (by omega) h2, hfetch]
    rfl
  · exact absurd hre hok

/-- C4 amended: on every reachable state, for every `len` and every world in
which `RtlGenRandom`, where it is the OS generator and fills the caller's
buffer directly (`len ≥ 256`), reports success for a length that fits a
`ULONG`: a returning `ares__rand_bytes` has stored exactly `len` bytes in the
caller's buffer, whatever the device file and `getrandom` did on the way
(partial reads, failures, reinitializations).  In every world it has stored at
most `len` bytes. -/
theorem rand_bytes_never_short (cfg : BuildConfig) (fuel : Nat) (env : Env)
    (st : ares_rand_state) (len : Nat) (r : FetchResult) (hst : Reachable cfg st)
    (hrtl : cfg.win32 = true → 256 ≤ len →
      env.RtlGenRandom_ok env.n_os = true ∧ len < ULONG_MOD)
    (h : ares__rand_bytes cfg fuel env st len = some r) :
    r.bytes.length = len ∧
    (∀ env1 r1, ares__rand_bytes cfg fuel env1 st len = some r1 → r1.bytes.length ≤ len) := by
  have hi := reachable_inv cfg st hst
  exact ⟨rand_bytes_length cfg fuel env st len r hi.1 hi.2 (fun hl hw => hrtl hw hl) h,
    fun env1 r1 h1 => (rand_bytes_inv cfg fuel env1 st len r1 hi.1 hi.2 h1).1⟩

/-! ## Termination of the fetch (C6) -/

theorem needs_rc4_of_no_os (cfg : BuildConfig) (h : cfg.has_os = false) :
    ARES_NEEDS_RC4 cfg = true ∧ cfg.win32 = false ∧ cfg.have_arc4random_buf = false ∧
      cfg.have_getrandom = false := by
  unfold BuildConfig.has_os at h
  unfold ARES_NEEDS_RC4
  cases h1 : cfg.win32 <;> cases h2 : cfg.have_arc4random_buf <;>
    cases h3 : cfg.have_getrandom <;> simp_all

theorem fread_loop_total (len : Nat) (fuel : Nat) :
    ∀ (env : Env) (acc : List Nat), acc.length ≤ len → len - acc.length < fuel →
      ∃ r, fread_loop len fuel env acc = some r ∧
        r.1.fopen_result = env.fopen_result ∧ r.1.n_fopen = env.n_fopen := by
  induction fuel with
  | zero => intro env acc _ h; omega
  | succ fuel ih =>
    intro env acc ha hf
    simp only [fread_loop]
    split_ifs with h0 h1
    · exact ⟨_, rfl, rfl, rfl⟩
    · exact ⟨_, rfl, rfl, rfl⟩
    · have hg : (((env.fread_result env.n_fread).take (len - acc.length)).map
          (fun b => b % 256)).length ≤ len - acc.length := by
        rw [List.length_map, List.length_take]
        exact Nat.min_le_left _ _
      rw [List.length_append] at h1
      obtain ⟨r, hr, h2, h3⟩ := ih { env with n_fread := env.n_fread + 1 }
        (acc ++ ((env.fread_result env.n_fread).take (len - acc.length)).map (fun b => b % 256))
        (by rw [List.length_append]; omega) (by rw [List.length_append]; omega)
      rw [hr]
      exact ⟨_, rfl, h2, h3⟩

theorem delivers_mono (env env1 : Env) (h : BackendDelivers env)
    (h1 : env1.fread_result = env.fread_result) (h2 : env1.getrandom_result = env.getrandom_result)
    (h3 : env.n_fread ≤ env1.n_fread) (h4 : env.n_getrandom ≤ env1.n_getrandom) :
    BackendDelivers env1 := by
  refine ⟨fun k hk => ?_, fun k hk => ?_⟩
  · rw [h1]
    exact h.1 k (by omega)
  · rw [h2]
    exact h.2 k (by omega)

theorem take_map_length_pos (chunk : List Nat) (asked : Nat) (hc : chunk ≠ []) (ha : 1 ≤ asked) :
    1 ≤ ((chunk.take asked).map (fun b => b % 256)).length ∧
    ((chunk.take asked).map (fun b => b % 256)).length ≤ asked := by
  have hl : 0 < chunk.length := List.length_pos.mpr hc
  rw [List.length_map, List.length_take]
  omega

theorem fread_loop_delivers (len : Nat) (fuel : Nat) :
    ∀ (env : Env) (acc : List Nat), BackendDelivers env → acc.length < len →
      len - acc.length ≤ fuel →
      ∃ env1 bytes tr, fread_loop len fuel env acc = some (env1, some bytes, tr) ∧
        BackendDelivers env1 := by
  induction fuel with
  | zero => intro env acc _ h1 h2; omega
  | succ fuel ih =>
    intro env acc hd ha hf
    have hg := take_map_length_pos (env.fread_result env.n_fread) (len - acc.length)
      (hd.1 _ (Nat.le_refl _)) (by omega)
    have hd1 : BackendDelivers { env with n_fread := env.n_fread + 1 } :=
      delivers_mono env _ hd rfl rfl (Nat.le_succ _) (Nat.le_refl _)
    simp only [fread_loop]
    split_ifs with h0 h1
    · omega
    · exact ⟨_, _, _, rfl, hd1⟩
    · rw [List.length_append] at h1
      obtain ⟨env1, bytes, tr, hr, hd2⟩ := ih { env with n_fread := env.n_fread + 1 }
        (acc ++ ((env.fread_result env.n_fread).take (len - acc.length)).map (fun b => b % 256))
        hd1 (by rw [List.length_append]; omega) (by rw [List.length_append]; omega)
      rw [hr]
      exact ⟨_, _, _, rfl, hd2⟩

theorem getrandom_loop_delivers (len : Nat) (fuel : Nat) :
    ∀ (env : Env) (acc : List Nat), BackendDelivers env → acc.length < len →
      len - acc.length ≤ fuel →
      ∃ r, getrandom_loop len fuel env acc = some r ∧ BackendDelivers r.1 := by
  induction fuel with
  | zero => intro env acc _ h1 h2; omega
  | succ fuel ih =>
    intro env acc hd ha hf
    obtain ⟨chunk, hch, hne⟩ := hd.2 _ (Nat.le_refl _)
    have hasked : 1 ≤ (if len - acc.length > 256 then 256 else len - acc.length) ∧
        (if len - acc.length > 256 then 256 else len - acc.length) ≤ len - acc.length := by
      split_ifs <;> omega
    have hg := take_map_length_pos chunk _ hne hasked.1
    have hd1 : BackendDelivers { env with n_getrandom := env.n_getrandom + 1 } :=
      delivers_mono env _ hd rfl rfl (Nat.le_refl _) (Nat.le_succ _)
    simp only [getrandom_loop, hch]
    generalize (if len - acc.length > 256 then 256 else len - acc.length) = asked at hasked hg ⊢
    split_ifs with h0 h1
    · omega
    · exact ⟨_, rfl, hd1⟩
    · rw [List.length_append] at h1
      obtain ⟨r, hr, hd2⟩ := ih { env with n_getrandom := env.n_getrandom + 1 }
        (acc ++ (chunk.take asked).map (fun b => b % 256))
        hd1 (by rw [List.length_append]; omega) (by rw [List.length_append]; omega)
      rw [hr]
      exact ⟨_, rfl, hd2⟩

/-- With a backend that delivers and a tag the build can serve, a fetch of at
least one byte returns without reinitialization once the fuel exceeds `len`. -/
theorem fetch_delivers (cfg : BuildConfig) (fuel : Nat) (env : Env) (st : ares_rand_state)
    (len : Nat) (hd : BackendDelivers env) (ht : TypeOk cfg st) (hl : 1 ≤ len)
    (hf : len < fuel) :
    ∃ r, ares__rand_bytes_fetch cfg fuel env st len = some r ∧ Event.reinit ∉ r.trace ∧
      BackendDelivers r.env := by
  obtain ⟨f, rfl⟩ : ∃ g, fuel = g + 1 := ⟨fuel - 1, by omega⟩
  have hos : BackendDelivers { env with n_os := env.n_os + 1 } :=
    delivers_mono env _ hd rfl rfl (Nat.le_refl _) (Nat.le_refl _)
  simp only [ares__rand_bytes_fetch]
  split
  · rename_i hty
    have hhas := ht.1 hty
    by_cases hw : cfg.win32 = true
    · simp only [hw, if_true]
      exact ⟨_, rfl, by simp, hos⟩
    · by_cases ha : cfg.have_arc4random_buf = true
      · simp only [hw, ha, if_true, if_false]
        exact ⟨_, rfl, by simp, hos⟩
      · have hg : cfg.have_getrandom = true := by
          unfold BuildConfig.has_os at hhas
          simp_all
        simp only [hw, ha, hg, if_true, if_false]
        obtain ⟨r, hr, hd2⟩ := getrandom_loop_delivers len f env [] hd (by simpa using hl)
          (by simp; omega)
        rw [hr]
        exact ⟨_, rfl, (getrandom_loop_spec len f env [] r hr).2, hd2⟩
  · obtain ⟨env1, bytes, tr, hr, hd2⟩ := fread_loop_delivers len f env [] hd (by simpa using hl)
      (by simp; omega)
    rw [hr]
    exact ⟨_, rfl, (fread_loop_spec len f env [] _ hr).2, hd2⟩
  · rename_i hty
    simp only [ht.2 hty, if_true]
    exact ⟨_, rfl, by simp, hd⟩

theorem init_engine_ok (cfg : BuildConfig) (env : Env) (hd : BackendDelivers env) :
    TypeOk cfg (ares__init_rand_engine cfg env).state ∧
    BackendDelivers (ares__init_rand_engine cfg env).env := by
  cases h : cfg.has_os
  · have hn := (needs_rc4_of_no_os cfg h).1
    cases hf : cfg.cares_random_file
    · rw [init_engine_rc4 cfg env h hf]
      exact ⟨⟨fun h1 => (by cases h1), fun _ => hn⟩,
        delivers_mono env _ hd rfl rfl (Nat.le_refl _) (Nat.le_refl _)⟩
    · by_cases ho : env.fopen_result env.n_fopen = 0
      · rw [init_engine_file_fails cfg env h hf ho]
        exact ⟨⟨fun h1 => (by cases h1), fun _ => hn⟩,
          delivers_mono env _ hd rfl rfl (Nat.le_refl _) (Nat.le_refl _)⟩
      · rw [init_engine_file cfg env h hf ho]
        exact ⟨⟨fun h1 => (by cases h1), fun h1 => (by cases h1)⟩,
          delivers_mono env _ hd rfl rfl (Nat.le_refl _) (Nat.le_refl _)⟩
  · rw [init_engine_os cfg env h]
    exact ⟨⟨fun _ => h, fun h1 => (by cases h1)⟩, hd⟩

/-! ## Identifiers and fetches (C9) -/

theorem generate_ids_succ (cfg : BuildConfig) (fuel n : Nat) (env : Env) (st : ares_rand_state)
    (y : FetchResult) (x : Env × ares_rand_state × List Nat × List Event)
    (hy : ares__rand_bytes cfg fuel env st 2 = some y)
    (hx : generate_ids cfg fuel n y.env y.state = some x) :
    generate_ids cfg fuel (n + 1) env st =
      some (x.1, x.2.1, u16_of_bytes cfg y.bytes :: x.2.2.1, y.trace ++ x.2.2.2) := by
  simp only [generate_ids, ares__generate_new_id, hy, Option.map_some', hx]

theorem generate_ids_count (cfg : BuildConfig) (fuel : Nat) (hfuel : 256 < fuel) (n : Nat) :
    ∀ (env : Env) (st : ares_rand_state) (m : Nat),
      st.cache.length = 256 → st.cache_remaining = 2 * m → m ≤ 127 →
      TypeOk cfg st → BackendDelivers env →
      ∃ x, generate_ids cfg fuel n env st = some x ∧
        fetch_sizes x.2.2.2 = List.replicate ((n - m + 127) / 128) 256 := by
  induction n with
  | zero =>
    intro env st m _ _ hm _ _
    refine ⟨_, rfl, ?_⟩
    have : (0 - m + 127) / 128 = 0 := by omega
    rw [this]
    rfl
  | succ n ih =>
    intro env st m hc hr hm ht hd
    by_cases h0 : m = 0
    · subst h0
      have hrem : st.cache_remaining = 0 := by omega
      obtain ⟨r, hfetch, hno, hd2⟩ := fetch_delivers cfg fuel env st 256 hd ht (by omega) hfuel
      have hs := fetch_frame cfg _ fuel env st r hfetch
      have htr := fetch_sizes_backend r.trace (fetch_trace cfg _ fuel env st r hfetch)
      have hframe : r.state.cache = st.cache ∧ r.state.type = st.type := by
        rcases hs.2 with ⟨a, _, b, _, _⟩ | ⟨_, _, hre⟩
        · exact ⟨a, b⟩
        · exact absurd hre hno
      have hcall : ares__rand_bytes cfg fuel env st 2 = some
          { env := r.env,
            state := { r.state with cache := write_buf r.state.cache r.bytes,
                                    cache_remaining := 256 - 2 },
            bytes := (write_buf r.state.cache r.bytes).take 2,
            trace := Event.fetch .cache 256 :: (r.trace ++ [Event.memcpy 0 2]) } := by
        rw [rand_bytes_refill cfg fuel env st 2 (by omega) (by omega), hrem, hfetch]
        rfl
      obtain ⟨x, hx, hcount⟩ := ih r.env
        { r.state with cache := write_buf r.state.cache r.bytes, cache_remaining := 256 - 2 } 127
        (by
          have hle := hs.1
          simp only [write_buf, List.length_append, List.length_drop, hframe.1, hc]
          omega)
        (by norm_num) (Nat.le_refl _)
        ⟨fun h => ht.1 (hframe.2 ▸ h), fun h => ht.2 (hframe.2 ▸ h)⟩ hd2
      refine ⟨_, generate_ids_succ cfg fuel n env st _ x hcall hx, ?_⟩
      have e1 : fetch_sizes (Event.fetch .cache 256 :: (r.trace ++ [Event.memcpy 0 2])) = [256] := by
        simp [fetch_sizes, fetch_sizes_append, htr.1]
      have e2 : (n + 1 - 0 + 127) / 128 = (n - 127 + 127) / 128 + 1 := by omega
      show fetch_sizes ((Event.fetch .cache 256 :: (r.trace ++ [Event.memcpy 0 2])) ++ x.2.2.2) = _
      rw [fetch_sizes_append, e1, hcount, e2, List.replicate_succ]
      rfl
    · have hcall := rand_bytes_serve cfg fuel env st 2 (by omega) (by omega)
      obtain ⟨x, hx, hcount⟩ := ih env { st with cache_remaining := st.cache_remaining - 2 } (m - 1)
        hc (by show st.cache_remaining - 2 = 2 * (m - 1); omega) (by omega) ht hd
      refine ⟨_, generate_ids_succ cfg fuel n env st _ x hcall hx, ?_⟩
      have e2 : (n + 1 - m + 127) / 128 = (n - (m - 1) + 127) / 128 := by
        congr 1
        omega
      show fetch_sizes ([Event.memcpy (256 - st.cache_remaining) 2] ++ x.2.2.2) = _
      rw [fetch_sizes_append, hcount, e2]
      rfl

/-- C9: from a freshly initialised state, with a backend that delivers, `n`
consecutive `ares__generate_new_id` calls all return and make exactly
`ceil(n / 128)` backend fetches, each of 256 bytes. -/
theorem generate_ids_fetch_count (cfg : BuildConfig) (env : Env) (n fuel : Nat)
    (hd : BackendDelivers env) (hfuel : 256 < fuel) :
    ∃ x, generate_ids cfg fuel n (ares__init_rand_engine cfg env).env
          (ares__init_rand_engine cfg env).state = some x ∧
      fetch_sizes x.2.2.2 = List.replicate ((n + 127) / 128) 256 := by
  have hi := init_engine_ok cfg env hd
  have hc := init_engine_cache cfg env
  have h := generate_ids_count cfg fuel hfuel n (ares__init_rand_engine cfg env).env
    (ares__init_rand_engine cfg env).state 0
    (by rw [hc.2.1, zero_bytes_length]; rfl) (by rw [hc.2.2]) (by omega) hi.1 hi.2
  simpa using h

/-! ## Every stored byte is below 256 (used by C8) -/

theorem getD_lt (S : List Nat) (i : Nat) (h : ∀ b ∈ S, b < 256) : S.getD i 0 < 256 := by
  by_cases hi : i < S.length
  · rw [getD_eq_getElem S i hi]
    exact h _ (List.getElem_mem hi)
  · simp [List.getD_eq_getElem?_getD, List.getElem?_eq_none (Nat.le_of_not_lt hi)]

theorem swap_lt (S : List Nat) (i j : Nat) (h : ∀ b ∈ S, b < 256) :
    ∀ b ∈ ARES_SWAP_BYTE S i j, b < 256 := by
  intro b hb
  unfold ARES_SWAP_BYTE at hb
  rcases List.mem_or_eq_of_mem_set hb with hb | rfl
  · rcases List.mem_or_eq_of_mem_set hb with hb | rfl
    · exact h b hb
    · exact getD_lt S j h
  · exact getD_lt S i h

theorem rc4_prng_loop_lt (n : Nat) : ∀ st : ares_rand_rc4, (∀ b ∈ st.S, b < 256) →
    (∀ b ∈ (rc4_prng_loop n st).2, b < 256) ∧ (∀ b ∈ (rc4_prng_loop n st).1.S, b < 256) := by
  induction n with
  | zero => intro st h; exact ⟨by simp [rc4_prng_loop], h⟩
  | succ n ih =>
    intro st h
    have hs := swap_lt st.S ((st.i + 1) % 256) ((st.j + st.S.getD ((st.i + 1) % 256) 0) % 256) h
    have h2 := ih { S := ARES_SWAP_BYTE st.S ((st.i + 1) % 256)
                          ((st.j + st.S.getD ((st.i + 1) % 256) 0) % 256),
                    i := (st.i + 1) % 256,
                    j := (st.j + st.S.getD ((st.i + 1) % 256) 0) % 256 } hs
    simp only [rc4_prng_loop]
    refine ⟨?_, h2.2⟩
    intro b hb
    rcases List.mem_cons.mp hb with rfl | hb
    · exact getD_lt _ _ hs
    · exact h2.1 b hb

theorem map_mod_lt (l : List Nat) : ∀ b ∈ l.map (fun b => b % 256), b < 256 := by
  intro b hb
  obtain ⟨a, _, rfl⟩ := List.mem_map.mp hb
  exact Nat.mod_lt _ (by norm_num)

theorem append_lt (a b : List Nat) (ha : ∀ x ∈ a, x < 256) (hb : ∀ x ∈ b, x < 256) :
    ∀ x ∈ a ++ b, x < 256 := by
  intro x hx
  rcases List.mem_append.mp hx with h | h
  · exact ha x h
  · exact hb x h

theorem fread_loop_lt (len : Nat) (fuel : Nat) :
    ∀ (env : Env) (acc : List Nat) (r : Env × Option (List Nat) × List Event),
      (∀ b ∈ acc, b < 256) → fread_loop len fuel env acc = some r →
      ∀ bytes, r.2.1 = some bytes → ∀ b ∈ bytes, b < 256 := by
  induction fuel with
  | zero => intro env acc r _ h; simp [fread_loop] at h
  | succ fuel ih =>
    intro env acc r ha h
    simp only [fread_loop] at h
    split_ifs at h
    · cases h
      intro bytes hb
      cases hb
    · cases h
      intro bytes hb
      cases hb
      exact append_lt _ _ ha (map_mod_lt _)
    · rw [Option.map_eq_some'] at h
      obtain ⟨x, hx, rfl⟩ := h
      exact ih _ _ x (append_lt _ _ ha (map_mod_lt _)) hx

theorem getrandom_loop_lt (len : Nat) (fuel : Nat) :
    ∀ (env : Env) (acc : List Nat) (r : Env × List Nat × List Event),
      (∀ b ∈ acc, b < 256) → getrandom_loop len fuel env acc = some r →
      ∀ b ∈ r.2.1, b < 256 := by
  induction fuel with
  | zero => intro env acc r _ h; simp [getrandom_loop] at h
  | succ fuel ih =>
    intro env acc r ha h
    simp only [getrandom_loop] at h
    split at h
    · rw [Option.map_eq_some'] at h
      obtain ⟨x, hx, rfl⟩ := h
      exact ih _ _ x ha hx
    · split_ifs at h <;>
        first
        | (cases h; exact append_lt _ _ ha (map_mod_lt _))
        | (rw [Option.map_eq_some'] at h
           obtain ⟨x, hx, rfl⟩ := h
           first
           | exact ih _ _ x ha hx
           | exact ih _ _ x (append_lt _ _ ha (map_mod_lt _)) hx)

theorem zero_bytes_lt (n : Nat) : ∀ b ∈ zero_bytes n, b < 256 := by
  intro b hb
  have := (List.mem_replicate.mp hb).2
  omega

theorem init_engine_rc4_lt (cfg : BuildConfig) (env : Env) :
    ∀ b ∈ (ares__init_rand_engine cfg env).state.rc4.S, b < 256 := by
  have hrc4 : ∀ (e : Env) (tr : List Event), ∀ b ∈ (init_rc4 e tr).state.rc4.S, b < 256 := by
    intro e tr b hb
    have hp : b ∈ List.range 256 := (rc4_init_perm (e.rc4_key e.n_key)).mem_iff.mp hb
    exact List.mem_range.mp hp
  cases h : cfg.has_os
  · cases hf : cfg.cares_random_file
    · rw [init_engine_rc4 cfg env h hf]
      exact hrc4 _ _
    · by_cases ho : env.fopen_result env.n_fopen = 0
      · rw [init_engine_file_fails cfg env h hf ho]
        exact hrc4 _ _
      · rw [init_engine_file cfg env h hf ho]
        exact zero_bytes_lt 256
  · rw [init_engine_os cfg env h]
    exact zero_bytes_lt 256

theorem os_fill_lt (env : Env) (len : Nat) : ∀ b ∈ os_fill env len, b < 256 := by
  intro b hb
  obtain ⟨a, _, rfl⟩ := List.mem_map.mp hb
  exact Nat.mod_lt _ (by norm_num)

theorem RtlGenRandom_fill_lt (env : Env) (len : Nat) :
    ∀ b ∈ RtlGenRandom_fill env len, b < 256 := by
  unfold RtlGenRandom_fill
  split_ifs
  · exact os_fill_lt env _
  · intro b hb
    cases hb

theorem fetch_bytes_lt (cfg : BuildConfig) (len : Nat) (fuel : Nat) :
    ∀ (env : Env) (st : ares_rand_state) (r : FetchResult),
      (∀ b ∈ st.rc4.S, b < 256) →
      ares__rand_bytes_fetch cfg fuel env st len = some r →
      ∀ b ∈ r.bytes, b < 256 := by
  induction fuel with
  | zero => intro env st r _ h; simp [ares__rand_bytes_fetch] at h
  | succ fuel ih =>
    intro env st r hS h
    have retry : ∀ (env1 : Env) (tr : List Event),
        (ares__rand_bytes_fetch cfg fuel (ares__reinit_rand cfg env1 st).env
            (ares__reinit_rand cfg env1 st).state len).map
          (fun x => { x with trace := tr ++ (ares__reinit_rand cfg env1 st).trace ++ x.trace })
          = some r → ∀ b ∈ r.bytes, b < 256 := by
      intro env1 tr hr
      rw [Option.map_eq_some'] at hr
      obtain ⟨x, hx, rfl⟩ := hr
      exact ih _ _ x (init_engine_rc4_lt cfg env1) hx
    simp only [ares__rand_bytes_fetch] at h
    split at h
    · split_ifs at h
      · cases h
        exact RtlGenRandom_fill_lt env len
      · cases h
        exact os_fill_lt env len
      · rw [Option.map_eq_some'] at h
        obtain ⟨x, hx, rfl⟩ := h
        exact getrandom_loop_lt len fuel _ _ _ (by simp) hx
      · exact retry _ _ h
    · split at h
      · cases h
      · rename_i env1 bytes tr hfr
        cases h
        exact fread_loop_lt len fuel _ _ _ (by simp) hfr bytes rfl
      · exact retry _ _ h
    · split_ifs at h
      · cases h
        exact (rc4_prng_loop_lt len st.rc4 hS).1
      · exact retry _ _ h

/-! ## Transaction identifiers (C8) -/

theorem u16_roundtrip (cfg : BuildConfig) (b0 b1 : Nat) (h0 : b0 < 256) (h1 : b1 < 256) :
    bytes_of_u16 cfg (u16_of_bytes cfg [b0, b1]) = [b0, b1] ∧
    u16_of_bytes cfg [b0, b1] < 65536 := by
  unfold bytes_of_u16 u16_of_bytes
  cases cfg.big_endian
  · simp only [Bool.false_eq_true, if_false, List.getD_cons_zero, List.getD_cons_succ]
    refine ⟨?_, by omega⟩
    congr 1
    · omega
    · congr 1
      omega
  · simp only [if_true, List.getD_cons_zero, List.getD_cons_succ]
    refine ⟨?_, by omega⟩
    congr 1
    · omega
    · congr 1
      omega

theorem rand_bytes_two_lt (cfg : BuildConfig) (fuel : Nat) (env : Env) (st : ares_rand_state)
    (y : FetchResult) (hwf : WellFormed st) (h : ares__rand_bytes cfg fuel env st 2 = some y) :
    y.bytes.length = 2 ∧ ∀ b ∈ y.bytes, b < 256 := by
  obtain ⟨hc, hr, hcb, hS⟩ := hwf
  by_cases h1 : 2 ≤ st.cache_remaining
  · rw [rand_bytes_serve cfg fuel env st 2 hr h1] at h
    cases h
    refine ⟨?_, fun b hb => hcb b (List.mem_of_mem_drop (List.mem_of_mem_take hb))⟩
    rw [List.length_take, List.length_drop, hc]
    omega
  · rw [rand_bytes_refill cfg fuel env st 2 (by omega) (by omega), Option.map_eq_some'] at h
    obtain ⟨x, hx, rfl⟩ := h
    have hb := (fetch_frame cfg _ fuel env st x hx).1
    have hl := (fetch_cache_length cfg fuel env st _ x hc hx).1
    have hxb := fetch_bytes_lt cfg _ fuel env st x hS hx
    have hxc : ∀ b ∈ x.state.cache, b < 256 := by
      rcases (fetch_frame cfg _ fuel env st x hx).2 with ⟨e, _⟩ | ⟨e, _⟩
      · rw [e]
        exact hcb
      · rw [e]
        exact zero_bytes_lt _
    have hw : (write_buf x.state.cache x.bytes).length = 256 := by
      simp only [write_buf, List.length_append, List.length_drop, hl]
      omega
    refine ⟨?_, ?_⟩
    · show ((write_buf x.state.cache x.bytes).take 2).length = 2
      rw [List.length_take, hw]
      rfl
    · intro b hb2
      have hb3 : b ∈ write_buf x.state.cache x.bytes := List.mem_of_mem_take hb2
      unfold write_buf at hb3
      rcases List.mem_append.mp hb3 with h3 | h3
      · exact hxb b h3
      · exact hxc b (List.mem_of_mem_drop h3)

/-- C8: on a well-formed state `ares__generate_new_id` is `ares__rand_bytes`
with `len = 2`: it returns exactly when that call returns, with the same world,
state and trace, and its result is the 16-bit value whose two bytes in memory
are the two delivered bytes.  With `cache_remaining ≥ 2` it returns without a
fetch and `cache_remaining` drops by 2; otherwise, once the top-up fetch has
returned, it returns with `cache_remaining = 254` after that single fetch. -/
theorem generate_new_id_spec (cfg : BuildConfig) (fuel : Nat) (env : Env)
    (st : ares_rand_state) (hwf : WellFormed st) :
    (∀ y, ares__rand_bytes cfg fuel env st 2 = some y →
      ∃ x, ares__generate_new_id cfg fuel env st = some x ∧
        x.env = y.env ∧ x.state = y.state ∧ x.trace = y.trace ∧
        bytes_of_u16 cfg x.id = y.bytes ∧ x.id < 65536) ∧
    (ares__rand_bytes cfg fuel env st 2 = none → ares__generate_new_id cfg fuel env st = none) ∧
    (2 ≤ st.cache_remaining →
      ∃ x, ares__generate_new_id cfg fuel env st = some x ∧ x.env = env ∧
        x.state = { st with cache_remaining := st.cache_remaining - 2 } ∧
        fetch_sizes x.trace = []) ∧
    (st.cache_remaining < 2 →
      ∀ r, ares__rand_bytes_fetch cfg fuel env st (256 - st.cache_remaining) = some r →
        ∃ x, ares__generate_new_id cfg fuel env st = some x ∧
          x.state.cache_remaining = 254 ∧
          fetch_sizes x.trace = [256 - st.cache_remaining]) := by
  refine ⟨?_, ?_, ?_, ?_⟩
  · intro y hy
    obtain ⟨hlen, hlt⟩ := rand_bytes_two_lt cfg fuel env st y hwf hy
    obtain ⟨b0, b1, hb⟩ := List.length_eq_two.mp hlen
    have h0 : b0 < 256 := hlt b0 (by rw [hb]; simp)
    have h1 : b1 < 256 := hlt b1 (by rw [hb]; simp)
    have hrt := u16_roundtrip cfg b0 b1 h0 h1
    have hid : ares__generate_new_id cfg fuel env st = some
        { env := y.env, state := y.state, id := u16_of_bytes cfg y.bytes, trace := y.trace } := by
      simp only [ares__generate_new_id, hy, Option.map_some']
    rw [hid]
    refine ⟨_, rfl, rfl, rfl, rfl, ?_, ?_⟩
    · show bytes_of_u16 cfg (u16_of_bytes cfg y.bytes) = y.bytes
      rw [hb]
      exact hrt.1
    · show u16_of_bytes cfg y.bytes < 65536
      rw [hb]
      exact hrt.2
  · intro hn
    simp only [ares__generate_new_id, hn, Option.map_none']
  · intro h2
    simp only [ares__generate_new_id, rand_bytes_serve cfg fuel env st 2 hwf.2.1 h2,
      Option.map_some']
    exact ⟨_, rfl, rfl, rfl, rfl⟩
  · intro h2 r hr
    have htr := fetch_sizes_backend r.trace (fetch_trace cfg _ fuel env st r hr)
    simp only [ares__generate_new_id, rand_bytes_refill cfg fuel env st 2 h2 (by omega), hr,
      Option.map_some']
    refine ⟨_, rfl, rfl, ?_⟩
    simp [fetch_sizes, fetch_sizes_append, htr.1]

/-! ## The cache does not survive a reinitialization (C3, C5) -/

set_option maxRecDepth 100000 in
theorem st_after_first_read_reachable : Reachable cfg_file st_after_first_read := by
  have h0 := @Reachable.init cfg_file env_second_read_fails
    (ares__init_rand_engine cfg_file env_second_read_fails) (init_state_some _ _)
  exact Reachable.step 2 (ares__init_rand_engine cfg_file env_second_read_fails).env
    (ares__init_rand_engine cfg_file env_second_read_fails).state 2
    { env := env_after_first_read, state := st_after_first_read, bytes := [7, 7],
      trace := [Event.fetch .cache 256, Event.fread 0 256 256, Event.memcpy 0 2] }
    h0 (by rfl)

set_option maxRecDepth 100000 in
/-- C3 at a failing input.  A device-file build, after `ares__init_rand_state`
and one two-byte draw, holds a cache of 256 fetched bytes with 254 unused.  A
request for 256 bytes whose first read returns zero bytes is still filled from
the backend (256 bytes, no cache copy), but the reinitialization on the way
clears the cache: afterwards every cache byte is zero and `cache_remaining = 0`. -/
theorem bypass_with_failure_clears_cache :
    Reachable cfg_file st_after_first_read ∧
    st_after_first_read.cache = List.replicate 256 7 ∧
    st_after_first_read.cache_remaining = 254 ∧
    (ares__rand_bytes cfg_file 3 env_after_first_read st_after_first_read 256).map
      (fun r => (r.bytes.length, fetch_sizes r.trace, cache_copies r.trace,
                 decide (Event.reinit ∈ r.trace), r.state.cache, r.state.cache_remaining)) =
      some (256, [256], [], true, List.replicate 256 0, 0) := by
  exact ⟨st_after_first_read_reachable, rfl, rfl, by rfl⟩

set_option maxRecDepth 100000 in
/-- C5 at a failing input.  `ares__reinit_rand` on a device-file state whose
cache holds 256 bytes of value 5, ten of them unused, returns a state whose
cache is all zero with `cache_remaining = 0`.  The caller can tell: a 255-byte
request on such a state with 254 unused bytes delivers two fetched bytes
followed by 253 zero bytes when the first read fails, and two fetched bytes
followed by the 253 cached bytes when it does not. -/
theorem reinit_clears_cache :
    (st_fives .ARES_RAND_FILE 10).cache = List.replicate 256 5 ∧
    (st_fives .ARES_RAND_FILE 10).cache_remaining = 10 ∧
    (ares__reinit_rand cfg_file env_dead_file (st_fives .ARES_RAND_FILE 10)).state.cache =
      List.replicate 256 0 ∧
    (ares__reinit_rand cfg_file env_dead_file (st_fives .ARES_RAND_FILE 10)).state.cache_remaining
      = 0 ∧
    (ares__rand_bytes cfg_file 3 env_one_failure (st_fives .ARES_RAND_FILE 254) 255).map
      (fun r => r.bytes) = some ([7, 7] ++ List.replicate 253 0) ∧
    (ares__rand_bytes cfg_file 3 env_sevens (st_fives .ARES_RAND_FILE 254) 255).map
      (fun r => r.bytes) = some ([7, 7] ++ List.replicate 253 5) := by
  refine ⟨rfl, rfl, by decide, by decide, by decide, by decide⟩

/-! ## The statements at concrete inputs -/

theorem st_fives_wf (t : ares_rand_backend) (rem : Nat) (h : rem ≤ 256) :
    WellFormed (st_fives t rem) := by
  refine ⟨List.length_replicate 256 5, h, ?_, ?_⟩
  · intro b hb
    have hb2 : b ∈ List.replicate 256 5 := hb
    have := (List.mem_replicate.mp hb2).2
    omega
  · intro b hb
    simp only [st_fives] at hb
    exact List.mem_range.mp hb

theorem env_sevens_delivers : BackendDelivers env_sevens := by
  have hne : List.replicate 256 7 ≠ [] :=
    List.ne_nil_of_length_pos (by rw [List.length_replicate]; norm_num)
  exact ⟨fun k _ => hne, fun k _ => ⟨List.replicate 256 7, rfl, hne⟩⟩

/-- C1 at a concrete input: four bytes out of ten unused ones. -/
theorem rand_bytes_served_from_cache_witness :
    ares__rand_bytes cfg_file 0 env_dead_file (st_fives .ARES_RAND_FILE 10) 4 =
      some { env := env_dead_file,
             state := { st_fives .ARES_RAND_FILE 10 with
                          cache_remaining := (st_fives .ARES_RAND_FILE 10).cache_remaining - 4 },
             bytes := ((st_fives .ARES_RAND_FILE 10).cache.drop
                        (256 - (st_fives .ARES_RAND_FILE 10).cache_remaining)).take 4,
             trace := [Event.memcpy (256 - (st_fives .ARES_RAND_FILE 10).cache_remaining) 4] } :=
  (rand_bytes_served_from_cache cfg_file 0 env_dead_file (st_fives .ARES_RAND_FILE 10) 4
    (st_fives_wf _ 10 (by decide)).1 (by decide) (by decide)).1

/-- C2 at a concrete input: 254 unused bytes, 255 requested, `arc4random_buf` backend. -/
theorem rand_bytes_top_up_witness :
    ares__rand_bytes_fetch cfg_arc4 1 env_sevens (st_fives .ARES_RAND_OS 254)
        (256 - (st_fives .ARES_RAND_OS 254).cache_remaining) =
      some { env := { env_sevens with n_os := 1 }, state := st_fives .ARES_RAND_OS 254,
             bytes := [9, 9], trace := [Event.arc4random_buf 2] } ∧
    fetch_sizes (Event.fetch .cache (256 - (st_fives .ARES_RAND_OS 254).cache_remaining) ::
        ([Event.arc4random_buf 2] ++ [Event.memcpy 0 255])) =
      [256 - (st_fives .ARES_RAND_OS 254).cache_remaining] :=
  ⟨rfl,
   (rand_bytes_top_up cfg_arc4 1 env_sevens (st_fives .ARES_RAND_OS 254) 255
      { env := { env_sevens with n_os := 1 }, state := st_fives .ARES_RAND_OS 254,
        bytes := [9, 9], trace := [Event.arc4random_buf 2] }
      (by decide) (by decide) rfl (by decide)).2.1⟩

set_option maxRecDepth 100000 in
/-- C4 (amended) at concrete inputs: a 256-byte request on a reachable
device-file state whose first read returns zero bytes, so that the bytes arrive
after a reinitialization; and a 300-byte request in a Windows build whose
`RtlGenRandom` reports success. -/
theorem rand_bytes_never_short_witness :
    ares__rand_bytes cfg_file 3 env_after_first_read st_after_first_read 256 =
      some { env := { env_second_read_fails with n_fopen := 2, n_fread := 3 },
             state := { zeroed_state .ARES_RAND_FILE with rand_file := 1 },
             bytes := List.replicate 256 7,
             trace := [Event.fetch .caller 256, Event.fread 0 256 0, Event.reinit,
                       Event.fclose 1, Event.fopen 1, Event.fread 0 256 256] } ∧
    (List.replicate 256 7).length = 256 ∧
    (env_sevens.RtlGenRandom_ok env_sevens.n_os = true ∧ 300 < ULONG_MOD) ∧
    (RtlGenRandom_fill env_sevens 300).length = 300 :=
  ⟨by rfl,
   (rand_bytes_never_short cfg_file 3 env_after_first_read st_after_first_read 256
     { env := { env_second_read_fails with n_fopen := 2, n_fread := 3 },
       state := { zeroed_state .ARES_RAND_FILE with rand_file := 1 },
       bytes := List.replicate 256 7,
       trace := [Event.fetch .caller 256, Event.fread 0 256 0, Event.reinit,
                 Event.fclose 1, Event.fopen 1, Event.fread 0 256 256] }
     st_after_first_read_reachable (fun h => by cases h) (by rfl)).1,
   ⟨rfl, by decide⟩,
   (rand_bytes_never_short cfg_win32 1 env_sevens (ares__init_rand_engine cfg_win32 env_sevens).state
     300
     { env := { env_sevens with n_os := 1 },
       state := (ares__init_rand_engine cfg_win32 env_sevens).state,
       bytes := RtlGenRandom_fill env_sevens 300,
       trace := [Event.fetch .caller 300, Event.RtlGenRandom 300] }
     (Reachable.init env_sevens _ (init_state_some cfg_win32 env_sevens))
     (fun _ _ => ⟨rfl, by decide⟩) (by rfl)).1⟩

/-- C4, as the claim states it, fails in a Windows build.  On the freshly
initialised state a request of 300 bytes returns with no byte stored when
`RtlGenRandom` reports failure (its result is not looked at), and a request of
`2^32 + 1` bytes returns with one byte stored even when `RtlGenRandom`
succeeds (the length reaches it as a `ULONG`). -/
theorem rand_bytes_short_on_windows :
    Reachable cfg_win32 (ares__init_rand_engine cfg_win32 env_rtl_fails).state ∧
    (∃ r, ares__rand_bytes cfg_win32 1 env_rtl_fails
        (ares__init_rand_engine cfg_win32 env_rtl_fails).state 300 = some r ∧
      r.bytes = [] ∧ r.bytes.length ≠ 300) ∧
    Reachable cfg_win32 (ares__init_rand_engine cfg_win32 env_sevens).state ∧
    (∃ r, ares__rand_bytes cfg_win32 1 env_sevens
        (ares__init_rand_engine cfg_win32 env_sevens).state 4294967297 = some r ∧
      r.bytes = [9] ∧ r.bytes.length ≠ 4294967297) :=
  ⟨Reachable.init env_rtl_fails _ (init_state_some cfg_win32 env_rtl_fails),
   ⟨_, rfl, rfl, by decide⟩,
   Reachable.init env_sevens _ (init_state_some cfg_win32 env_sevens),
   ⟨_, rfl, rfl, by decide⟩⟩

/-- C8 at a concrete input: ten unused bytes in the cache. -/
theorem generate_new_id_spec_witness :
    WellFormed (st_fives .ARES_RAND_OS 10) ∧
    ∃ x, ares__generate_new_id cfg_arc4 0 env_sevens (st_fives .ARES_RAND_OS 10) = some x ∧
      x.env = env_sevens ∧
      x.state = { st_fives .ARES_RAND_OS 10 with
                    cache_remaining := (st_fives .ARES_RAND_OS 10).cache_remaining - 2 } ∧
      fetch_sizes x.trace = [] :=
  ⟨st_fives_wf _ 10 (by decide),
   (generate_new_id_spec cfg_arc4 0 env_sevens (st_fives .ARES_RAND_OS 10)
      (st_fives_wf _ 10 (by decide))).2.2.1 (by decide)⟩

/-- C9 at a concrete input: 129 identifiers from a device file need two fetches. -/
theorem generate_ids_fetch_count_witness :
    BackendDelivers env_sevens ∧
    ∃ x, generate_ids cfg_file 257 129 (ares__init_rand_engine cfg_file env_sevens).env
          (ares__init_rand_engine cfg_file env_sevens).state = some x ∧
      fetch_sizes x.2.2.2 = List.replicate ((129 + 127) / 128) 256 :=
  ⟨env_sevens_delivers,
   generate_ids_fetch_count cfg_file env_sevens 129 257 env_sevens_delivers (by decide)⟩

/-! ## RC4 is a stream (C19) -/

theorem rc4_prng_loop_add (a b : Nat) : ∀ st : ares_rand_rc4,
    rc4_prng_loop (a + b) st =
      ((rc4_prng_loop b (rc4_prng_loop a st).1).1,
       (rc4_prng_loop a st).2 ++ (rc4_prng_loop b (rc4_prng_loop a st).1).2) := by
  induction a with
  | zero => intro st; simp [rc4_prng_loop]
  | succ a ih =>
    intro st
    rw [show a + 1 + b = (a + b) + 1 by omega]
    simp only [rc4_prng_loop, ih, List.cons_append]

theorem rc4_prng_loop_index (n : Nat) : ∀ st : ares_rand_rc4, st.i < 256 →
    (rc4_prng_loop n st).1.i = (st.i + n) % 256 := by
  induction n with
  | zero => intro st h; simp [rc4_prng_loop, Nat.mod_eq_of_lt h]
  | succ n ih =>
    intro st _
    simp only [rc4_prng_loop]
    rw [ih _ (Nat.mod_lt _ (by norm_num))]
    show ((st.i + 1) % 256 + n) % 256 = (st.i + (n + 1)) % 256
    omega

/-- C19: the RC4 fallback is a stream.  For every state with `i, j < 256` and
every `a`, `b`: drawing `a` bytes and then `b` bytes emits the same `a + b`
bytes and ends in the same state as drawing `a + b` bytes at once; and after
`n` bytes the stored index `i` is `(i0 + n) mod 256`. -/
theorem rc4_prng_is_stream (st : ares_rand_rc4) (a b n : Nat) (hi : st.i < 256)
    (_hj : st.j < 256) :
    (ares_rc4_prng st a).2 ++ (ares_rc4_prng (ares_rc4_prng st a).1 b).2 =
      (ares_rc4_prng st (a + b)).2 ∧
    (ares_rc4_prng (ares_rc4_prng st a).1 b).1 = (ares_rc4_prng st (a + b)).1 ∧
    (ares_rc4_prng st n).1.i = (st.i + n) % 256 := by
  unfold ares_rc4_prng
  rw [rc4_prng_loop_add a b st]
  exact ⟨rfl, rfl, rc4_prng_loop_index n st hi⟩

/-- C19 at a concrete input: two plus three bytes from the identity table. -/
theorem rc4_prng_is_stream_witness :
    (ares_rc4_prng { S := List.range 256, i := 0, j := 0 } 2).2 ++
        (ares_rc4_prng (ares_rc4_prng { S := List.range 256, i := 0, j := 0 } 2).1 3).2 =
      (ares_rc4_prng { S := List.range 256, i := 0, j := 0 } (2 + 3)).2 :=
  (rc4_prng_is_stream { S := List.range 256, i := 0, j := 0 } 2 3 0
    (Nat.zero_lt_succ 255) (Nat.zero_lt_succ 255)).1

/-! ## The code's RC4 against the reference generator (C11) -/

theorem agree_getElem? (S : List Nat) (T : Nat → Nat) (x : Nat) (h : TableAgree S T)
    (hx : x < 256) : S[x]? = some (T x) := by
  have hl : x < S.length := by rw [h.1]; exact hx
  rw [List.getElem?_eq_getElem hl, ← h.2 x hx, getD_eq_getElem S x hl]

theorem swap_agree (S : List Nat) (T : Nat → Nat) (i j : Nat) (h : TableAgree S T)
    (hi : i < 256) (hj : j < 256) : TableAgree (ARES_SWAP_BYTE S i j) (spec_swap T i j) := by
  have hl := h.1
  refine ⟨by rw [swap_length, hl], ?_⟩
  intro x hx
  have e1 := agree_getElem? S T i h hi
  have e2 := agree_getElem? S T j h hj
  have e3 := agree_getElem? S T x h hx
  unfold ARES_SWAP_BYTE spec_swap
  simp only [List.getD_eq_getElem?_getD]
  rw [List.getElem?_set, List.getElem?_set, List.length_set, e1, e2, e3]
  by_cases hxj : j = x
  · subst hxj
    by_cases hxi : j = i
    · subst hxi
      simp [hl, hj]
    · simp [hl, hj, hxi]
  · by_cases hxi : i = x
    · subst hxi
      simp [hl, hi, hxj]
    · have h1 : ¬ x = i := fun h => hxi h.symm
      have h2 : ¬ x = j := fun h => hxj h.symm
      simp [hxj, hxi, h1, h2]

theorem agree_getD (S : List Nat) (T : Nat → Nat) (x : Nat) (h : TableAgree S T)
    (hx : x < 256) : S.getD x 0 = T x := h.2 x hx

theorem prng_refines_emit (n : Nat) : ∀ (st : ares_rand_rc4) (T : Nat → Nat),
    TableAgree st.S T → (rc4_prng_loop n st).2 = spec_emit n T st.i st.j := by
  induction n with
  | zero => intro st T _; rfl
  | succ n ih =>
    intro st T h
    have h256 : 0 < 256 := by norm_num
    have hi : (st.i + 1) % 256 < 256 := Nat.mod_lt _ h256
    have e1 : st.S.getD ((st.i + 1) % 256) 0 = T ((st.i + 1) % 256) := h.2 _ hi
    have hj : (st.j + T ((st.i + 1) % 256)) % 256 < 256 := Nat.mod_lt _ h256
    have h2 := swap_agree st.S T _ _ h hi hj
    simp only [rc4_prng_loop, spec_emit, e1]
    rw [ih _ _ h2, h2.2 _ hi, h2.2 _ hj, h2.2 _ (Nat.mod_lt _ h256)]

theorem identity_agree : TableAgree rc4_identity (fun x => x) := by
  rw [rc4_identity_eq]
  refine ⟨List.length_range 256, ?_⟩
  intro x hx
  rw [List.getD_eq_getElem?_getD, List.getElem?_range hx]
  rfl

theorem ksa_refines_schedule (key : List Nat) (hk : key.length = 32) (r : Nat) (hr : r ≤ 256) :
    TableAgree ((List.range r).foldl (rc4_ksa_step key) (rc4_identity, 0)).1
        (spec_key_schedule key r).1 ∧
    ((List.range r).foldl (rc4_ksa_step key) (rc4_identity, 0)).2 =
        (spec_key_schedule key r).2 := by
  induction r with
  | zero => exact ⟨identity_agree, rfl⟩
  | succ r ih =>
    obtain ⟨h1, h2⟩ := ih (by omega)
    have hr2 : r < 256 := by omega
    rw [List.range_succ, List.foldl_append]
    simp only [List.foldl_cons, List.foldl_nil, rc4_ksa_step, spec_key_schedule, ARES_RC4_KEY_LEN,
      hk, h2, h1.2 r hr2]
    exact ⟨swap_agree _ _ _ _ h1 hr2 (Nat.mod_lt _ (by norm_num)), trivial⟩

/-- C11: for every 32-byte key and every `n`, the `n` bytes that `ares_rc4_prng`
emits on the state built by `ares_rc4_init` are the first `n` bytes of the
reference generator the spec describes (identity table, 256 rounds of key
schedule, then `i = i + 1`, `j = j + S[i]`, swap, emit `S[S[i] + S[j]]`, all
mod 256). -/
theorem rc4_matches_reference (key : List Nat) (n : Nat) (hk : key.length = 32) :
    (ares_rc4_prng (ares_rc4_init key) n).2 = spec_rc4_keystream key n := by
  have h := (ksa_refines_schedule key hk 256 (Nat.le_refl _)).1
  have h2 : TableAgree (ares_rc4_init key).S (spec_key_schedule key 256).1 := by
    simp only [ares_rc4_init]
    exact h
  have h3 := prng_refines_emit n (ares_rc4_init key) (spec_key_schedule key 256).1 h2
  have hi : (ares_rc4_init key).i = 0 := rfl
  have hj : (ares_rc4_init key).j = 0 := rfl
  rw [hi, hj] at h3
  unfold ares_rc4_prng spec_rc4_keystream
  exact h3

/-- C11 at a concrete input: a key of 32 bytes of value 1, two bytes drawn. -/
theorem rc4_matches_reference_witness :
    (List.replicate 32 1).length = 32 ∧
    (ares_rc4_prng (ares_rc4_init (List.replicate 32 1)) 2).2 =
      spec_rc4_keystream (List.replicate 32 1) 2 :=
  ⟨List.length_replicate 32 1,
   rc4_matches_reference (List.replicate 32 1) 2 (List.length_replicate 32 1)⟩

/-! ## `cache_remaining` between calls (C17) -/

theorem generate_new_id_reachable (cfg : BuildConfig) (fuel : Nat) (env : Env)
    (st : ares_rand_state) (x : IdResult) (h : Reachable cfg st)
    (hx : ares__generate_new_id cfg fuel env st = some x) : Reachable cfg x.state := by
  simp only [ares__generate_new_id, Option.map_eq_some'] at hx
  obtain ⟨r, hr, rfl⟩ := hx
  exact Reachable.step fuel env st 2 r h hr

theorem rand_bytes_copies (cfg : BuildConfig) (fuel : Nat) (env : Env) (st : ares_rand_state)
    (len : Nat) (r : FetchResult) (hr : st.cache_remaining ≤ 255)
    (h : ares__rand_bytes cfg fuel env st len = some r) :
    ∀ c ∈ cache_copies r.trace, c.2 = len ∧ c.1 + c.2 ≤ 256 := by
  by_cases h1 : len ≤ st.cache_remaining
  · rw [rand_bytes_serve cfg fuel env st len (by omega) h1] at h
    cases h
    intro c hc
    simp only [cache_copies, List.mem_singleton] at hc
    subst hc
    exact ⟨rfl, by show 256 - st.cache_remaining + len ≤ 256; omega⟩
  · by_cases h2 : len < 256
    · rw [rand_bytes_refill cfg fuel env st len (by omega) h2, Option.map_eq_some'] at h
      obtain ⟨x, hx, rfl⟩ := h
      have ht := fetch_sizes_backend x.trace (fetch_trace cfg _ fuel env st x hx)
      intro c hc
      simp only [cache_copies, cache_copies_append, ht.2, List.nil_append,
        List.mem_singleton] at hc
      subst hc
      exact ⟨rfl, by show 0 + len ≤ 256; omega⟩
    · rw [rand_bytes_bypass cfg fuel env st len (by omega) (by omega), Option.map_eq_some'] at h
      obtain ⟨x, hx, rfl⟩ := h
      have ht := fetch_sizes_backend x.trace (fetch_trace cfg _ fuel env st x hx)
      intro c hc
      simp [cache_copies, ht.2] at hc

/-- C17: in every state reachable from `ares__init_rand_state` through
`ares__rand_bytes` and `ares__generate_new_id` calls, whatever the lengths and
the backend behaviour, `cache_remaining ≤ 255`; the offset
`256 - cache_remaining` does not wrap, and every cache copy a call makes lies
inside the 256-byte cache.  States after either call are again reachable. -/
theorem cache_remaining_at_most_255 (cfg : BuildConfig) (st : ares_rand_state)
    (h : Reachable cfg st) :
    st.cache_remaining ≤ 255 ∧ st.cache.length = 256 ∧
    size_sub CACHE_SIZE st.cache_remaining = 256 - st.cache_remaining ∧
    (∀ fuel env len r, ares__rand_bytes cfg fuel env st len = some r →
      Reachable cfg r.state ∧ r.state.cache_remaining ≤ 255 ∧
      ∀ c ∈ cache_copies r.trace, c.2 = len ∧ c.1 + c.2 ≤ 256) ∧
    (∀ fuel env x, ares__generate_new_id cfg fuel env st = some x →
      Reachable cfg x.state ∧ x.state.cache_remaining ≤ 255) := by
  have hi := reachable_inv cfg st h
  refine ⟨hi.2, hi.1, size_sub_cache _ (by omega), ?_, ?_⟩
  · intro fuel env len r hr
    have hs := Reachable.step fuel env st len r h hr
    exact ⟨hs, (reachable_inv cfg _ hs).2, rand_bytes_copies cfg fuel env st len r hi.2 hr⟩
  · intro fuel env x hx
    have hs := generate_new_id_reachable cfg fuel env st x h hx
    exact ⟨hs, (reachable_inv cfg _ hs).2⟩

/-! ## No zero-length fetch (C18) -/

theorem getrandom_loop_zero (fuel : Nat) : ∀ env : Env, getrandom_loop 0 fuel env [] = none := by
  induction fuel with
  | zero => intro env; rfl
  | succ fuel ih =>
    intro env
    simp only [getrandom_loop]
    split
    · rw [ih]
      rfl
    · simp [ih]

theorem fread_loop_zero (fuel : Nat) (env : Env)
    (r : Env × Option (List Nat) × List Event) (h : fread_loop 0 fuel env [] = some r) :
    r.2.1 = none := by
  cases fuel with
  | zero => simp [fread_loop] at h
  | succ fuel =>
    simp [fread_loop] at h
    rw [← h]

theorem rand_bytes_fetch_sizes (cfg : BuildConfig) (fuel : Nat) (env : Env)
    (st : ares_rand_state) (len : Nat) (r : FetchResult) (hr : st.cache_remaining ≤ 255)
    (h : ares__rand_bytes cfg fuel env st len = some r) :
    ∀ n ∈ fetch_sizes r.trace, 1 ≤ n := by
  by_cases h1 : len ≤ st.cache_remaining
  · rw [rand_bytes_serve cfg fuel env st len (by omega) h1] at h
    cases h
    intro n hn
    simp [fetch_sizes] at hn
  · by_cases h2 : len < 256
    · rw [rand_bytes_refill cfg fuel env st len (by omega) h2, Option.map_eq_some'] at h
      obtain ⟨x, hx, rfl⟩ := h
      have ht := fetch_sizes_backend x.trace (fetch_trace cfg _ fuel env st x hx)
      intro n hn
      simp only [fetch_sizes, fetch_sizes_append, ht.1, List.nil_append, List.append_nil,
        List.mem_singleton] at hn
      omega
    · rw [rand_bytes_bypass cfg fuel env st len (by omega) (by omega), Option.map_eq_some'] at h
      obtain ⟨x, hx, rfl⟩ := h
      have ht := fetch_sizes_backend x.trace (fetch_trace cfg _ fuel env st x hx)
      intro n hn
      simp only [fetch_sizes, ht.1, List.mem_singleton] at hn
      omega

/-- A zero-length fetch never returns on the device-file backend, nor on the
`getrandom` backend: if it returns at all, the state it returns has another
backend. -/
theorem fetch_zero_backend (cfg : BuildConfig) (fuel : Nat) :
    ∀ (env : Env) (st : ares_rand_state) (r : FetchResult),
      ares__rand_bytes_fetch cfg fuel env st 0 = some r →
      r.state.type ≠ .ARES_RAND_FILE ∧
      (cfg.win32 = false → cfg.have_arc4random_buf = false →
        r.state.type ≠ .ARES_RAND_OS) := by
  induction fuel with
  | zero => intro env st r h; simp [ares__rand_bytes_fetch] at h
  | succ fuel ih =>
    intro env st r h
    have retry : ∀ (env1 : Env) (tr : List Event),
        (ares__rand_bytes_fetch cfg fuel (ares__reinit_rand cfg env1 st).env
            (ares__reinit_rand cfg env1 st).state 0).map
          (fun x => { x with trace := tr ++ (ares__reinit_rand cfg env1 st).trace ++ x.trace })
          = some r →
        r.state.type ≠ .ARES_RAND_FILE ∧
        (cfg.win32 = false → cfg.have_arc4random_buf = false →
          r.state.type ≠ .ARES_RAND_OS) := by
      intro env1 tr hr
      rw [Option.map_eq_some'] at hr
      obtain ⟨x, hx, rfl⟩ := hr
      exact ih _ _ x hx
    simp only [ares__rand_bytes_fetch] at h
    split at h
    · rename_i hty
      split_ifs at h with hw ha hg
      · cases h
        exact ⟨by rw [hty]; simp, fun h1 _ => by rw [hw] at h1; cases h1⟩
      · cases h
        exact ⟨by rw [hty]; simp, fun _ h1 => by rw [ha] at h1; cases h1⟩
      · rw [getrandom_loop_zero] at h
        cases h
      · exact retry _ _ h
    · split at h
      · cases h
      · rename_i env1 bytes tr hfr
        have := fread_loop_zero fuel env _ hfr
        cases this
      · exact retry _ _ h
    · rename_i hty
      split_ifs at h
      · cases h
        exact ⟨by rw [hty]; simp, fun _ _ => by rw [hty]; simp⟩
      · exact retry _ _ h

/-- C18: on every reachable state and for every `len`, each fetch that
`ares__rand_bytes` issues asks for at least one byte: a call either is served
from the cache without a fetch, or is exactly one fetch of
`256 - cache_remaining ≥ 1` bytes (top-up) or of `len ≥ 1` bytes (direct).  With
`len = 0` it returns for any fuel, without a fetch and with the state as it
was.  The zero-length fetch that is thus avoided never returns on the
device-file backend nor on the `getrandom` backend: the `getrandom` loop does
not return for it, every pass of the device-file loop ends in a hard failure,
and a zero-length fetch that returns does so on another backend. -/
theorem fetch_asks_at_least_one_byte (cfg : BuildConfig) (st : ares_rand_state)
    (h : Reachable cfg st) (fuel : Nat) (env : Env) (len : Nat) :
    (∀ r, ares__rand_bytes cfg fuel env st len = some r → ∀ n ∈ fetch_sizes r.trace, 1 ≤ n) ∧
    (len ≤ st.cache_remaining ∨
      ∃ n f, 1 ≤ n ∧ (n = 256 - st.cache_remaining ∨ n = len) ∧
        ares__rand_bytes cfg fuel env st len =
          (ares__rand_bytes_fetch cfg fuel env st n).map f) ∧
    ares__rand_bytes cfg fuel env st 0 =
      some { env := env, state := st, bytes := [],
             trace := [Event.memcpy (256 - st.cache_remaining) 0] } ∧
    (∀ fuel1 env1, getrandom_loop 0 fuel1 env1 [] = none) ∧
    (∀ fuel1 env1 r, fread_loop 0 fuel1 env1 [] = some r → r.2.1 = none) ∧
    (∀ fuel1 env1 st1 r, ares__rand_bytes_fetch cfg fuel1 env1 st1 0 = some r →
      r.state.type ≠ .ARES_RAND_FILE ∧
      (cfg.win32 = false → cfg.have_arc4random_buf = false →
        r.state.type ≠ .ARES_RAND_OS)) := by
  have hi := reachable_inv cfg st h
  refine ⟨fun r hr => rand_bytes_fetch_sizes cfg fuel env st len r hi.2 hr, ?_, ?_,
    fun fuel1 env1 => getrandom_loop_zero fuel1 env1,
    fun fuel1 env1 r hr => fread_loop_zero fuel1 env1 r hr,
    fun fuel1 env1 st1 r hr => fetch_zero_backend cfg fuel1 env1 st1 r hr⟩
  · by_cases h1 : len ≤ st.cache_remaining
    · exact Or.inl h1
    · right
      by_cases h2 : len < 256
      · exact ⟨256 - st.cache_remaining, _, by omega, Or.inl rfl,
          rand_bytes_refill cfg fuel env st len (by omega) h2⟩
      · exact ⟨len, _, by omega, Or.inr rfl,
          rand_bytes_bypass cfg fuel env st len (by omega) (by omega)⟩
  · rw [rand_bytes_serve cfg fuel env st 0 (by omega) (Nat.zero_le _)]
    cases st
    simp

/-- C17 at a concrete input: the device-file state after one two-byte draw. -/
theorem cache_remaining_at_most_255_witness :
    Reachable cfg_file st_after_first_read ∧ st_after_first_read.cache_remaining ≤ 255 :=
  ⟨st_after_first_read_reachable,
   (cache_remaining_at_most_255 cfg_file st_after_first_read st_after_first_read_reachable).1⟩

/-- C18 at a concrete input: a zero-length request on the device-file state
after one two-byte draw, with no fuel at all. -/
theorem fetch_asks_at_least_one_byte_witness :
    Reachable cfg_file st_after_first_read ∧
    ares__rand_bytes cfg_file 0 env_dead_file st_after_first_read 0 =
      some { env := env_dead_file, state := st_after_first_read, bytes := [],
             trace := [Event.memcpy (256 - st_after_first_read.cache_remaining) 0] } :=
  ⟨st_after_first_read_reachable,
   (fetch_asks_at_least_one_byte cfg_file st_after_first_read st_after_first_read_reachable
      0 env_dead_file 0).2.2.1⟩

/-! ## The device-file loop (C15) -/

theorem fread_loop_reads (len : Nat) (fuel : Nat) :
    ∀ (env : Env) (acc : List Nat) (env1 : Env) (res : Option (List Nat)) (tr : List Event),
      acc.length < len → fread_loop len fuel env acc = some (env1, res, tr) →
      reads_ok len acc.length tr ∧
      env1 = { env with n_fread := env.n_fread + tr.length } ∧
      (∀ bytes, res = some bytes →
        bytes = acc ++ read_chunks env.fread_result env.n_fread tr ∧ bytes.length = len) ∧
      (res = none → ∃ o a, tr.getLast? = some (Event.fread o a 0)) := by
  induction fuel with
  | zero => intro env acc env1 res tr _ h; simp [fread_loop] at h
  | succ fuel ih =>
    intro env acc env1 res tr ha h
    have hg : (((env.fread_result env.n_fread).take (len - acc.length)).map
        (fun b => b % 256)).length ≤ len - acc.length := by
      rw [List.length_map, List.length_take]
      exact Nat.min_le_left _ _
    simp only [fread_loop] at h
    split_ifs at h with h0 h1
    · simp only [Option.some.injEq, Prod.mk.injEq] at h
      obtain ⟨rfl, rfl, rfl⟩ := h
      refine ⟨⟨rfl, rfl, Or.inl h0⟩, rfl, ?_, ?_⟩
      · intro bytes hb
        cases hb
      · intro _
        exact ⟨_, _, by rw [h0]; rfl⟩
    · simp only [Option.some.injEq, Prod.mk.injEq] at h
      obtain ⟨rfl, rfl, rfl⟩ := h
      rw [List.length_append] at h1
      refine ⟨⟨rfl, rfl, Or.inr h1⟩, rfl, ?_, ?_⟩
      · intro bytes hb
        cases hb
        exact ⟨by simp [read_chunks], by rw [List.length_append]; exact h1⟩
      · intro hn
        cases hn
    · rw [Option.map_eq_some'] at h
      obtain ⟨⟨e1, r1, t1⟩, hx, hxe⟩ := h
      simp only [Prod.mk.injEq] at hxe
      obtain ⟨rfl, rfl, rfl⟩ := hxe
      rw [List.length_append] at h1
      have hlt : (acc ++ ((env.fread_result env.n_fread).take (len - acc.length)).map
          (fun b => b % 256)).length < len := by
        rw [List.length_append]
        omega
      obtain ⟨k1, k2, k3, k4⟩ := ih _ _ _ _ _ hlt hx
      rw [List.length_append] at k1
      refine ⟨?_, ?_, ?_, ?_⟩
      · cases t1 with
        | nil => exact absurd k1 (by simp [reads_ok])
        | cons e t => exact ⟨rfl, rfl, by omega, by omega, k1⟩
      · rw [k2]
        simp only [List.length_cons]
        congr 1
        omega
      · intro bytes hb
        obtain ⟨k5, k6⟩ := k3 bytes hb
        refine ⟨?_, k6⟩
        rw [k5, List.append_assoc]
        rfl
      · intro hn
        obtain ⟨o, a, hl⟩ := k4 hn
        refine ⟨o, a, ?_⟩
        cases t1 with
        | nil => simp at hl
        | cons e t => simpa [List.getLast?_cons_cons] using hl

theorem init_trace_no_reinit (cfg : BuildConfig) (env : Env) :
    Event.reinit ∉ (ares__init_rand_engine cfg env).trace := by
  cases h : cfg.has_os
  · cases hf : cfg.cares_random_file
    · rw [init_engine_rc4 cfg env h hf]
      simp [init_rc4]
    · by_cases ho : env.fopen_result env.n_fopen = 0
      · rw [init_engine_file_fails cfg env h hf ho]
        simp [init_rc4]
      · rw [init_engine_file cfg env h hf ho]
        simp
  · rw [init_engine_os cfg env h]
    simp

/-! ## Hash table: the model against the spec's scenario -/

/-- The scenario of the spec (section 8): no growth for six keys, growth to 16
buckets at the 7th, to 32 at the 13th, and all 13 keys retrievable. -/
theorem htable_growth_scenario :
    (insert_all nat_callbacks empty_table [10, 11, 12, 13, 14, 15]).buckets.length = 8 ∧
    (insert_all nat_callbacks empty_table [10, 11, 12, 13, 14, 15, 16]).buckets.length = 16 ∧
    (insert_all nat_callbacks empty_table
      [10, 11, 12, 13, 14, 15, 16, 17, 18, 19, 20, 21]).buckets.length = 16 ∧
    (insert_all nat_callbacks empty_table
      [10, 11, 12, 13, 14, 15, 16, 17, 18, 19, 20, 21, 22]).buckets.length = 32 ∧
    ares__htable_num_keys (insert_all nat_callbacks empty_table
      [10, 11, 12, 13, 14, 15, 16, 17, 18, 19, 20, 21, 22]) = 13 ∧
    [10, 11, 12, 13, 14, 15, 16, 17, 18, 19, 20, 21, 22].map
        (ares__htable_get nat_callbacks (insert_all nat_callbacks empty_table
          [10, 11, 12, 13, 14, 15, 16, 17, 18, 19, 20, 21, 22])) =
      [10, 11, 12, 13, 14, 15, 16, 17, 18, 19, 20, 21, 22].map some := by
  decide

/-! ## Hash table: bucket arrays -/

theorem all_entries_replicate_nil {α : Type} (n : Nat) :
    all_entries (List.replicate n ([] : List α)) = [] := by
  induction n with
  | zero => rfl
  | succ n ih => simp [List.replicate_succ, all_entries, ih]

theorem mem_all_entries {α : Type} (bs : List (List α)) (e : α) :
    e ∈ all_entries bs ↔ ∃ i, i < bs.length ∧ e ∈ bs.getD i [] := by
  induction bs with
  | nil => simp [all_entries]
  | cons c rest ih =>
    simp only [all_entries, List.mem_append, ih]
    constructor
    · rintro (h | ⟨i, hi, he⟩)
      · exact ⟨0, by simp, by simpa using h⟩
      · exact ⟨i + 1, by simpa using hi, by simpa using he⟩
    · rintro ⟨i, hi, he⟩
      cases i with
      | zero => exact Or.inl (by simpa using he)
      | succ i => exact Or.inr ⟨i, by simpa using hi, by simpa using he⟩

theorem all_entries_set_perm {α : Type} (bs : List (List α)) (i : Nat) (x : α) (c : List α)
    (hi : i < bs.length) (hp : (bs.getD i []).Perm (x :: c)) :
    (all_entries bs).Perm (x :: all_entries (bs.set i c)) := by
  induction bs generalizing i with
  | nil => simp at hi
  | cons b rest ih =>
    cases i with
    | zero =>
      have hp2 : b.Perm (x :: c) := by simpa using hp
      simp only [List.set_cons_zero, all_entries]
      exact (hp2.append_right _).trans (by simp)
    | succ i =>
      have hp2 : (rest.getD i []).Perm (x :: c) := by simpa using hp
      have h := ih i (by simpa using hi) hp2
      simp only [List.set_cons_succ, all_entries]
      exact (h.append_left b).trans List.perm_middle

theorem getD_set_buckets {α : Type} (bs : List (List α)) (i j : Nat) (c : List α)
    (hi : i < bs.length) :
    (bs.set i c).getD j [] = if j = i then c else bs.getD j [] := by
  simp only [List.getD_eq_getElem?_getD, List.getElem?_set]
  by_cases h : i = j
  · subst h
    simp [hi]
  · have h2 : ¬ j = i := fun e => h e.symm
    simp [h, h2]

theorem chain_append_length {α : Type} (bs : List (List α)) (i : Nat) (e : α) :
    (chain_append bs i e).length = bs.length := by
  simp [chain_append]

theorem chain_append_perm {α : Type} (bs : List (List α)) (i : Nat) (e : α)
    (hi : i < bs.length) : (all_entries (chain_append bs i e)).Perm (e :: all_entries bs) := by
  have h := all_entries_set_perm (chain_append bs i e) i e (bs.getD i [])
    (by rw [chain_append_length]; exact hi)
    (by
      unfold chain_append
      rw [getD_set_buckets bs i i _ hi, if_pos rfl]
      exact List.perm_append_singleton _ _)
  have hback : (chain_append bs i e).set i (bs.getD i []) = bs := by
    unfold chain_append
    rw [List.set_set]
    apply List.ext_getElem?
    intro j
    rw [List.getElem?_set]
    by_cases hj : i = j
    · subst hj
      simp [hi, List.getD_eq_getElem?_getD, List.getElem?_eq_getElem hi]
    · simp [hj]
  rw [hback] at h
  exact h

theorem chain_append_getD {α : Type} (bs : List (List α)) (i j : Nat) (e : α)
    (hi : i < bs.length) :
    (chain_append bs i e).getD j [] = if j = i then bs.getD i [] ++ [e] else bs.getD j [] := by
  unfold chain_append
  exact getD_set_buckets bs i j _ hi

theorem getD_sublist_all_entries {α : Type} (bs : List (List α)) (i : Nat) :
    (bs.getD i []).Sublist (all_entries bs) := by
  induction bs generalizing i with
  | nil => simp [all_entries]
  | cons b rest ih =>
    cases i with
    | zero =>
      simp only [List.getD_cons_zero, all_entries]
      exact List.sublist_append_left b _
    | succ i =>
      simp only [List.getD_cons_succ, all_entries]
      exact (ih i).trans (List.sublist_append_right b _)

theorem relink_spec {α : Type} (h : α → Nat) (n : Nat) (hn : 0 < n) (entries : List α) :
    ∀ nb : List (List α), nb.length = n →
      (∀ i, i < n → ∀ x ∈ nb.getD i [], h x % n = i) →
      (entries.foldl (fun nb e => chain_append nb (h e % n) e) nb).length = n ∧
      (all_entries (entries.foldl (fun nb e => chain_append nb (h e % n) e) nb)).Perm
        (entries ++ all_entries nb) ∧
      (∀ i, i < n → ∀ x ∈ (entries.foldl (fun nb e => chain_append nb (h e % n) e) nb).getD i [],
        h x % n = i) := by
  induction entries with
  | nil => intro nb hl hp; exact ⟨hl, List.Perm.refl _, hp⟩
  | cons e es ih =>
    intro nb hl hp
    have hi : h e % n < nb.length := by rw [hl]; exact Nat.mod_lt _ hn
    have h1 := ih (chain_append nb (h e % n) e) (by rw [chain_append_length, hl]) (by
      intro i hi2 x hx
      rw [chain_append_getD nb _ i e hi] at hx
      split_ifs at hx with hc
      · rcases List.mem_append.mp hx with hx | hx
        · exact hp i hi2 x (hc ▸ hx)
        · rw [List.mem_singleton.mp hx, hc]
      · exact hp i hi2 x hx)
    refine ⟨h1.1, ?_, h1.2.2⟩
    simp only [List.foldl_cons]
    refine h1.2.1.trans ?_
    have h2 := chain_append_perm nb (h e % n) e hi
    exact (h2.append_left es).trans (by simp)

/-! ## Hash table: the structural invariant -/

theorem distinct_symm {α κ : Type} (cb : htable_callbacks α κ) (hl : LawfulCallbacks cb)
    (a b : α) (h : cb.key_eq (cb.bucket_key a) (cb.bucket_key b) = false) :
    cb.key_eq (cb.bucket_key b) (cb.bucket_key a) = false := by
  cases hba : cb.key_eq (cb.bucket_key b) (cb.bucket_key a)
  · rfl
  · rw [hl.eq_symm _ _ hba] at h
    cases h

theorem distinct_perm {α κ : Type} (cb : htable_callbacks α κ) (hl : LawfulCallbacks cb)
    (l1 l2 : List α) (hp : l1.Perm l2) (h : DistinctKeys cb l1) : DistinctKeys cb l2 :=
  (hp.pairwise_iff (fun {a b} hab => distinct_symm cb hl a b hab)).mp h

theorem htable_idx_lt {α κ : Type} (cb : htable_callbacks α κ) (t : ares__htable α) (key : κ)
    (h : 0 < t.buckets.length) : htable_idx cb t key < t.buckets.length :=
  Nat.mod_lt _ h

theorem wf_insert_fresh {α κ : Type} (cb : htable_callbacks α κ) (hl : LawfulCallbacks cb)
    (t : ares__htable α) (e : α) (hw : HtWF cb t)
    (hnone : htable_find cb (t.buckets.getD (htable_idx cb t (cb.bucket_key e)) [])
      (cb.bucket_key e) = none) :
    HtWF cb { t with buckets := chain_append t.buckets (htable_idx cb t (cb.bucket_key e)) e,
                     num_keys := t.num_keys + 1 } := by
  obtain ⟨h0, hplace, hdist, hnum⟩ := hw
  have hi := htable_idx_lt cb t (cb.bucket_key e) h0
  have hperm := chain_append_perm t.buckets _ e hi
  have hfresh : ∀ x ∈ all_entries t.buckets,
      cb.key_eq (cb.bucket_key e) (cb.bucket_key x) = false := by
    intro x hx
    obtain ⟨j, hj, hxj⟩ := (mem_all_entries t.buckets x).mp hx
    cases hk : cb.key_eq (cb.bucket_key e) (cb.bucket_key x)
    · rfl
    · have hidx : htable_idx cb t (cb.bucket_key e) = j := by
        rw [← hplace j hj x hxj]
        unfold htable_idx
        rw [hl.hash_eq _ _ t.seed hk]
      rw [hidx] at hnone
      have := (List.find?_eq_none.mp hnone) x hxj
      exact absurd hk this
  refine ⟨by simpa [chain_append_length] using h0, ?_, ?_, ?_⟩
  · intro i hi2 x hx
    have hi3 : i < t.buckets.length := by simpa [chain_append_length] using hi2
    have hsame : ∀ k, htable_idx cb { t with
        buckets := chain_append t.buckets (htable_idx cb t (cb.bucket_key e)) e,
        num_keys := t.num_keys + 1 } k = htable_idx cb t k := by
      intro k
      simp [htable_idx, chain_append_length]
    rw [hsame]
    simp only [chain_append_getD t.buckets _ i e hi] at hx
    split_ifs at hx with hc
    · rcases List.mem_append.mp hx with hx | hx
      · exact hplace i hi3 x (hc ▸ hx)
      · rw [List.mem_singleton.mp hx, hc]
    · exact hplace i hi3 x hx
  · exact distinct_perm cb hl _ _ hperm.symm (List.pairwise_cons.mpr ⟨hfresh, hdist⟩)
  · show t.num_keys + 1 = _
    rw [hperm.length_eq, hnum]
    rfl

theorem wf_expand {α κ : Type} (cb : htable_callbacks α κ) (hl : LawfulCallbacks cb)
    (t : ares__htable α) (hw : HtWF cb t) : HtWF cb (htable_expand cb t) := by
  obtain ⟨h0, _, hdist, hnum⟩ := hw
  have hn : 0 < 2 * t.buckets.length := by omega
  have hs := relink_spec (fun e => cb.hash_func (cb.bucket_key e) t.seed) (2 * t.buckets.length)
    hn (all_entries t.buckets) (List.replicate (2 * t.buckets.length) [])
    (List.length_replicate _ _) (by
      intro i hi x hx
      simp [List.getD_eq_getElem?_getD, List.getElem?_replicate, hi] at hx)
  rw [all_entries_replicate_nil, List.append_nil] at hs
  refine ⟨?_, ?_, ?_, ?_⟩
  · show 0 < (htable_expand cb t).buckets.length
    simp only [htable_expand]
    rw [hs.1]
    exact hn
  · intro i hi x hx
    simp only [htable_expand] at hi hx
    rw [hs.1] at hi
    simp only [htable_idx, htable_expand]
    rw [hs.1]
    exact hs.2.2 i hi x hx
  · exact distinct_perm cb hl _ _ hs.2.1.symm hdist
  · show t.num_keys = _
    simp only [htable_expand]
    rw [hs.2.1.length_eq, hnum]

theorem expand_length {α κ : Type} (cb : htable_callbacks α κ) (t : ares__htable α)
    (h0 : 0 < t.buckets.length) :
    (htable_expand cb t).buckets.length = 2 * t.buckets.length ∧
    (htable_expand cb t).num_keys = t.num_keys := by
  have hs := relink_spec (fun e => cb.hash_func (cb.bucket_key e) t.seed) (2 * t.buckets.length)
    (by omega) (all_entries t.buckets) (List.replicate (2 * t.buckets.length) [])
    (List.length_replicate _ _) (by
      intro i hi x hx
      simp [List.getD_eq_getElem?_getD, List.getElem?_replicate, hi] at hx)
  exact ⟨hs.1, rfl⟩


theorem wf_remove {α κ : Type} (cb : htable_callbacks α κ) (hl : LawfulCallbacks cb)
    (t : ares__htable α) (key : κ) (hw : HtWF cb t) :
    HtWF cb (ares__htable_remove cb t key).table := by
  obtain ⟨h0, hplace, hdist, hnum⟩ := hw
  have hi := htable_idx_lt cb t key h0
  unfold ares__htable_remove
  simp only
  split
  · exact ⟨h0, hplace, hdist, hnum⟩
  · rename_i e hfind
    have hmem : e ∈ t.buckets.getD (htable_idx cb t key) [] := List.mem_of_find?_eq_some hfind
    have hpe : cb.key_eq key (cb.bucket_key e) = true :=
      List.find?_some (p := fun x => cb.key_eq key (cb.bucket_key x)) hfind
    obtain ⟨a, l1, l2, _, _, hsplit, herase⟩ :=
      List.exists_of_eraseP (p := fun x => cb.key_eq key (cb.bucket_key x)) hmem hpe
    have hperm := all_entries_set_perm t.buckets (htable_idx cb t key) a
      ((t.buckets.getD (htable_idx cb t key) []).eraseP
        (fun x => cb.key_eq key (cb.bucket_key x))) hi
      (by rw [herase, hsplit]; exact List.perm_middle)
    refine ⟨by simpa using h0, ?_, ?_, ?_⟩
    · intro i hi2 x hx
      have hi3 : i < t.buckets.length := by simpa using hi2
      have hsame : ∀ k, htable_idx cb { t with
          buckets := t.buckets.set (htable_idx cb t key)
            ((t.buckets.getD (htable_idx cb t key) []).eraseP
              (fun x => cb.key_eq key (cb.bucket_key x))),
          num_keys := t.num_keys - 1 } k = htable_idx cb t k := by
        intro k
        simp [htable_idx]
      rw [hsame]
      simp only [getD_set_buckets t.buckets _ i _ hi] at hx
      split_ifs at hx with hc
      · exact hplace i hi3 x (hc ▸ List.mem_of_mem_eraseP hx)
      · exact hplace i hi3 x hx
    · exact (List.pairwise_cons.mp (distinct_perm cb hl _ _ hperm hdist)).2
    · show t.num_keys - 1 = (all_entries (t.buckets.set (htable_idx cb t key)
          ((t.buckets.getD (htable_idx cb t key) []).eraseP
            (fun x => cb.key_eq key (cb.bucket_key x))))).length
      have := hperm.length_eq
      simp only [List.length_cons] at this
      omega

theorem wf_insert {α κ : Type} (cb : htable_callbacks α κ) (hl : LawfulCallbacks cb)
    (alloc_ok : Bool) (t : ares__htable α) (e : α) (hw : HtWF cb t) :
    HtWF cb (ares__htable_insert cb alloc_ok t e).table := by
  unfold ares__htable_insert
  simp only
  split
  · exact hw
  · rename_i hnone
    have h1 := wf_insert_fresh cb hl t e hw hnone
    split_ifs
    · exact wf_expand cb hl _ h1
    · exact h1
    · exact hw

theorem create_wf {α κ : Type} (cb : htable_callbacks α κ) (seed : Nat) (t : ares__htable α)
    (h : ares__htable_create true seed = some t) : HtWF cb t ∧ HtSized t := by
  simp only [ares__htable_create, if_true, Option.some.injEq] at h
  subst h
  refine ⟨⟨by simp [ARES__HTABLE_MIN_BUCKETS], ?_, ?_, ?_⟩, ?_, ⟨3, Nat.le_refl _, ?_⟩⟩
  · intro i hi x hx
    simp only [List.getD_eq_getElem?_getD, List.getElem?_replicate] at hx
    split_ifs at hx <;> simp at hx
  · simp [DistinctKeys, all_entries_replicate_nil]
  · simp [all_entries_replicate_nil]
  · simp
  · simp [ARES__HTABLE_MIN_BUCKETS]

theorem reachable_wf {α κ : Type} (cb : htable_callbacks α κ) (hl : LawfulCallbacks cb)
    (t : ares__htable α) (h : HtReachable cb t) : HtWF cb t := by
  induction h with
  | create seed t hc => exact (create_wf cb seed t hc).1
  | insert alloc_ok t e _ ih => exact wf_insert cb hl alloc_ok t e ih
  | remove t key _ ih => exact wf_remove cb hl t key ih

/-! ## Hash table: load factor and bucket count (C13) -/

theorem sized_pos {α : Type} (t : ares__htable α) (h : HtSized t) : 8 ≤ t.buckets.length := by
  obtain ⟨_, k, hk, he⟩ := h
  rw [he]
  calc 8 = 2 ^ 3 := by norm_num
    _ ≤ 2 ^ k := Nat.pow_le_pow_right (by norm_num) hk

theorem insert_sized {α κ : Type} (cb : htable_callbacks α κ) (alloc_ok : Bool)
    (t : ares__htable α) (e : α) (hs : HtSized t) :
    HtSized (ares__htable_insert cb alloc_ok t e).table ∧
    ((ares__htable_insert cb alloc_ok t e).table.buckets.length = t.buckets.length ∨
     (ares__htable_insert cb alloc_ok t e).table.buckets.length = 2 * t.buckets.length) := by
  have h8 := sized_pos t hs
  obtain ⟨hload, k, hk, he⟩ := hs
  unfold ares__htable_insert
  simp only
  split
  · exact ⟨⟨hload, k, hk, he⟩, Or.inl rfl⟩
  · split_ifs with ha hg
    · have hx := expand_length cb { t with
        buckets := chain_append t.buckets (htable_idx cb t (cb.bucket_key e)) e,
        num_keys := t.num_keys + 1 } (by simp [chain_append_length]; omega)
      simp only [chain_append_length] at hx
      refine ⟨⟨?_, k + 1, by omega, ?_⟩, Or.inr hx.1⟩
      · rw [hx.1, hx.2]
        omega
      · rw [hx.1, he, Nat.pow_succ]
        omega
    · simp only [chain_append_length, gt_iff_lt, not_lt] at hg
      exact ⟨⟨by simpa [chain_append_length] using hg, k, hk, by
        simpa [chain_append_length] using he⟩, Or.inl (by simp [chain_append_length])⟩
    · exact ⟨⟨hload, k, hk, he⟩, Or.inl rfl⟩

theorem remove_sized {α κ : Type} (cb : htable_callbacks α κ) (t : ares__htable α) (key : κ)
    (hs : HtSized t) :
    HtSized (ares__htable_remove cb t key).table ∧
    (ares__htable_remove cb t key).table.buckets.length = t.buckets.length := by
  obtain ⟨hload, k, hk, he⟩ := hs
  unfold ares__htable_remove
  simp only
  split
  · exact ⟨⟨hload, k, hk, he⟩, rfl⟩
  · refine ⟨⟨?_, k, hk, by simpa using he⟩, by simp⟩
    simp only [List.length_set]
    omega

theorem reachable_sized {α κ : Type} (cb : htable_callbacks α κ) (t : ares__htable α)
    (h : HtReachable cb t) : HtSized t := by
  induction h with
  | create seed t hc => exact (create_wf cb seed t hc).2
  | insert alloc_ok t e _ ih => exact (insert_sized cb alloc_ok t e ih).1
  | remove t key _ ih => exact (remove_sized cb t key ih).1

/-- C13: for every table reached from `ares__htable_create` by inserts and
removes, the bucket count is a power of two and at least 8, and the number of
keys is at most 0.75 times the bucket count, in particular after every
successful insert; an insert leaves the bucket count as it was or doubles it,
a remove leaves it as it was. -/
theorem htable_load_factor {α κ : Type} (cb : htable_callbacks α κ) (t : ares__htable α)
    (h : HtReachable cb t) :
    (∃ k, t.buckets.length = 2 ^ k) ∧ ARES__HTABLE_MIN_BUCKETS ≤ t.buckets.length ∧
    4 * ares__htable_num_keys t ≤ 3 * t.buckets.length ∧
    (∀ alloc_ok e, (ares__htable_insert cb alloc_ok t e).ret = 1 →
      4 * ares__htable_num_keys (ares__htable_insert cb alloc_ok t e).table ≤
        3 * (ares__htable_insert cb alloc_ok t e).table.buckets.length) ∧
    (∀ alloc_ok e,
      (ares__htable_insert cb alloc_ok t e).table.buckets.length = t.buckets.length ∨
      (ares__htable_insert cb alloc_ok t e).table.buckets.length = 2 * t.buckets.length) ∧
    (∀ key, (ares__htable_remove cb t key).table.buckets.length = t.buckets.length) := by
  have hs := reachable_sized cb t h
  refine ⟨?_, sized_pos t hs, hs.1, ?_, ?_, ?_⟩
  · obtain ⟨_, k, _, he⟩ := hs
    exact ⟨k, he⟩
  · intro alloc_ok e _
    exact (insert_sized cb alloc_ok t e hs).1.1
  · intro alloc_ok e
    exact (insert_sized cb alloc_ok t e hs).2
  · intro key
    exact (remove_sized cb t key hs).2

theorem insert_all_reachable {α κ : Type} (cb : htable_callbacks α κ) (es : List α) :
    ∀ t : ares__htable α, HtReachable cb t → HtReachable cb (insert_all cb t es) := by
  induction es with
  | nil => intro t h; exact h
  | cons e es ih => intro t h; exact ih _ (HtReachable.insert true t e h)

theorem empty_table_reachable : HtReachable nat_callbacks empty_table :=
  HtReachable.create 5 empty_table rfl

/-- C13 at a concrete input: seven keys inserted into the empty table. -/
theorem htable_load_factor_witness :
    HtReachable nat_callbacks (insert_all nat_callbacks empty_table [10, 11, 12, 13, 14, 15, 16]) ∧
    4 * ares__htable_num_keys
        (insert_all nat_callbacks empty_table [10, 11, 12, 13, 14, 15, 16]) ≤
      3 * (insert_all nat_callbacks empty_table [10, 11, 12, 13, 14, 15, 16]).buckets.length :=
  ⟨insert_all_reachable nat_callbacks _ _ empty_table_reachable,
   (htable_load_factor nat_callbacks _
      (insert_all_reachable nat_callbacks [10, 11, 12, 13, 14, 15, 16] empty_table
        empty_table_reachable)).2.2.1⟩

/-! ## Hash table: duplicate keys (C12) -/

theorem find_unique {α κ : Type} (cb : htable_callbacks α κ) (hl : LawfulCallbacks cb)
    (key : κ) (e0 : α) (hk : cb.key_eq key (cb.bucket_key e0) = true) :
    ∀ chain : List α, DistinctKeys cb chain → e0 ∈ chain →
      htable_find cb chain key = some e0 := by
  intro chain
  induction chain with
  | nil => intro _ h; cases h
  | cons x rest ih =>
    intro hd hm
    obtain ⟨hx, hrest⟩ := List.pairwise_cons.mp hd
    unfold htable_find
    by_cases hxe : x = e0
    · subst hxe
      simp [List.find?_cons, hk]
    · have hm2 : e0 ∈ rest := by
        rcases List.mem_cons.mp hm with h | h
        · exact absurd h.symm hxe
        · exact h
      have hne : cb.key_eq key (cb.bucket_key x) = false := by
        cases hkx : cb.key_eq key (cb.bucket_key x)
        · rfl
        · have h1 := hl.eq_trans _ _ _ (hl.eq_symm _ _ hkx) hk
          rw [hx e0 hm2] at h1
          cases h1
      simp only [List.find?_cons, hne]
      exact ih hrest hm2

theorem get_stored {α κ : Type} (cb : htable_callbacks α κ) (hl : LawfulCallbacks cb)
    (t : ares__htable α) (hw : HtWF cb t) (key : κ) (e0 : α)
    (hmem : e0 ∈ all_entries t.buckets) (hk : cb.key_eq key (cb.bucket_key e0) = true) :
    ares__htable_get cb t key = some e0 := by
  obtain ⟨_, hplace, hdist, _⟩ := hw
  obtain ⟨j, hj, hxj⟩ := (mem_all_entries t.buckets e0).mp hmem
  have hidx : htable_idx cb t key = j := by
    rw [← hplace j hj e0 hxj]
    unfold htable_idx
    rw [hl.hash_eq _ _ t.seed hk]
  unfold ares__htable_get
  rw [hidx]
  exact find_unique cb hl key e0 hk _ (hdist.sublist (getD_sublist_all_entries t.buckets j)) hxj

/-- C12: on every reachable table, inserting an entry whose key compares equal
to the key of an entry `e0` already stored fails: `ares__htable_insert` returns
0 and the table is the one it was given, so `ares__htable_get` for that key
returns `e0` before and after, and `ares__htable_num_keys` is unchanged. -/
theorem htable_insert_duplicate {α κ : Type} (cb : htable_callbacks α κ)
    (hl : LawfulCallbacks cb) (t : ares__htable α) (ht : HtReachable cb t)
    (alloc_ok : Bool) (bucket e0 : α) (hmem : e0 ∈ all_entries t.buckets)
    (heq : cb.key_eq (cb.bucket_key bucket) (cb.bucket_key e0) = true) :
    (ares__htable_insert cb alloc_ok t bucket).ret = 0 ∧
    (ares__htable_insert cb alloc_ok t bucket).table = t ∧
    ares__htable_get cb t (cb.bucket_key e0) = some e0 ∧
    ares__htable_get cb (ares__htable_insert cb alloc_ok t bucket).table (cb.bucket_key e0)
      = some e0 ∧
    ares__htable_get cb (ares__htable_insert cb alloc_ok t bucket).table (cb.bucket_key bucket)
      = some e0 ∧
    ares__htable_num_keys (ares__htable_insert cb alloc_ok t bucket).table =
      ares__htable_num_keys t := by
  have hw := reachable_wf cb hl t ht
  have hget := get_stored cb hl t hw (cb.bucket_key bucket) e0 hmem heq
  have hget0 := get_stored cb hl t hw (cb.bucket_key e0) e0 hmem (hl.eq_refl _)
  have hins : ares__htable_insert cb alloc_ok t bucket = { ret := 0, table := t } := by
    unfold ares__htable_get at hget
    unfold ares__htable_insert
    simp only [hget]
  rw [hins]
  exact ⟨rfl, rfl, hget0, hget0, hget, rfl⟩

/-- Equality and hashing of natural-number keys are lawful. -/
theorem nat_callbacks_lawful : LawfulCallbacks nat_callbacks := by
  refine ⟨?_, ?_, ?_, ?_⟩
  · intro k
    simp [nat_callbacks]
  · intro a b h
    simp only [nat_callbacks, beq_iff_eq] at h ⊢
    exact h.symm
  · intro a b c h1 h2
    simp only [nat_callbacks, beq_iff_eq] at h1 h2 ⊢
    exact h1.trans h2
  · intro a b seed h
    simp only [nat_callbacks, beq_iff_eq] at h ⊢
    rw [h]

/-- C12 at a concrete input: key 12 inserted a second time. -/
theorem htable_insert_duplicate_witness :
    HtReachable nat_callbacks (insert_all nat_callbacks empty_table [10, 11, 12]) ∧
    (ares__htable_insert nat_callbacks true
      (insert_all nat_callbacks empty_table [10, 11, 12]) 12).ret = 0 :=
  ⟨insert_all_reachable nat_callbacks _ _ empty_table_reachable,
   (htable_insert_duplicate nat_callbacks nat_callbacks_lawful
      (insert_all nat_callbacks empty_table [10, 11, 12])
      (insert_all_reachable nat_callbacks _ _ empty_table_reachable) true 12 12
      (by decide) (by decide)).1⟩

/-! ## The case-insensitive hash (C14) -/

theorem getD_map_tolower (key : List Nat) (i : Nat) :
    (key.map ares__tolower).getD i 0 = ares__tolower (key.getD i 0) := by
  simp only [List.getD_eq_getElem?_getD, List.getElem?_map]
  cases key[i]? with
  | none => rfl
  | some c => rfl

theorem casecmp_loop_eq (key : List Nat) (n : Nat) : ∀ i hv,
    fnv1a_casecmp_loop key n i hv = fnv1a_loop (key.map ares__tolower) n i hv := by
  induction n with
  | zero => intro i hv; rfl
  | succ n ih =>
    intro i hv
    simp only [fnv1a_casecmp_loop, fnv1a_loop, getD_map_tolower, ih]

/-- C14: for every byte key, every length and every seed, the case-insensitive
hash of the key is the plain hash of the lower-cased key; hence keys with the
same lower-casing have the same hash and the same bucket index for any bucket
count, as "Example.COM" and "example.com" do (whose plain hashes differ). -/
theorem casecmp_hash_is_hash_of_lowercase :
    (∀ (key : List Nat) (key_len seed : Nat),
      ares__htable_hash_FNV1a_casecmp key key_len seed =
        ares__htable_hash_FNV1a (key.map ares__tolower) key_len seed) ∧
    (∀ (k1 k2 : List Nat) (key_len seed buckets : Nat),
      k1.map ares__tolower = k2.map ares__tolower →
      ares__htable_hash_FNV1a_casecmp k1 key_len seed =
        ares__htable_hash_FNV1a_casecmp k2 key_len seed ∧
      ares__htable_hash_FNV1a_casecmp k1 key_len seed % buckets =
        ares__htable_hash_FNV1a_casecmp k2 key_len seed % buckets) ∧
    key_mixed_case.map ares__tolower = key_lower_case.map ares__tolower ∧
    ares__htable_hash_FNV1a key_mixed_case 11 7 ≠ ares__htable_hash_FNV1a key_lower_case 11 7 := by
  have h1 : ∀ (key : List Nat) (key_len seed : Nat),
      ares__htable_hash_FNV1a_casecmp key key_len seed =
        ares__htable_hash_FNV1a (key.map ares__tolower) key_len seed := by
    intro key key_len seed
    exact casecmp_loop_eq key key_len 0 (fnv1a_basis seed)
  refine ⟨h1, ?_, by decide, by decide⟩
  intro k1 k2 key_len seed buckets h
  have e : ares__htable_hash_FNV1a_casecmp k1 key_len seed =
      ares__htable_hash_FNV1a_casecmp k2 key_len seed := by
    rw [h1 k1, h1 k2, h]
  exact ⟨e, by rw [e]⟩

/-- C14 at a concrete input: "Example.COM" and "example.com" with seed 7 in a
table of 8 buckets. -/
theorem casecmp_hash_is_hash_of_lowercase_witness :
    key_mixed_case.map ares__tolower = key_lower_case.map ares__tolower ∧
    ares__htable_hash_FNV1a_casecmp key_mixed_case 11 7 % 8 =
      ares__htable_hash_FNV1a_casecmp key_lower_case 11 7 % 8 :=
  ⟨by decide,
   (casecmp_hash_is_hash_of_lowercase.2.1 key_mixed_case key_lower_case 11 7 8 (by decide)).2⟩

/-! ## Termination of the fetch when the backend recovers (C6) -/

theorem take_map_nil (chunk : List Nat) (asked : Nat) (ha : 1 ≤ asked)
    (h : ((chunk.take asked).map (fun b => b % 256)).length = 0) : chunk = [] := by
  cases chunk with
  | nil => rfl
  | cons c cs =>
    obtain ⟨a, rfl⟩ : ∃ a, asked = a + 1 := ⟨asked - 1, by omega⟩
    simp at h

/-- A pass of the device-file loop that fails does so before the reads that deliver. -/
theorem fread_loop_fails_before (len a : Nat) (fuel : Nat) :
    ∀ (env : Env) (acc : List Nat) (env1 : Env) (tr : List Event),
      acc.length < len → env.n_fread ≤ a + acc.length →
      (∀ k, a ≤ k → k < a + len → env.fread_result k ≠ []) →
      fread_loop len fuel env acc = some (env1, none, tr) →
      env.n_fread < env1.n_fread ∧ env1.n_fread ≤ a := by
  induction fuel with
  | zero => intro env acc env1 tr _ _ _ h; simp [fread_loop] at h
  | succ fuel ih =>
    intro env acc env1 tr hacc hn hw h
    have hgl : (((env.fread_result env.n_fread).take (len - acc.length)).map
        (fun b => b % 256)).length ≤ len - acc.length := by
      rw [List.length_map, List.length_take]
      exact Nat.min_le_left _ _
    simp only [fread_loop] at h
    split_ifs at h with h0 h1
    · simp only [Option.some.injEq, Prod.mk.injEq] at h
      obtain ⟨rfl, -, -⟩ := h
      have hnil := take_map_nil _ _ (by omega) h0
      have hlt : env.n_fread < a := by
        by_contra hc
        exact hw env.n_fread (by omega) (by omega) hnil
      exact ⟨Nat.lt_succ_self _, hlt⟩
    · simp at h
    · rw [Option.map_eq_some'] at h
      obtain ⟨⟨e1, r1, t1⟩, hx, hxe⟩ := h
      simp only [Prod.mk.injEq] at hxe
      obtain ⟨rfl, rfl, -⟩ := hxe
      rw [List.length_append] at h1
      have h2 := ih { env with n_fread := env.n_fread + 1 } _ _ _
        (by rw [List.length_append]; omega)
        (by
          show env.n_fread + 1 ≤ a + (acc ++ ((env.fread_result env.n_fread).take
            (len - acc.length)).map (fun b => b % 256)).length
          rw [List.length_append]
          omega) hw hx
      have h3 : env.n_fread + 1 < e1.n_fread := h2.1
      exact ⟨by omega, h2.2⟩

/-- The `getrandom` loop cannot return while every call fails. -/
theorem getrandom_loop_dead (len : Nat) (fuel : Nat) :
    ∀ (env : Env) (acc : List Nat), (∀ k, env.getrandom_result k = none) →
      getrandom_loop len fuel env acc = none := by
  induction fuel with
  | zero => intro env acc _; rfl
  | succ fuel ih =>
    intro env acc h
    simp only [getrandom_loop, h env.n_getrandom]
    rw [ih { env with n_getrandom := env.n_getrandom + 1 } acc h]
    rfl

theorem fread_loop_world (len : Nat) (fuel : Nat) :
    ∀ (env : Env) (acc : List Nat) (env1 : Env) (res : Option (List Nat)) (tr : List Event),
      acc.length < len → fread_loop len fuel env acc = some (env1, res, tr) →
      reads_from env.fread_result env.n_fread tr ∧
      tr.length ≤ len - acc.length ∧
      (res = none → env.fread_result (env.n_fread + tr.length - 1) = []) := by
  induction fuel with
  | zero => intro env acc env1 res tr _ h; simp [fread_loop] at h
  | succ fuel ih =>
    intro env acc env1 res tr ha h
    have hrv : (((env.fread_result env.n_fread).take (len - acc.length)).map
        (fun b => b % 256)).length =
        min (len - acc.length) (env.fread_result env.n_fread).length := by
      rw [List.length_map, List.length_take]
    simp only [fread_loop] at h
    split_ifs at h with h0 h1
    · simp only [Option.some.injEq, Prod.mk.injEq] at h
      obtain ⟨rfl, rfl, rfl⟩ := h
      refine ⟨⟨hrv, trivial⟩, by simp only [List.length_singleton]; omega, fun _ => ?_⟩
      exact take_map_nil _ _ (by omega) h0
    · simp only [Option.some.injEq, Prod.mk.injEq] at h
      obtain ⟨rfl, rfl, rfl⟩ := h
      refine ⟨⟨hrv, trivial⟩, by simp only [List.length_singleton]; omega, fun hn => ?_⟩
      cases hn
    · rw [Option.map_eq_some'] at h
      obtain ⟨⟨e1, r1, t1⟩, hx, hxe⟩ := h
      simp only [Prod.mk.injEq] at hxe
      obtain ⟨rfl, rfl, rfl⟩ := hxe
      rw [List.length_append] at h1
      have hlt : (acc ++ ((env.fread_result env.n_fread).take (len - acc.length)).map
          (fun b => b % 256)).length < len := by
        rw [List.length_append]
        omega
      obtain ⟨k1, k2, k3⟩ := ih _ _ _ _ _ hlt hx
      rw [List.length_append] at k2
      refine ⟨⟨hrv, k1⟩, by simp only [List.length_cons]; omega, fun hn => ?_⟩
      have k4 := k3 hn
      have e : env.n_fread + (Event.fread acc.length (len - acc.length)
          (((env.fread_result env.n_fread).take (len - acc.length)).map
            (fun b => b % 256)).length :: t1).length - 1 = env.n_fread + 1 + t1.length - 1 := by
        simp only [List.length_cons]
        omega
      rw [e]
      exact k4

/-- C15: the device-file backend, for a request of `len ≥ 1` bytes and every
sequence of read results.  With fuel above `len` a pass of the read loop always
ends, after at most `len` reads.  Its reads start at offset 0, each asks for
exactly the bytes still missing, returns what the device offers (at most what
was asked) and moves the offset by that count.  If the pass completes,
`ares__rand_bytes_fetch` returns the accumulated bytes (`len` of them, the
chunks read in order) with the state as it was; it does complete when the
next `len` reads all offer something.  If a read returns zero (the device
offered nothing), exactly one reinitialization follows (the file is closed, the
backend selected anew) and the result is that of the fetch for the whole `len`
on the new state: nothing of the partial pass is kept. -/
theorem device_file_fetch (cfg : BuildConfig) (fuel : Nat) (env : Env) (st : ares_rand_state)
    (len : Nat) (hty : st.type = .ARES_RAND_FILE) (hlen : 1 ≤ len) (hfuel : len < fuel) :
    ∃ env1 res tr, fread_loop len fuel env [] = some (env1, res, tr) ∧
      reads_ok len 0 tr ∧
      reads_from env.fread_result env.n_fread tr ∧
      tr.length ≤ len ∧
      env1 = { env with n_fread := env.n_fread + tr.length } ∧
      (∀ bytes, res = some bytes →
        bytes = read_chunks env.fread_result env.n_fread tr ∧ bytes.length = len ∧
        ares__rand_bytes_fetch cfg (fuel + 1) env st len =
          some { env := env1, state := st, bytes := bytes, trace := tr }) ∧
      ((∀ k, env.n_fread ≤ k → k < env.n_fread + len → env.fread_result k ≠ []) →
        ∃ bytes, res = some bytes) ∧
      (res = none →
        (∃ o a, tr.getLast? = some (Event.fread o a 0)) ∧
        env.fread_result (env.n_fread + tr.length - 1) = [] ∧
        (ares__reinit_rand cfg env1 st).trace =
          Event.reinit :: Event.fclose st.rand_file :: (ares__init_rand_engine cfg env1).trace ∧
        Event.reinit ∉ (ares__init_rand_engine cfg env1).trace ∧
        (ares__reinit_rand cfg env1 st).state = (ares__init_rand_engine cfg env1).state ∧
        ares__rand_bytes_fetch cfg (fuel + 1) env st len =
          (ares__rand_bytes_fetch cfg fuel (ares__reinit_rand cfg env1 st).env
              (ares__reinit_rand cfg env1 st).state len).map
            (fun x => { x with trace := tr ++ (ares__reinit_rand cfg env1 st).trace ++ x.trace })) := by
  obtain ⟨⟨env1, res, tr⟩, hx, _, _⟩ := fread_loop_total len fuel env [] (by simp)
    (by simp; omega)
  obtain ⟨k1, k2, k3, k4⟩ := fread_loop_reads len fuel env [] env1 res tr (by simpa using hlen) hx
  obtain ⟨w1, w2, w3⟩ := fread_loop_world len fuel env [] env1 res tr (by simpa using hlen) hx
  refine ⟨env1, res, tr, hx, k1, w1, by simpa using w2, k2, ?_, ?_, ?_⟩
  · intro bytes hb
    obtain ⟨k5, k6⟩ := k3 bytes hb
    subst hb
    refine ⟨by simpa using k5, k6, ?_⟩
    simp only [ares__rand_bytes_fetch, hty, hx]
  · intro hw
    cases res with
    | some bytes => exact ⟨bytes, rfl⟩
    | none =>
      have hb := fread_loop_fails_before len env.n_fread fuel env [] env1 tr
        (by simpa using hlen) (by simp) hw hx
      omega
  · intro hn
    subst hn
    refine ⟨k4 rfl, w3 rfl, ?_, init_trace_no_reinit cfg env1, rfl, ?_⟩
    · simp only [ares__reinit_rand, ares__clear_rand_state, hty, List.singleton_append]
    · simp only [ares__rand_bytes_fetch, hty, hx]

set_option maxRecDepth 100000 in
/-- C15 at concrete inputs, on a device that offers three bytes, one byte,
nothing, and then six bytes per read.  A request of five bytes reads three and
one, a third read returns zero, and after the reinitialization the five bytes
all come from the fourth read.  A request of four bytes is completed by the
first two reads. -/
theorem device_file_fetch_witness :
    ((st_fives .ARES_RAND_FILE 0).type = .ARES_RAND_FILE ∧ 1 ≤ 5 ∧ 5 < 6) ∧
    (∃ env1 res tr, fread_loop 5 6 env_trickle [] = some (env1, res, tr) ∧
      reads_ok 5 0 tr ∧ reads_from env_trickle.fread_result env_trickle.n_fread tr ∧
      tr.length ≤ 5 ∧ env1 = { env_trickle with n_fread := env_trickle.n_fread + tr.length }) ∧
    fread_loop 5 6 env_trickle [] =
      some ({ env_trickle with n_fread := 3 }, none,
        [Event.fread 0 5 3, Event.fread 3 2 1, Event.fread 4 1 0]) ∧
    (ares__rand_bytes_fetch cfg_file 7 env_trickle (st_fives .ARES_RAND_FILE 0) 5).map
        (fun r => (r.bytes, r.trace)) =
      some ([20, 21, 22, 23, 24],
        [Event.fread 0 5 3, Event.fread 3 2 1, Event.fread 4 1 0, Event.reinit,
         Event.fclose 1, Event.fopen 1, Event.fread 0 5 5]) ∧
    (ares__rand_bytes_fetch cfg_file 7 env_trickle (st_fives .ARES_RAND_FILE 0) 4).map
        (fun r => (r.bytes, r.trace, r.state)) =
      some ([10, 11, 12, 13], [Event.fread 0 4 3, Event.fread 3 1 1],
        st_fives .ARES_RAND_FILE 0) :=
  ⟨⟨rfl, by decide, by decide⟩,
   match device_file_fetch cfg_file 6 env_trickle (st_fives .ARES_RAND_FILE 0) 5 rfl
       (by decide) (by decide) with
   | ⟨env1, res, tr, h1, h2, h3, h4, h5, _⟩ => ⟨env1, res, tr, h1, h2, h3, h4, h5⟩,
   by rfl, by rfl, by rfl⟩

/-! ## The cache discipline and the origins of delivered bytes (used by C16) -/

theorem discipline_run_append (a : List Event) : ∀ (rem : Nat) (b : List Event),
    discipline_run rem (a ++ b) = (discipline_run rem a).bind (fun r => discipline_run r b) := by
  induction a with
  | nil => intro rem b; rfl
  | cons e a ih =>
    intro rem b
    cases e with
    | fetch d n =>
      cases d
      · simp only [List.cons_append, discipline_run, List.append_eq, ih]
      · simp only [List.cons_append, discipline_run, List.append_eq, ih]
        split_ifs <;> rfl
    | memcpy off len =>
      simp only [List.cons_append, discipline_run, List.append_eq, ih]
      split_ifs <;> rfl
    | reinit => rfl
    | _ => simp only [List.cons_append, discipline_run, List.append_eq, ih]

theorem delivered_count_append (a b : List Event) :
    delivered_count (a ++ b) = delivered_count a + delivered_count b := by
  induction a with
  | nil => simp [delivered_count]
  | cons e a ih =>
    cases e with
    | fetch d n =>
      cases d
      · simp only [List.cons_append, delivered_count, List.append_eq, ih]
        omega
      · simp only [List.cons_append, delivered_count, List.append_eq, ih]
    | memcpy off len =>
      simp only [List.cons_append, delivered_count, List.append_eq, ih]
      omega
    | _ => simp only [List.cons_append, delivered_count, List.append_eq, ih]

theorem backend_trace_neutral (tr : List Event) (h : ∀ e ∈ tr, backend_event e = true)
    (hno : Event.reinit ∉ tr) :
    (∀ rem, discipline_run rem tr = some rem) ∧ (∀ L, ledger_replay L tr = L) ∧
    delivered_count tr = 0 := by
  induction tr with
  | nil => exact ⟨fun _ => rfl, fun _ => rfl, rfl⟩
  | cons e tr ih =>
    have h1 := h e (List.mem_cons_self _ _)
    have h2 := ih (fun x hx => h x (List.mem_cons_of_mem _ hx))
      (fun hx => hno (List.mem_cons_of_mem _ hx))
    have h3 : e ≠ Event.reinit := fun he => hno (he ▸ List.mem_cons_self _ _)
    cases e with
    | fetch d n => simp [backend_event] at h1
    | memcpy off len => simp [backend_event] at h1
    | reinit => exact absurd rfl h3
    | _ =>
      refine ⟨fun rem => ?_, fun L => ?_, ?_⟩
      · simp only [discipline_run]
        exact h2.1 rem
      · simp only [ledger_replay, List.foldl_cons, ledger_step]
        exact h2.2.1 L
      · simp only [delivered_count]
        exact h2.2.2

theorem fetched_origins_length (k n : Nat) : (fetched_origins k n).length = n := by
  simp [fetched_origins]

theorem fetched_origins_mem (k n : Nat) (o : Option (Nat × Nat)) (h : o ∈ fetched_origins k n) :
    ∃ p, o = some (k, p) := by
  obtain ⟨p, _, rfl⟩ := List.mem_map.mp h
  exact ⟨p, rfl⟩

theorem fetched_origins_nodup (k n : Nat) : (fetched_origins k n).Nodup := by
  unfold fetched_origins
  apply List.Nodup.map _ (List.nodup_range n)
  intro a b h
  simpa using h

/-- Bytes of a new fetch are new: they occur nowhere in a sound ledger. -/
theorem ledger_add_fetch (L : Ledger) (n : Nat) (old : List (Option (Nat × Nat)))
    (hold : ∀ o ∈ old, ∃ k p, o = some (k, p) ∧ k < L.fetches) (hnd : old.Nodup) :
    (∀ o ∈ fetched_origins L.fetches n ++ old, ∃ k p, o = some (k, p) ∧ k < L.fetches + 1) ∧
    (fetched_origins L.fetches n ++ old).Nodup := by
  refine ⟨?_, ?_⟩
  · intro o ho
    rcases List.mem_append.mp ho with h | h
    · obtain ⟨p, rfl⟩ := fetched_origins_mem _ _ _ h
      exact ⟨_, p, rfl, Nat.lt_succ_self _⟩
    · obtain ⟨k, p, rfl, hk⟩ := hold o h
      exact ⟨k, p, rfl, by omega⟩
  · refine List.Nodup.append (fetched_origins_nodup _ _) hnd ?_
    intro o h1 h2
    obtain ⟨p, rfl⟩ := fetched_origins_mem _ _ _ h1
    obtain ⟨k, q, he, hk⟩ := hold _ h2
    simp only [Option.some.injEq, Prod.mk.injEq] at he
    omega

theorem ledger_step_sound (L : Ledger) (rem rem1 : Nat) (e : Event) (hi : LedgerInv L rem)
    (hd : discipline_run rem [e] = some rem1) :
    LedgerInv (ledger_step L e) rem1 ∧
    (ledger_step L e).delivered.length = L.delivered.length + delivered_count [e] := by
  obtain ⟨hlen, hrem, hmem, hnd⟩ := hi
  cases e with
  | fetch d n =>
    cases d with
    | caller =>
      simp only [discipline_run, Option.some.injEq] at hd
      subst hd
      have h := ledger_add_fetch L n _ hmem hnd
      refine ⟨⟨hlen, hrem, ?_, ?_⟩, by simp [ledger_step, delivered_count, fetched_origins_length]⟩
      · intro o ho
        apply h.1 o
        simp only [ledger_step, List.mem_append] at ho ⊢
        tauto
      · have hp : (L.cache.drop (256 - rem) ++ (L.delivered ++ fetched_origins L.fetches n)).Perm
            (fetched_origins L.fetches n ++ (L.cache.drop (256 - rem) ++ L.delivered)) := by
          rw [← List.append_assoc]
          exact List.perm_append_comm
        exact hp.nodup_iff.mpr h.2
    | cache =>
      simp only [discipline_run] at hd
      split_ifs at hd with hn
      simp only [Option.some.injEq] at hd
      subst hd
      subst hn
      have h := ledger_add_fetch L (256 - rem) _ hmem hnd
      refine ⟨⟨?_, Nat.le_refl _, ?_, ?_⟩, by simp [ledger_step, delivered_count]⟩
      · simp only [ledger_step, List.length_append, fetched_origins_length, List.length_drop, hlen]
        omega
      · intro o ho
        apply h.1 o
        simpa [ledger_step, List.append_assoc] using ho
      · simpa [ledger_step, List.append_assoc] using h.2
  | memcpy off len =>
    simp only [discipline_run] at hd
    split_ifs at hd with hc
    simp only [Option.some.injEq] at hd
    subst hd
    obtain ⟨rfl, hle⟩ := hc
    have hsplit : L.cache.drop (256 - (rem - len)) = (L.cache.drop (256 - rem)).drop len := by
      rw [List.drop_drop]
      congr 1
      omega
    have hp : (L.cache.drop (256 - (rem - len)) ++
        (L.delivered ++ (L.cache.drop (256 - rem)).take len)).Perm
        (L.cache.drop (256 - rem) ++ L.delivered) := by
      rw [hsplit]
      have e := List.take_append_drop len (L.cache.drop (256 - rem))
      conv_rhs => rw [← e]
      refine List.perm_append_comm.trans ?_
      rw [List.append_assoc]
      exact List.perm_append_comm
    refine ⟨⟨hlen, by omega, ?_, hp.nodup_iff.mpr hnd⟩, ?_⟩
    · intro o ho
      exact hmem o (hp.mem_iff.mp ho)
    · simp only [ledger_step, List.length_append, List.length_take, List.length_drop, hlen,
        delivered_count]
      omega
  | reinit => simp [discipline_run] at hd
  | _ =>
    simp only [discipline_run, Option.some.injEq] at hd
    subst hd
    exact ⟨⟨hlen, hrem, hmem, hnd⟩, by simp [ledger_step, delivered_count]⟩

theorem ledger_sound (tr : List Event) : ∀ (L : Ledger) (rem rem1 : Nat),
    LedgerInv L rem → discipline_run rem tr = some rem1 →
    LedgerInv (ledger_replay L tr) rem1 ∧
    (ledger_replay L tr).delivered.length = L.delivered.length + delivered_count tr := by
  induction tr with
  | nil =>
    intro L rem rem1 hi hd
    simp only [discipline_run, Option.some.injEq] at hd
    subst hd
    exact ⟨hi, rfl⟩
  | cons e tr ih =>
    intro L rem rem1 hi hd
    have happ := discipline_run_append [e] rem tr
    simp only [List.singleton_append] at happ
    rw [happ] at hd
    cases h1 : discipline_run rem [e] with
    | none => simp [h1] at hd
    | some r =>
      rw [h1] at hd
      have hs := ledger_step_sound L rem r e hi h1
      have h2 := ih (ledger_step L e) r rem1 hs.1 hd
      refine ⟨h2.1, ?_⟩
      show (ledger_replay (ledger_step L e) tr).delivered.length = _
      have hc := delivered_count_append [e] tr
      simp only [List.singleton_append] at hc
      rw [h2.2, hs.2, hc]
      omega

theorem ledger_start_inv : LedgerInv ledger_start 0 := by
  have hlen : ledger_start.cache.length = 256 := List.length_replicate _ _
  have hnil : ledger_start.cache.drop (256 - 0) = [] :=
    List.drop_eq_nil_of_le (by rw [hlen])
  have hdel : ledger_start.delivered = [] := rfl
  refine ⟨hlen, by omega, ?_, ?_⟩
  · intro o ho
    rw [hnil, hdel] at ho
    cases ho
  · rw [hnil, hdel]
    exact List.nodup_nil


theorem discipline_no_reinit (tr : List Event) : ∀ rem rem1 : Nat,
    discipline_run rem tr = some rem1 → Event.reinit ∉ tr := by
  induction tr with
  | nil => intro _ _ _ h; cases h
  | cons e tr ih =>
    intro rem rem1 hd hm
    have happ := discipline_run_append [e] rem tr
    simp only [List.singleton_append] at happ
    rw [happ] at hd
    cases h1 : discipline_run rem [e] with
    | none => simp [h1] at hd
    | some r =>
      rw [h1] at hd
      rcases List.mem_cons.mp hm with h | h
      · subst h
        simp [discipline_run] at h1
      · exact ih r rem1 hd h

/-! ## The bytes delivered are the bytes fetched (C16) -/

theorem getrandom_loop_env (len : Nat) (fuel : Nat) :
    ∀ (env : Env) (acc : List Nat) (r : Env × List Nat × List Event),
      getrandom_loop len fuel env acc = some r →
      r.1 = { env with n_getrandom := r.1.n_getrandom } := by
  induction fuel with
  | zero => intro env acc r h; simp [getrandom_loop] at h
  | succ fuel ih =>
    intro env acc r h
    simp only [getrandom_loop] at h
    split at h
    · rw [Option.map_eq_some'] at h
      obtain ⟨x, hx, rfl⟩ := h
      have := ih _ _ _ hx
      show x.1 = { env with n_getrandom := x.1.n_getrandom }
      rw [this]
    · split_ifs at h
      all_goals
        first
        | (cases h; rfl)
        | (rw [Option.map_eq_some'] at h
           obtain ⟨x, hx, rfl⟩ := h
           have := ih _ _ _ hx
           show x.1 = { env with n_getrandom := x.1.n_getrandom }
           rw [this])

/-- A fetch leaves the results of `RtlGenRandom` as they are and only moves the
count of OS generator calls forward. -/
theorem fetch_env_os (cfg : BuildConfig) (len : Nat) (fuel : Nat) :
    ∀ (env : Env) (st : ares_rand_state) (r : FetchResult),
      ares__rand_bytes_fetch cfg fuel env st len = some r →
      r.env.RtlGenRandom_ok = env.RtlGenRandom_ok ∧ env.n_os ≤ r.env.n_os := by
  induction fuel with
  | zero => intro env st r h; simp [ares__rand_bytes_fetch] at h
  | succ fuel ih =>
    intro env st r h
    have retry : ∀ (env1 : Env) (tr : List Event),
        env1.n_os = env.n_os → env1.RtlGenRandom_ok = env.RtlGenRandom_ok →
        (ares__rand_bytes_fetch cfg fuel (ares__reinit_rand cfg env1 st).env
            (ares__reinit_rand cfg env1 st).state len).map
          (fun x => { x with trace := tr ++ (ares__reinit_rand cfg env1 st).trace ++ x.trace })
          = some r → r.env.RtlGenRandom_ok = env.RtlGenRandom_ok ∧ env.n_os ≤ r.env.n_os := by
      intro env1 tr e1 e2 hr
      rw [Option.map_eq_some'] at hr
      obtain ⟨x, hx, rfl⟩ := hr
      have h2 := ih _ _ x hx
      have he := init_engine_env cfg env1
      have h3 : (ares__reinit_rand cfg env1 st).env.n_os = env.n_os := by
        show (ares__init_rand_engine cfg env1).env.n_os = env.n_os
        rw [he]
        exact e1
      have h4 : (ares__reinit_rand cfg env1 st).env.RtlGenRandom_ok = env.RtlGenRandom_ok := by
        show (ares__init_rand_engine cfg env1).env.RtlGenRandom_ok = env.RtlGenRandom_ok
        rw [he]
        exact e2
      rw [h3, h4] at h2
      exact h2
    simp only [ares__rand_bytes_fetch] at h
    split at h
    · split_ifs at h
      · cases h
        exact ⟨rfl, Nat.le_succ _⟩
      · cases h
        exact ⟨rfl, Nat.le_succ _⟩
      · rw [Option.map_eq_some'] at h
        obtain ⟨x, hx, rfl⟩ := h
        have he : x.1 = { env with n_getrandom := x.1.n_getrandom } :=
          getrandom_loop_env len fuel _ _ _ hx
        show x.1.RtlGenRandom_ok = env.RtlGenRandom_ok ∧ env.n_os ≤ x.1.n_os
        rw [he]
        exact ⟨rfl, Nat.le_refl _⟩
      · exact retry _ _ rfl rfl h
    · split at h
      · cases h
      · rename_i env1 bytes tr hfr
        cases h
        have he : env1 = { env with n_fread := env1.n_fread } := fread_loop_env len fuel _ _ _ hfr
        show env1.RtlGenRandom_ok = env.RtlGenRandom_ok ∧ env.n_os ≤ env1.n_os
        rw [he]
        exact ⟨rfl, Nat.le_refl _⟩
      · rename_i env1 tr hfr
        have he : env1 = { env with n_fread := env1.n_fread } := fread_loop_env len fuel _ _ _ hfr
        exact retry _ _ (by rw [he]) (by rw [he]) h
    · split_ifs at h
      · cases h
        exact ⟨rfl, Nat.le_refl _⟩
      · exact retry _ _ rfl rfl h

/-- With a backend whose fetches do not fail, a fetch of at least one byte
returns all its bytes without touching the state's cache. -/
theorem fetch_fills (cfg : BuildConfig) (fuel : Nat) (env : Env) (st : ares_rand_state)
    (len : Nat) (hd : BackendFills env) (ht : TypeOk cfg st) (hl : 1 ≤ len)
    (hf : len < fuel) (hul : cfg.win32 = true → len < ULONG_MOD) :
    ∃ x, ares__rand_bytes_fetch cfg fuel env st len = some x ∧ Event.reinit ∉ x.trace ∧
      BackendFills x.env ∧ x.bytes.length = len ∧ x.state.cache = st.cache ∧
      x.state.cache_remaining = st.cache_remaining ∧ x.state.type = st.type := by
  obtain ⟨x, hx, hno, hdx⟩ := fetch_delivers cfg fuel env st len hd.1 ht hl hf
  have hlen := fetch_length cfg len fuel env st x
    (fun hw => ⟨hd.2 _ (Nat.le_refl _), hul hw⟩) hx
  have hos := fetch_env_os cfg len fuel env st x hx
  refine ⟨x, hx, hno, ⟨hdx, fun k hk => ?_⟩, hlen, ?_⟩
  · rw [hos.1]
    exact hd.2 k (by omega)
  · rcases (fetch_frame cfg len fuel env st x hx).2 with ⟨a, b, c, _, _⟩ | ⟨_, _, hre⟩
    · exact ⟨a, b, c⟩
    · exact absurd hre hno

theorem map_range_getD (l : List Nat) :
    (List.range l.length).map (fun p => l.getD p 0) = l := by
  apply List.ext_getElem
  · simp
  · intro i h1 h2
    simp [List.getD_eq_getElem, h2]

theorem origin_byte_append (F G : List (List Nat)) (o : Option (Nat × Nat))
    (h : ∃ k p, o = some (k, p) ∧ k < F.length ∧ p < (F.getD k []).length) :
    origin_byte (F ++ G) o = origin_byte F o ∧
    ∃ k p, o = some (k, p) ∧ k < (F ++ G).length ∧ p < ((F ++ G).getD k []).length := by
  obtain ⟨k, p, rfl, hk, hp⟩ := h
  have e : (F ++ G).getD k [] = F.getD k [] := List.getD_append F G [] k hk
  refine ⟨?_, k, p, rfl, ?_, ?_⟩
  · simp only [origin_byte, e]
  · rw [List.length_append]
    omega
  · rw [e]
    exact hp

theorem origin_byte_map_append (F G : List (List Nat)) (l : List (Option (Nat × Nat)))
    (h : ∀ o ∈ l, ∃ k p, o = some (k, p) ∧ k < F.length ∧ p < (F.getD k []).length) :
    l.map (origin_byte (F ++ G)) = l.map (origin_byte F) :=
  List.map_congr_left (fun o ho => (origin_byte_append F G o (h o ho)).1)

/-- The origins of a new fetch name its bytes. -/
theorem origin_byte_fetched (F : List (List Nat)) (bytes : List Nat) :
    (fetched_origins F.length bytes.length).map (origin_byte (F ++ [bytes])) = bytes ∧
    ∀ o ∈ fetched_origins F.length bytes.length,
      ∃ k p, o = some (k, p) ∧ k < (F ++ [bytes]).length ∧
        p < ((F ++ [bytes]).getD k []).length := by
  have e : (F ++ [bytes]).getD F.length [] = bytes := by
    rw [List.getD_append_right F [bytes] [] F.length (Nat.le_refl _)]
    simp
  refine ⟨?_, ?_⟩
  · unfold fetched_origins
    rw [List.map_map]
    have : (origin_byte (F ++ [bytes]) ∘ fun p => some (F.length, p)) =
        fun p => bytes.getD p 0 := by
      funext p
      simp only [Function.comp, origin_byte, e]
    rw [this]
    exact map_range_getD bytes
  · intro o ho
    obtain ⟨p, hp, rfl⟩ := List.mem_map.mp ho
    refine ⟨F.length, p, rfl, ?_, ?_⟩
    · rw [List.length_append]
      simp
    · rw [e]
      exact List.mem_range.mp hp

theorem ledger_replay_append (L : Ledger) (a b : List Event) :
    ledger_replay L (a ++ b) = ledger_replay (ledger_replay L a) b := by
  simp only [ledger_replay, List.foldl_append]

theorem ledger_replay_cons (L : Ledger) (e : Event) (tr : List Event) :
    ledger_replay L (e :: tr) = ledger_replay (ledger_step L e) tr := rfl

/-- One call keeps the ledger in agreement with the bytes. -/
theorem call_values (cfg : BuildConfig) (fuel : Nat) (env : Env) (st : ares_rand_state)
    (len : Nat) (L : Ledger) (F : List (List Nat)) (D : List Nat)
    (hc : st.cache.length = 256) (hr : st.cache_remaining ≤ 255)
    (ht : TypeOk cfg st) (hd : BackendFills env) (hfuel : 256 < fuel) (hlen : len < fuel)
    (hul : cfg.win32 = true → len < ULONG_MOD) (hA : LedgerAgrees L st F D) :
    ∃ r, ares__rand_bytes cfg fuel env st len = some r ∧ BackendFills r.env ∧
      TypeOk cfg r.state ∧ r.state.cache.length = 256 ∧ r.state.cache_remaining ≤ 255 ∧
      r.bytes.length = len ∧
      discipline_run st.cache_remaining r.trace = some r.state.cache_remaining ∧
      delivered_count r.trace = len ∧
      (call_fetched cfg fuel env st len).map List.length = fetch_sizes r.trace ∧
      LedgerAgrees (ledger_replay L r.trace) r.state (F ++ call_fetched cfg fuel env st len)
        (D ++ r.bytes) := by
  obtain ⟨hA1, hA2, hA3, hA4⟩ := hA
  by_cases h1 : len ≤ st.cache_remaining
  · have hcf : call_fetched cfg fuel env st len = [] := by
      simp only [call_fetched, h1, if_true]
    have hs : ∀ (l : List (Option (Nat × Nat))),
        l.drop (256 - (st.cache_remaining - len)) = (l.drop (256 - st.cache_remaining)).drop len := by
      intro l
      rw [List.drop_drop]
      congr 1
      omega
    have hs2 : st.cache.drop (256 - (st.cache_remaining - len)) =
        (st.cache.drop (256 - st.cache_remaining)).drop len := by
      rw [List.drop_drop]
      congr 1
      omega
    refine ⟨_, rand_bytes_serve cfg fuel env st len (by omega) h1, hd, ht, hc, ?_, ?_, ?_, ?_,
      ?_, ?_⟩
    · show st.cache_remaining - len ≤ 255
      omega
    · show ((st.cache.drop (256 - st.cache_remaining)).take len).length = len
      rw [List.length_take, List.length_drop, hc]
      omega
    · simp only [discipline_run, h1, and_self, if_true]
    · simp [delivered_count]
    · rw [hcf]
      rfl
    · rw [hcf, List.append_nil]
      refine ⟨hA1, ?_, ?_, ?_⟩
      · show st.cache.drop (256 - (st.cache_remaining - len)) =
          (L.cache.drop (256 - (st.cache_remaining - len))).map (origin_byte F)
        rw [hs, hs2, hA2]
        simp only [List.map_drop]
      · show D ++ (st.cache.drop (256 - st.cache_remaining)).take len =
          (L.delivered ++ (L.cache.drop (256 - st.cache_remaining)).take len).map (origin_byte F)
        rw [List.map_append, List.map_take, ← hA2, ← hA3]
      · intro o ho
        have ho2 : o ∈ L.cache.drop (256 - (st.cache_remaining - len)) ++
            (L.delivered ++ (L.cache.drop (256 - st.cache_remaining)).take len) := ho
        rw [hs] at ho2
        apply hA4 o
        simp only [List.mem_append] at ho2 ⊢
        rcases ho2 with h | h | h
        · exact Or.inl (List.mem_of_mem_drop h)
        · exact Or.inr h
        · exact Or.inl (List.mem_of_mem_take h)
  · have hold : ∀ (G : List (List Nat)) (o : Option (Nat × Nat)),
        o ∈ L.cache.drop (256 - st.cache_remaining) ++ L.delivered →
        ∃ k p, o = some (k, p) ∧ k < (F ++ G).length ∧ p < ((F ++ G).getD k []).length :=
      fun G o ho => (origin_byte_append F G o (hA4 o ho)).2
    have hdel : ∀ G : List (List Nat), L.delivered.map (origin_byte (F ++ G)) = D := by
      intro G
      rw [origin_byte_map_append F G _ (fun o ho => hA4 o (List.mem_append_right _ ho)), hA3]
    have hcache : ∀ G : List (List Nat),
        (L.cache.drop (256 - st.cache_remaining)).map (origin_byte (F ++ G)) =
          st.cache.drop (256 - st.cache_remaining) := by
      intro G
      rw [origin_byte_map_append F G _ (fun o ho => hA4 o (List.mem_append_left _ ho)), hA2]
    by_cases h2 : len < 256
    · obtain ⟨x, hx, hno, hdx, hxl, hxc, _, hxt⟩ := fetch_fills cfg fuel env st
        (256 - st.cache_remaining) hd ht (by omega) (by omega)
        (fun _ => by unfold ULONG_MOD; omega)
      have hb := fetch_trace cfg _ fuel env st x hx
      have hn := backend_trace_neutral x.trace hb hno
      have hft := fetch_sizes_backend x.trace hb
      have hwb : write_buf x.state.cache x.bytes =
          x.bytes ++ st.cache.drop (256 - st.cache_remaining) := by
        unfold write_buf
        rw [hxc, hxl]
      have hcall : ares__rand_bytes cfg fuel env st len = some
          { env := x.env,
            state := { x.state with
                         cache := x.bytes ++ st.cache.drop (256 - st.cache_remaining),
                         cache_remaining := 256 - len },
            bytes := (x.bytes ++ st.cache.drop (256 - st.cache_remaining)).take len,
            trace := Event.fetch .cache (256 - st.cache_remaining) ::
              (x.trace ++ [Event.memcpy 0 len]) } := by
        rw [rand_bytes_refill cfg fuel env st len (by omega) h2, hx]
        simp only [Option.map_some', hwb]
      have hcf : call_fetched cfg fuel env st len = [x.bytes] := by
        simp only [call_fetched, h1, if_false, h2, if_true, hx]
      have hrep : ledger_replay L (Event.fetch .cache (256 - st.cache_remaining) ::
          (x.trace ++ [Event.memcpy 0 len])) =
          { cache := fetched_origins F.length x.bytes.length ++
              L.cache.drop (256 - st.cache_remaining),
            fetches := L.fetches + 1,
            delivered := L.delivered ++
              (fetched_origins F.length x.bytes.length ++
                L.cache.drop (256 - st.cache_remaining)).take len } := by
        rw [ledger_replay_cons, ledger_replay_append, hn.2.1, hxl, ← hA1]
        simp only [ledger_replay, List.foldl, ledger_step, List.drop_zero]
      have hK : x.bytes ++ st.cache.drop (256 - st.cache_remaining) =
          (fetched_origins F.length x.bytes.length ++
            L.cache.drop (256 - st.cache_remaining)).map (origin_byte (F ++ [x.bytes])) := by
        rw [List.map_append, (origin_byte_fetched F x.bytes).1, hcache]
      have hlenC : (x.bytes ++ st.cache.drop (256 - st.cache_remaining)).length = 256 := by
        rw [List.length_append, List.length_drop, hxl, hc]
        omega
      refine ⟨_, hcall, hdx, ⟨fun h => ht.1 (hxt ▸ h), fun h => ht.2 (hxt ▸ h)⟩, hlenC, ?_, ?_,
        ?_, ?_, ?_, ?_⟩
      · show 256 - len ≤ 255
        omega
      · show ((x.bytes ++ st.cache.drop (256 - st.cache_remaining)).take len).length = len
        rw [List.length_take, hlenC]
        omega
      · have happ := discipline_run_append x.trace 256 [Event.memcpy 0 len]
        simp only [discipline_run, if_true, happ, hn.1 256, Option.some_bind]
        have hl : len ≤ 256 := by omega
        simp [hl]
      · simp only [delivered_count, delivered_count_append, hn.2.2]
        omega
      · rw [hcf]
        simp [fetch_sizes, fetch_sizes_append, hft.1, hxl]
      · rw [hcf, hrep]
        refine ⟨?_, ?_, ?_, ?_⟩
        · show L.fetches + 1 = (F ++ [x.bytes]).length
          rw [List.length_append, hA1]
          rfl
        · show (x.bytes ++ st.cache.drop (256 - st.cache_remaining)).drop (256 - (256 - len)) =
            ((fetched_origins F.length x.bytes.length ++
              L.cache.drop (256 - st.cache_remaining)).drop (256 - (256 - len))).map
              (origin_byte (F ++ [x.bytes]))
          rw [hK, List.map_drop]
        · show D ++ (x.bytes ++ st.cache.drop (256 - st.cache_remaining)).take len =
            (L.delivered ++ (fetched_origins F.length x.bytes.length ++
              L.cache.drop (256 - st.cache_remaining)).take len).map
              (origin_byte (F ++ [x.bytes]))
          rw [List.map_append, hdel, List.map_take, ← hK]
        · intro o ho
          have ho2 : o ∈ (fetched_origins F.length x.bytes.length ++
              L.cache.drop (256 - st.cache_remaining)).drop (256 - (256 - len)) ++
              (L.delivered ++ (fetched_origins F.length x.bytes.length ++
                L.cache.drop (256 - st.cache_remaining)).take len) := ho
          have ho3 : o ∈ fetched_origins F.length x.bytes.length ∨
              o ∈ L.cache.drop (256 - st.cache_remaining) ++ L.delivered := by
            simp only [List.mem_append] at ho2 ⊢
            rcases ho2 with h | h | h
            · rcases List.mem_append.mp (List.mem_of_mem_drop h) with h | h
              · exact Or.inl h
              · exact Or.inr (Or.inl h)
            · exact Or.inr (Or.inr h)
            · rcases List.mem_append.mp (List.mem_of_mem_take h) with h | h
              · exact Or.inl h
              · exact Or.inr (Or.inl h)
          rcases ho3 with h | h
          · exact (origin_byte_fetched F x.bytes).2 o h
          · exact hold [x.bytes] o h
    · obtain ⟨x, hx, hno, hdx, hxl, hxc, hxr, hxt⟩ := fetch_fills cfg fuel env st len hd ht
        (by omega) hlen hul
      have hb := fetch_trace cfg _ fuel env st x hx
      have hn := backend_trace_neutral x.trace hb hno
      have hft := fetch_sizes_backend x.trace hb
      have hcall : ares__rand_bytes cfg fuel env st len = some
          { x with trace := Event.fetch .caller len :: x.trace } := by
        rw [rand_bytes_bypass cfg fuel env st len (by omega) (by omega), hx]
        rfl
      have hcf : call_fetched cfg fuel env st len = [x.bytes] := by
        simp only [call_fetched, h1, if_false, h2, hx]
      have hrep : ledger_replay L (Event.fetch .caller len :: x.trace) =
          { L with delivered := L.delivered ++ fetched_origins F.length x.bytes.length,
                   fetches := L.fetches + 1 } := by
        rw [ledger_replay_cons, hn.2.1, hxl, ← hA1]
        rfl
      refine ⟨_, hcall, hdx, ⟨fun h => ht.1 (hxt ▸ h), fun h => ht.2 (hxt ▸ h)⟩, ?_, ?_, hxl,
        ?_, ?_, ?_, ?_⟩
      · show x.state.cache.length = 256
        rw [hxc, hc]
      · show x.state.cache_remaining ≤ 255
        rw [hxr]
        exact hr
      · simp only [discipline_run, hn.1, hxr]
      · simp only [delivered_count, hn.2.2]
        omega
      · rw [hcf]
        simp [fetch_sizes, hft.1, hxl]
      · rw [hcf, hrep]
        refine ⟨?_, ?_, ?_, ?_⟩
        · show L.fetches + 1 = (F ++ [x.bytes]).length
          rw [List.length_append, hA1]
          rfl
        · show x.state.cache.drop (256 - x.state.cache_remaining) =
            (L.cache.drop (256 - x.state.cache_remaining)).map (origin_byte (F ++ [x.bytes]))
          rw [hxc, hxr, hcache]
        · show D ++ x.bytes =
            (L.delivered ++ fetched_origins F.length x.bytes.length).map
              (origin_byte (F ++ [x.bytes]))
          rw [List.map_append, hdel, (origin_byte_fetched F x.bytes).1]
        · intro o ho
          have ho2 : o ∈ L.cache.drop (256 - x.state.cache_remaining) ++
              (L.delivered ++ fetched_origins F.length x.bytes.length) := ho
          rw [hxr] at ho2
          simp only [List.mem_append] at ho2
          rcases ho2 with h | h | h
          · exact hold [x.bytes] o (List.mem_append_left _ h)
          · exact hold [x.bytes] o (List.mem_append_right _ h)
          · exact (origin_byte_fetched F x.bytes).2 o h

/-- A run of calls keeps the ledger in agreement with the bytes. -/
theorem calls_values (cfg : BuildConfig) (fuel : Nat) (hfuel : 256 < fuel) (lens : List Nat) :
    ∀ (env : Env) (st : ares_rand_state) (L : Ledger) (F : List (List Nat)) (D : List Nat),
      st.cache.length = 256 → st.cache_remaining ≤ 255 → TypeOk cfg st → BackendFills env →
      (∀ len ∈ lens, len < fuel) → (cfg.win32 = true → ∀ len ∈ lens, len < ULONG_MOD) →
      LedgerAgrees L st F D →
      ∃ x, rand_bytes_calls cfg fuel lens env st = some x ∧
        x.2.2.1.map List.length = lens ∧
        discipline_run st.cache_remaining x.2.2.2 = some x.2.1.cache_remaining ∧
        delivered_count x.2.2.2 = lens.sum ∧
        (calls_fetched cfg fuel lens env st).map List.length = fetch_sizes x.2.2.2 ∧
        LedgerAgrees (ledger_replay L x.2.2.2) x.2.1 (F ++ calls_fetched cfg fuel lens env st)
          (D ++ x.2.2.1.flatten) := by
  induction lens with
  | nil =>
    intro env st L F D _ _ _ _ _ _ hA
    refine ⟨_, rfl, rfl, rfl, rfl, rfl, ?_⟩
    show LedgerAgrees L st (F ++ []) (D ++ [])
    rw [List.append_nil, List.append_nil]
    exact hA
  | cons len lens ih =>
    intro env st L F D hc hr ht hd hl hul hA
    obtain ⟨r, h1, h2, h3, h4, h5, h6, h7, h8, h9, h10⟩ := call_values cfg fuel env st len L F D
      hc hr ht hd hfuel (hl len (List.mem_cons_self _ _))
      (fun hw => hul hw len (List.mem_cons_self _ _)) hA
    obtain ⟨x, k1, k2, k3, k4, k5, k6⟩ := ih r.env r.state (ledger_replay L r.trace)
      (F ++ call_fetched cfg fuel env st len) (D ++ r.bytes) h4 h5 h3 h2
      (fun l hlm => hl l (List.mem_cons_of_mem _ hlm))
      (fun hw l hlm => hul hw l (List.mem_cons_of_mem _ hlm)) h10
    have hcf : calls_fetched cfg fuel (len :: lens) env st =
        call_fetched cfg fuel env st len ++ calls_fetched cfg fuel lens r.env r.state := by
      simp only [calls_fetched, h1]
    simp only [rand_bytes_calls, h1, k1, Option.map_some']
    refine ⟨_, rfl, ?_, ?_, ?_, ?_, ?_⟩
    · simp only [List.map_cons, h6, k2]
    · rw [discipline_run_append, h7]
      exact k3
    · rw [delivered_count_append, h8, k4, List.sum_cons]
    · rw [hcf, List.map_append, fetch_sizes_append, h9, k5]
    · rw [hcf, ledger_replay_append, ← List.append_assoc]
      have e : D ++ (r.bytes :: x.2.2.1).flatten = (D ++ r.bytes) ++ x.2.2.1.flatten := by
        rw [List.flatten_cons, List.append_assoc]
      show LedgerAgrees _ _ _ (D ++ (r.bytes :: x.2.2.1).flatten)
      rw [e]
      exact k6

theorem ledger_start_agrees (cfg : BuildConfig) (env : Env) :
    LedgerAgrees ledger_start (ares__init_rand_engine cfg env).state [] [] := by
  have hc := init_engine_cache cfg env
  have hlen : ledger_start.cache.length = 256 := List.length_replicate _ _
  have h1 : (ares__init_rand_engine cfg env).state.cache.drop
      (256 - (ares__init_rand_engine cfg env).state.cache_remaining) = [] :=
    List.drop_eq_nil_of_le (by rw [hc.2.1, zero_bytes_length, hc.2.2]; exact Nat.le_refl _)
  have h2 : ledger_start.cache.drop
      (256 - (ares__init_rand_engine cfg env).state.cache_remaining) = [] :=
    List.drop_eq_nil_of_le (by rw [hlen, hc.2.2])
  have h3 : ledger_start.delivered = [] := rfl
  refine ⟨rfl, ?_, ?_, ?_⟩
  · rw [h1, h2]
    rfl
  · rw [h3]
    rfl
  · intro o ho
    rw [h2, h3] at ho
    cases ho

/-- C16: from a freshly initialised state, with a backend whose fetches do not
fail, every sequence of `ares__rand_bytes` calls returns, without a
reinitialization.  Let `F` be the byte strings the backend fetches of the run
returned (as many and as long as the fetches in the trace) and let the ledger
`L` follow the trace.  Then the bytes delivered to the callers, in order, are
exactly the bytes that the origins in `L.delivered` name in `F`: every delivered
byte is byte `p` of some fetch `k`, and no byte of a fetch is delivered twice
(the origins of the delivered bytes and of the unserved cache bytes are all
distinct).  The unserved cache bytes are fetched bytes as well.  The trace keeps
the cache discipline: a top-up fetch covers exactly the served prefix of the
cache, a cache copy starts at the first unserved byte and stays within the
unserved bytes. -/
theorem delivered_bytes_come_from_fetches (cfg : BuildConfig) (env : Env) (lens : List Nat)
    (fuel : Nat) (hd : BackendFills env) (hfuel : 256 < fuel)
    (hlens : ∀ len ∈ lens, len < fuel)
    (hul : cfg.win32 = true → ∀ len ∈ lens, len < ULONG_MOD) :
    ∃ x F L, rand_bytes_calls cfg fuel lens (ares__init_rand_engine cfg env).env
          (ares__init_rand_engine cfg env).state = some x ∧
      F = calls_fetched cfg fuel lens (ares__init_rand_engine cfg env).env
          (ares__init_rand_engine cfg env).state ∧
      L = ledger_replay ledger_start x.2.2.2 ∧
      x.2.2.1.map List.length = lens ∧
      Event.reinit ∉ x.2.2.2 ∧
      discipline_run 0 x.2.2.2 = some x.2.1.cache_remaining ∧
      F.map List.length = fetch_sizes x.2.2.2 ∧
      L.fetches = F.length ∧
      x.2.2.1.flatten = L.delivered.map (origin_byte F) ∧
      (∀ o ∈ L.delivered, ∃ k p, o = some (k, p) ∧ k < F.length ∧ p < (F.getD k []).length) ∧
      x.2.1.cache.drop (256 - x.2.1.cache_remaining) =
        (L.cache.drop (256 - x.2.1.cache_remaining)).map (origin_byte F) ∧
      (L.cache.drop (256 - x.2.1.cache_remaining) ++ L.delivered).Nodup := by
  have hi := init_engine_ok cfg env hd.1
  have hc := init_engine_cache cfg env
  have hos : BackendFills (ares__init_rand_engine cfg env).env := by
    refine ⟨hi.2, ?_⟩
    rw [init_engine_env cfg env]
    exact hd.2
  obtain ⟨x, h1, h2, h3, _, h5, h6⟩ := calls_values cfg fuel hfuel lens
    (ares__init_rand_engine cfg env).env (ares__init_rand_engine cfg env).state ledger_start [] []
    (by rw [hc.2.1, zero_bytes_length]; rfl) (by rw [hc.2.2]; omega) hi.1 hos hlens hul
    (ledger_start_agrees cfg env)
  rw [hc.2.2] at h3
  rw [List.nil_append] at h6
  rw [List.nil_append] at h6
  obtain ⟨⟨_, _, _, hnd⟩, _⟩ := ledger_sound x.2.2.2 ledger_start 0 _ ledger_start_inv h3
  obtain ⟨a1, a2, a3, a4⟩ := h6
  exact ⟨x, _, _, h1, rfl, rfl, h2, discipline_no_reinit _ _ _ h3, h3, h5, a1, a3,
    fun o ho => a4 o (List.mem_append_right _ ho), a2, hnd⟩

theorem env_counting_fills : BackendFills env_counting := by
  refine ⟨⟨fun k _ => ?_, fun k _ => ⟨[1], rfl, by simp⟩⟩, fun k _ => rfl⟩
  intro h
  have h2 := congrArg List.length h
  simp only [env_counting] at h2
  split_ifs at h2 <;> simp at h2

set_option maxRecDepth 100000 in
/-- C16 at a concrete input: requests of 2, 3 and 255 bytes on a device file
whose first 256 bytes are `0 .. 255` and whose later bytes start at 200.  The
first call fetches 256 bytes and delivers bytes 0 and 1 of them, the second
delivers bytes 2, 3 and 4, the third fetches 5 bytes over the served prefix and
delivers them followed by the 250 unserved bytes `5 .. 254`. -/
theorem delivered_bytes_come_from_fetches_witness :
    BackendFills env_counting ∧
    (∃ x F L, rand_bytes_calls cfg_file 301 [2, 3, 255]
          (ares__init_rand_engine cfg_file env_counting).env
          (ares__init_rand_engine cfg_file env_counting).state = some x ∧
      F = calls_fetched cfg_file 301 [2, 3, 255]
          (ares__init_rand_engine cfg_file env_counting).env
          (ares__init_rand_engine cfg_file env_counting).state ∧
      L = ledger_replay ledger_start x.2.2.2 ∧
      x.2.2.1.flatten = L.delivered.map (origin_byte F) ∧
      (L.cache.drop (256 - x.2.1.cache_remaining) ++ L.delivered).Nodup) ∧
    (rand_bytes_calls cfg_file 301 [2, 3, 255]
        (ares__init_rand_engine cfg_file env_counting).env
        (ares__init_rand_engine cfg_file env_counting).state).map (fun x => x.2.2.1) =
      some [[0, 1], [2, 3, 4], [200, 201, 202, 203, 204] ++ List.range' 5 250] ∧
    calls_fetched cfg_file 301 [2, 3, 255]
        (ares__init_rand_engine cfg_file env_counting).env
        (ares__init_rand_engine cfg_file env_counting).state =
      [List.range 256, [200, 201, 202, 203, 204]] :=
  ⟨env_counting_fills,
   match delivered_bytes_come_from_fetches cfg_file env_counting [2, 3, 255] 301
       env_counting_fills (by decide) (by decide) (fun h => absurd h (by decide)) with
   | ⟨x, F, L, h1, h2, h3, _, _, _, _, _, h9, _, _, h12⟩ => ⟨x, F, L, h1, h2, h3, h9, h12⟩,
   by rfl, by rfl⟩

end Ares
